import Mathlib

/-!
Verification development for the syntax-highlight span composition core:
the span-to-event translator (`SpanIter`), the flat-path translator
(`flat_span_iter`) and the `HighlightSet` verifier, shallowly embedded from
`helix-core/src/syntax/span.rs` and `helix-core/src/syntax/highlight_set.rs`.

Machine integers (`usize`, `u128`) are modelled as `Nat`; the only place a
fixed width matters is the `u128` bitmask of `HighlightSet`, where the
release-mode masked shift is made explicit.  `Vec` and `VecDeque` are
modelled as `List` (for `Vec`, `push`/`pop`/`last` act on the list tail; for
the `VecDeque` event queue, `push_back` appends and `pop_front` takes the
head).  Fallible indexing is made explicit: the iterator step returns an
out-of-bounds marker instead of panicking, so memory-safety claims can be
stated.
-/

namespace HelixSpan

/-- A range highlighted with a given scope.  Embeds `struct Span` from
`span.rs` (`scope`, `start`, `end : usize`).  The `end` field is written
`«end»` because `end` is a Lean keyword. -/
structure Span where
  scope : Nat
  start : Nat
  «end» : Nat
  deriving DecidableEq, Repr

/-- Embeds `impl Ord for Span`: ascending by `start` and then descending by
`end` for ties; the `scope` field is not inspected. -/
def Span.cmp (self other : Span) : Ordering :=
  if self.start = other.start then
    (compare self.«end» other.«end»).swap
  else
    compare self.start other.start

/-- The boolean `self <= other` derived from `Span.cmp`, as Rust derives
`PartialOrd` from the `Ord` implementation. -/
def Span.leb (self other : Span) : Bool :=
  self.cmp other != Ordering.gt

/-- Propositional form of `Span.leb`. -/
def Span.le (self other : Span) : Prop :=
  self.leb other = true

instance (a b : Span) : Decidable (a.le b) := by
  unfold Span.le; infer_instance

/-- Modelled from the spec: the newtype `Highlight(usize)` carrying an opaque
scope identifier.  Its declaration lives in `syntax.rs`, outside the provided
sources; every use site (`Highlight(span.scope)`, `highlight.0`) fixes it as
a single-field wrapper of an unsigned integer. -/
structure Highlight where
  id : Nat
  deriving DecidableEq, Repr

/-- Modelled from the spec: the event variant
`Start(scope) | End | Source{start, end}` (spec section 3).  The declaration
of `enum HighlightEvent` lives in `syntax.rs`, outside the provided sources;
its three variants are fixed by every match in `span.rs` and
`highlight_set.rs`. -/
inductive HighlightEvent where
  | highlightStart (highlight : Highlight)
  | highlightEnd
  | source (start : Nat) («end» : Nat)
  deriving DecidableEq, Repr

/-- Pops the last element of a list, as `Vec::pop`. -/
def vecPop {α : Type} (l : List α) : Option (α × List α) :=
  match l.getLast? with
  | none => none
  | some x => some (x, l.dropLast)

/-- Insertion of one element into a descending-sorted list of ends. -/
def insertDesc (x : Nat) : List Nat → List Nat
  | [] => [x]
  | y :: ys => if y ≤ x then x :: y :: ys else y :: insertDesc x ys

/-- Sorting in descending order, as
`sort_unstable_by(|lhs, rhs| lhs.cmp(rhs).reverse())` on `span_ends`.
The sorted values are plain naturals, so any correct sorting algorithm
produces the same list; insertion sort keeps the model executable. -/
def sortDesc : List Nat → List Nat
  | [] => []
  | x :: xs => insertDesc x (sortDesc xs)

/-- `slice.rotate_left(n)` on a whole list (`n` never exceeds the length at
the call site in `partition_spans_at`). -/
def rotateLeftList {α : Type} (l : List α) (n : Nat) : List α :=
  l.drop n ++ l.take n

/-- The state of the span-to-event iterator, embedding `struct SpanIter`. -/
structure SpanIter where
  spans : List Span
  index : Nat
  event_queue : List HighlightEvent
  span_ends : List Nat
  cursor : Nat
  deriving Repr

/-- Embeds `SpanIter::start_span`: queue a `HighlightStart` for the span and
push its end onto `span_ends`. -/
def SpanIter.start_span (self : SpanIter) (span : Span) : SpanIter :=
  { self with
    event_queue := self.event_queue ++ [HighlightEvent.highlightStart ⟨span.scope⟩],
    span_ends := self.span_ends ++ [span.«end»] }

/-- Embeds `SpanIter::emit_span_end`: advance the cursor to `end`, emitting a
`Source` (with a queued `HighlightEnd`) when the cursor actually moved, and a
bare `HighlightEnd` otherwise. -/
def SpanIter.emit_span_end (self : SpanIter) («end» : Nat) :
    HighlightEvent × SpanIter :=
  let start := self.cursor
  let self := { self with cursor := «end» }
  if start ≠ «end» then
    (HighlightEvent.source start «end»,
     { self with event_queue := self.event_queue ++ [HighlightEvent.highlightEnd] })
  else
    (HighlightEvent.highlightEnd, self)

/-- The `while let Some(span) = self.spans.get_mut(i)` loop of
`partition_spans_at`: starting at position `i`, every span with
`start = cursor` and `end ≥ intersect` is split, its left half started and
its right half written back in place.  Returns the updated state together
with the final value of `i`.  The `fuel` argument only makes the recursion
structural (so that the kernel can evaluate it): every iteration consumes a
successful in-bounds read at `i` and steps `i` by one while the vector keeps
its length, so the loop performs at most `spans.length` iterations and the
caller passes exactly that; fuel 0 can only be reached when the whole vector
has been consumed, where the loop stops anyway. -/
def SpanIter.partitionLoop (self : SpanIter) (cursor intersect : Nat) (i : Nat) :
    Nat → SpanIter × Nat
  | 0 => (self, i)
  | fuel + 1 =>
    match self.spans.get? i with
    | none => (self, i)
    | some span =>
      if span.start ≠ cursor ∨ span.«end» < intersect then
        (self, i)
      else
        SpanIter.partitionLoop
          (SpanIter.start_span
            { self with spans := self.spans.set i { span with start := intersect } }
            { span with «end» := intersect })
          cursor intersect (i + 1) fuel

/-- Embeds `SpanIter::partition_spans_at`.  Every indexing operation of the
Rust code is made explicit: the initial read `self.spans[self.index]`, the
slice `self.spans[i..]` scanned by the resort count, the slice
`self.spans[self.index..first_sorted_span]` that is rotated, and the
`rotate_left` midpoint bound.  `none` is returned exactly when one of them
is out of bounds. -/
def SpanIter.partition_spans_at (self : SpanIter) (intersect : Nat) :
    Option SpanIter :=
  match self.spans.get? self.index with
  | none => none
  | some first_partitioned_span =>
    let pr := self.partitionLoop self.cursor intersect self.index self.spans.length
    let self' := pr.1
    let i := pr.2
    if i ≤ self'.spans.length then
      let num_partitioned_spans := i - self'.index
      let intersect_span : Span := { first_partitioned_span with start := intersect }
      let num_spans_to_resort :=
        ((self'.spans.drop i).takeWhile (fun span => span.leb intersect_span)).length
      if num_spans_to_resort ≠ 0 then
        let first_sorted_span := i + num_spans_to_resort
        if self'.index ≤ first_sorted_span ∧
            first_sorted_span ≤ self'.spans.length ∧
            num_partitioned_spans ≤ first_sorted_span - self'.index then
          some { self' with
            spans :=
              self'.spans.take self'.index ++
              rotateLeftList
                ((self'.spans.drop self'.index).take (first_sorted_span - self'.index))
                num_partitioned_spans ++
              self'.spans.drop first_sorted_span }
        else
          none
      else
        some self'
    else
      none

/-- The `while let Some(&span) = self.spans.get(self.index)` loop of
`SpanIter::next` that starts every span beginning at the current cursor.
As in `partitionLoop`, the `fuel` argument only makes the recursion
structural; the caller passes `spans.length`, which bounds the number of
iterations because each one is an in-bounds read at `index` followed by an
increment of `index`, with `spans` untouched. -/
def SpanIter.openLoopF (self : SpanIter) : Nat → SpanIter
  | 0 => self
  | fuel + 1 =>
    match self.spans.get? self.index with
    | none => self
    | some span =>
      if span.start ≠ self.cursor then self
      else
        SpanIter.openLoopF
          { self.start_span span with index := self.index + 1 } fuel

/-- The open loop of `SpanIter::next` with its fuel instantiated. -/
def SpanIter.openLoop (self : SpanIter) : SpanIter :=
  self.openLoopF self.spans.length

/-- Result of one call to `SpanIter::next`: the iterator is exhausted, an
out-of-bounds index was attempted, or an event is produced together with the
successor state. -/
inductive StepResult where
  | done
  | oob
  | yield (ev : HighlightEvent) (st : SpanIter)
  deriving Repr

/-- The tail of `SpanIter::next` after the early returns: replace the cursor
with `span.start` (emitting a connective `Source` when open spans remain),
partition at the subslice point if one was found, start all spans at the
cursor, re-sort the span ends descending and pop the front of the queue. -/
def SpanIter.nextCont (st : SpanIter) (span : Span) (subslice : Option Nat) :
    StepResult :=
  let start := st.cursor
  let st₁ : SpanIter := { st with cursor := span.start }
  if span.start ≠ start ∧ st₁.span_ends ≠ [] then
    .yield (.source start span.start) st₁
  else
    let ost : Option SpanIter :=
      match subslice with
      | some intersect => st₁.partition_spans_at intersect
      | none => some st₁
    match ost with
    | none => .oob
    | some st₂ =>
      let st₃ := st₂.openLoop
      let st₄ : SpanIter := { st₃ with span_ends := sortDesc st₃.span_ends }
      match st₄.event_queue with
      | ev :: rest => .yield ev { st₄ with event_queue := rest }
      | [] => .done

/-- The branch of `SpanIter::next` that inspects `self.span_ends.last()`
for the span at `index`: either the last (smallest) open end has been
reached by the new span and is completed, or processing continues with the
subslice point, `Some(end)` exactly when `span.start < end < span.end`. -/
def SpanIter.nextSpanStep (st : SpanIter) (span : Span) : Option Nat → StepResult
  | some e =>
    if e ≤ span.start then
      let p :=
        SpanIter.emit_span_end { st with span_ends := st.span_ends.dropLast } e
      .yield p.1 p.2
    else
      st.nextCont span (if e < span.«end» then some e else none)
  | none => st.nextCont span none

/-- Embeds `impl Iterator for SpanIter`, one call of `next`. -/
def SpanIter.next (st : SpanIter) : StepResult :=
  match st.event_queue with
  | ev :: rest => .yield ev { st with event_queue := rest }
  | [] =>
    if st.index = st.spans.length then
      match vecPop st.span_ends with
      | none => .done
      | some pair =>
        let p := SpanIter.emit_span_end { st with span_ends := pair.2 } pair.1
        .yield p.1 p.2
    else
      match st.spans.get? st.index with
      | none => .oob
      | some span => st.nextSpanStep span st.span_ends.getLast?

/-- Result of iterating `SpanIter` to completion under a fuel bound. -/
inductive RunResult where
  | ok (events : List HighlightEvent)
  | oobAt (events : List HighlightEvent)
  | outOfFuel (events : List HighlightEvent)
  deriving DecidableEq, Repr

/-- Prepend one emitted event onto a run result. -/
def RunResult.consEv (ev : HighlightEvent) : RunResult → RunResult
  | .ok l => .ok (ev :: l)
  | .oobAt l => .oobAt (ev :: l)
  | .outOfFuel l => .outOfFuel (ev :: l)

/-- Iterate the span iterator, collecting every produced event.  `.ok`
means `next` returned `None` (normal exhaustion) within the fuel bound. -/
def SpanIter.run : Nat → SpanIter → RunResult
  | 0, _ => .outOfFuel []
  | fuel + 1, st =>
    match st.next with
    | .done => .ok []
    | .oob => .oobAt []
    | .yield ev st' => (st'.run fuel).consEv ev

/-- Embeds `span_iter`: the initial iterator state over a span vector
(cursor at 0, empty queue, no open ends). -/
def span_iter (spans : List Span) : SpanIter :=
  { spans := spans, index := 0, event_queue := [], span_ends := [], cursor := 0 }

/-- Embeds `flat_span_iter`: drop empty spans, emit
`Start, Source, End` for every remaining span. -/
def flat_span_iter (spans : List Span) : List HighlightEvent :=
  (spans.filter (fun span => span.start != span.«end»)).flatMap
    (fun span =>
      [HighlightEvent.highlightStart ⟨span.scope⟩,
       HighlightEvent.source span.start span.«end»,
       HighlightEvent.highlightEnd])

/-- A datastructure that records all highlights at every position as a
bitset, embedding `struct HighlightSet(Vec<u128>)` from `highlight_set.rs`.
Each mask is a `Nat` kept below `2 ^ 128` by the masked shift in
`insert_highlights`. -/
structure HighlightSet where
  masks : List Nat
  deriving DecidableEq, Repr

/-- Embeds `HighlightSet::insert_highlights`: grow the vector to cover
`positions = [start, stop)`, fold the highlights into one bitmask and OR it
into every covered position.  Rust computes the bit as
`1u128 << highlight.0 as u8`; the cast truncates to 8 bits and in release
builds the `u128` shift masks its argument to 7 bits, so the bit position is
`highlight.0 % 128` (identical for the in-contract scopes below 128). -/
def HighlightSet.insert_highlights (self : HighlightSet) (start stop : Nat)
    (highlights : List Highlight) : HighlightSet :=
  let masks :=
    if self.masks.length < stop then
      self.masks ++ List.replicate (stop - self.masks.length) 0
    else
      self.masks
  let highlight_set :=
    highlights.foldl (fun acc h => acc ||| (1 <<< (h.id % 128))) 0
  ⟨masks.mapIdx fun i m => if start ≤ i ∧ i < stop then m ||| highlight_set else m⟩

/-- Removal of a trailing all-zero suffix, the loop body of
`HighlightSet::trim` (`while last == 0 { pop }`). -/
def popTrailingZeros : List Nat → List Nat
  | [] => []
  | m :: rest =>
    match popTrailingZeros rest with
    | [] => if m = 0 then [] else [m]
    | r => m :: r

/-- Embeds `HighlightSet::trim`. -/
def HighlightSet.trim (self : HighlightSet) : HighlightSet :=
  ⟨popTrailingZeros self.masks⟩

/-- Embeds `impl Extend<Span> for HighlightSet`: insert each span and trim. -/
def HighlightSet.extendSpans (self : HighlightSet) (spans : List Span) :
    HighlightSet :=
  (spans.foldl
    (fun acc span => acc.insert_highlights span.start span.«end» [⟨span.scope⟩])
    self).trim

/-- The event loop of `impl Extend<HighlightEvent> for HighlightSet`,
carrying the stack `state` of currently open highlights. -/
def HighlightSet.extendEventsCore (self : HighlightSet)
    (state : List Highlight) : List HighlightEvent → HighlightSet
  | [] => self
  | ev :: rest =>
    match ev with
    | .highlightStart highlight =>
      HighlightSet.extendEventsCore self (state ++ [highlight]) rest
    | .highlightEnd =>
      HighlightSet.extendEventsCore self state.dropLast rest
    | .source start «end» =>
      HighlightSet.extendEventsCore
        (self.insert_highlights start «end» state) state rest

/-- Embeds `impl Extend<HighlightEvent> for HighlightSet`. -/
def HighlightSet.extendEvents (self : HighlightSet)
    (events : List HighlightEvent) : HighlightSet :=
  (self.extendEventsCore [] events).trim

/-- Embeds `impl FromIterator<Span> for HighlightSet` (`HighlightSet::from(V)`). -/
def HighlightSet.fromSpans (spans : List Span) : HighlightSet :=
  HighlightSet.extendSpans ⟨[]⟩ spans

/-- Embeds `impl FromIterator<HighlightEvent> for HighlightSet`
(`HighlightSet::from(E)`). -/
def HighlightSet.fromEvents (events : List HighlightEvent) : HighlightSet :=
  HighlightSet.extendEvents ⟨[]⟩ events

/-! ## Well-formedness of event streams

The four invariants of spec section 3, mirrored from
`check_highlight_event_invariants` in `syntax/test.rs`.  The open count is a
`Nat` and a `HighlightEnd` at count zero is a violation, which captures the
prefix condition of invariant 1; the final count must return to zero.
Invariant 2 is the `start < end` check on `Source`; invariant 3 is the
`prev_event_was_source` check together with strict window monotonicity; and
invariant 4 (a `Start` or `End` between neighbouring `Source` events) is
exactly the absence of two consecutive `Source` events, since the stream has
no other event kinds. -/

/-- State of the well-formedness checker. -/
structure CheckSt where
  opened : Nat
  last : Option (Nat × Nat)
  prevWasSource : Bool
  deriving DecidableEq, Repr

/-- One step of the well-formedness checker; `none` signals a violation. -/
def checkStep (c : CheckSt) : HighlightEvent → Option CheckSt
  | .highlightStart _ =>
    some { c with opened := c.opened + 1, prevWasSource := false }
  | .highlightEnd =>
    match c.opened with
    | 0 => none
    | n + 1 => some { c with opened := n, prevWasSource := false }
  | .source start «end» =>
    let monotone : Bool :=
      match c.last with
      | none => true
      | some (a, b) => decide (a < start) && decide (b ≤ start)
    if start < «end» ∧ c.prevWasSource = false ∧ monotone = true then
      some { opened := c.opened, last := some (start, «end»), prevWasSource := true }
    else
      none

/-- Run the checker over a stream. -/
def checkEvents (c : CheckSt) : List HighlightEvent → Option CheckSt
  | [] => some c
  | ev :: rest =>
    match checkStep c ev with
    | none => none
    | some c' => checkEvents c' rest

/-- A stream is well-formed when the checker accepts it and every opened
highlight is closed at the end. -/
def wellFormedB (events : List HighlightEvent) : Bool :=
  match checkEvents ⟨0, none, false⟩ events with
  | none => false
  | some fin => fin.opened == 0

/-- Adjacent-pairs check, the shape of `spans.windows(2).all(..)`. -/
def chainB {α : Type} (f : α → α → Bool) : List α → Bool
  | [] => true
  | [_] => true
  | a :: b :: rest => f a b && chainB f (b :: rest)

/-- The sort precondition of `span_iter`
(`debug_assert!(spans.windows(2).all(|w| w[0] <= w[1]))`). -/
def sortedSpans (spans : List Span) : Prop :=
  chainB Span.leb spans = true

instance (spans : List Span) : Decidable (sortedSpans spans) := by
  unfold sortedSpans; infer_instance

/-- The data-model invariant of spec section 3: a span is a half-open byte
range, `start ≤ end`. -/
def validSpans (spans : List Span) : Prop :=
  spans.all (fun sp => decide (sp.start ≤ sp.«end»)) = true

instance (spans : List Span) : Decidable (validSpans spans) := by
  unfold validSpans; infer_instance

/-- The flat-path precondition of `flat_span_iter`
(`debug_assert!(spans.windows(2).all(|w| w[1].start >= w[0].end))`):
consecutive spans are sorted and non-overlapping. -/
def nonOverlappingSpans (spans : List Span) : Prop :=
  chainB (fun a b => decide (a.«end» ≤ b.start)) spans = true

instance (spans : List Span) : Decidable (nonOverlappingSpans spans) := by
  unfold nonOverlappingSpans; infer_instance

/-- `true` exactly on runs that attempted an out-of-bounds index. -/
def RunResult.isOob : RunResult → Bool
  | .oobAt _ => true
  | _ => false

end HelixSpan

namespace HelixSpan

/-! ## Concrete inputs used by individual claims -/

/-- The five-way-overlap input of
`test_many_overlapping_span_iter_events` and of spec section 8. -/
def manyOverlapInput : List Span :=
  [⟨1, 0, 10⟩, ⟨2, 1, 5⟩, ⟨3, 6, 13⟩, ⟨4, 12, 15⟩, ⟨5, 13, 15⟩]

/-- The 21-event stream that `span_iter` produces on `manyOverlapInput`,
exactly the expected list of `test_many_overlapping_span_iter_events`. -/
def manyOverlapEvents : List HighlightEvent :=
  [.highlightStart ⟨1⟩, .source 0 1,
   .highlightStart ⟨2⟩, .source 1 5, .highlightEnd,
   .source 5 6,
   .highlightStart ⟨3⟩, .source 6 10, .highlightEnd, .highlightEnd,
   .highlightStart ⟨3⟩, .source 10 12,
   .highlightStart ⟨4⟩, .source 12 13, .highlightEnd, .highlightEnd,
   .highlightStart ⟨5⟩, .highlightStart ⟨4⟩, .source 13 15,
   .highlightEnd, .highlightEnd]

/-- A sorted, valid input on which the translator loses track of nesting:
after `partition_spans_at 5`, the right halves `(1,5,10)` and `(2,5,7)` sit
before `(3,5,8)` although the sort order puts `(2,5,7)` after `(3,5,8)`, and
the resort scan, keyed on the first partitioned end `10`, does not rotate. -/
def semBugInput : List Span :=
  [⟨0, 0, 5⟩, ⟨1, 2, 10⟩, ⟨2, 2, 7⟩, ⟨3, 5, 8⟩]

/-- The event stream produced on `semBugInput`: byte 7 is covered with the
scope set `{1, 2}` although span 2 ends at 7 and span 3 covers byte 7. -/
def semBugEvents : List HighlightEvent :=
  [.highlightStart ⟨0⟩, .source 0 2,
   .highlightStart ⟨1⟩, .highlightStart ⟨2⟩, .source 2 5,
   .highlightEnd, .highlightEnd, .highlightEnd,
   .highlightStart ⟨1⟩, .highlightStart ⟨2⟩, .highlightStart ⟨3⟩,
   .source 5 7, .highlightEnd, .source 7 8, .highlightEnd,
   .source 8 10, .highlightEnd]

/-! ## Basic facts about the iterator state -/

@[simp] theorem start_span_spans (s : SpanIter) (sp : Span) :
    (s.start_span sp).spans = s.spans := rfl

@[simp] theorem start_span_index (s : SpanIter) (sp : Span) :
    (s.start_span sp).index = s.index := rfl

@[simp] theorem start_span_cursor (s : SpanIter) (sp : Span) :
    (s.start_span sp).cursor = s.cursor := rfl

@[simp] theorem start_span_event_queue (s : SpanIter) (sp : Span) :
    (s.start_span sp).event_queue =
      s.event_queue ++ [HighlightEvent.highlightStart ⟨sp.scope⟩] := rfl

@[simp] theorem start_span_span_ends (s : SpanIter) (sp : Span) :
    (s.start_span sp).span_ends = s.span_ends ++ [sp.«end»] := rfl

@[simp] theorem rotateLeftList_length {α : Type} (l : List α) (n : Nat) :
    (rotateLeftList l n).length = l.length := by
  simp [rotateLeftList]
  omega

theorem get?_some_lt {α : Type} {l : List α} {i : Nat} {a : α}
    (h : l.get? i = some a) : i < l.length := by
  by_contra hge
  rw [List.get?_eq_none.mpr (Nat.le_of_not_lt hge)] at h
  exact absurd h (by simp)

theorem takeWhile_length_le {α : Type} (p : α → Bool) :
    ∀ l : List α, (l.takeWhile p).length ≤ l.length := by
  intro l
  induction l with
  | nil => simp
  | cons x xs ih =>
    by_cases h : p x
    · simpa [List.takeWhile_cons, h] using ih
    · simp [List.takeWhile_cons, h]

/-- The fields of the state that `partitionLoop` leaves untouched, together
with bounds on the final loop position. -/
theorem partitionLoop_fields (cursor intersect : Nat) :
    ∀ (fuel : Nat) (st : SpanIter) (i : Nat),
      (st.partitionLoop cursor intersect i fuel).1.spans.length = st.spans.length ∧
      (st.partitionLoop cursor intersect i fuel).1.index = st.index ∧
      (st.partitionLoop cursor intersect i fuel).1.cursor = st.cursor ∧
      i ≤ (st.partitionLoop cursor intersect i fuel).2 ∧
      (st.partitionLoop cursor intersect i fuel).2 ≤ max st.spans.length i := by
  intro fuel
  induction fuel with
  | zero =>
    intro st i
    simp [SpanIter.partitionLoop, Nat.le_max_right]
  | succ fuel ih =>
    intro st i
    unfold SpanIter.partitionLoop
    match hget : st.spans.get? i with
    | none => simp [Nat.le_max_right]
    | some span =>
      by_cases hcond : span.start ≠ cursor ∨ span.«end» < intersect
      · simp [hcond, Nat.le_max_right]
      · have hlt : i < st.spans.length := get?_some_lt hget
        simp only [if_neg hcond, SpanIter.start_span]
        obtain ⟨h1, h2, h3, h4, h5⟩ :=
          ih { spans := (st.spans.set i { span with start := intersect }),
               index := st.index,
               event_queue :=
                 st.event_queue ++ [HighlightEvent.highlightStart ⟨span.scope⟩],
               span_ends := st.span_ends ++ [intersect],
               cursor := st.cursor } (i + 1)
        dsimp only at h1 h2 h3 h4 h5
        simp only [List.length_set] at h1 h5
        refine ⟨h1, h2, h3, by omega, by omega⟩

/-- The fields of the state that the open loop leaves untouched, together
with bounds on the final index. -/
theorem openLoopF_fields :
    ∀ (fuel : Nat) (st : SpanIter),
      (st.openLoopF fuel).spans = st.spans ∧
      (st.openLoopF fuel).cursor = st.cursor ∧
      st.index ≤ (st.openLoopF fuel).index ∧
      (st.openLoopF fuel).index ≤ max st.spans.length st.index := by
  intro fuel
  induction fuel with
  | zero =>
    intro st
    simp [SpanIter.openLoopF, Nat.le_max_right]
  | succ fuel ih =>
    intro st
    unfold SpanIter.openLoopF
    match hget : st.spans.get? st.index with
    | none => simp [Nat.le_max_right]
    | some span =>
      by_cases hcond : span.start ≠ st.cursor
      · simp [hcond, Nat.le_max_right]
      · have hlt : st.index < st.spans.length := get?_some_lt hget
        simp only [if_neg hcond, SpanIter.start_span]
        obtain ⟨h1, h2, h3, h4⟩ :=
          ih { spans := st.spans,
               index := st.index + 1,
               event_queue :=
                 st.event_queue ++ [HighlightEvent.highlightStart ⟨span.scope⟩],
               span_ends := st.span_ends ++ [span.«end»],
               cursor := st.cursor }
        dsimp only at h1 h2 h3 h4
        refine ⟨h1, h2, by omega, by omega⟩

/-- When the read at `self.index` succeeds, `partition_spans_at` performs no
out-of-bounds access and preserves the vector length, the index and the
cursor. -/
theorem partition_spans_at_some (st : SpanIter) (intersect : Nat) (span : Span)
    (hget : st.spans.get? st.index = some span) :
    ∃ st', st.partition_spans_at intersect = some st' ∧
      st'.spans.length = st.spans.length ∧
      st'.index = st.index ∧ st'.cursor = st.cursor := by
  have hidx : st.index < st.spans.length := get?_some_lt hget
  obtain ⟨h1, h2, h3, h4, h5⟩ :=
    partitionLoop_fields st.cursor intersect st.spans.length st st.index
  unfold SpanIter.partition_spans_at
  rw [hget]
  simp only []
  set pr := st.partitionLoop st.cursor intersect st.index st.spans.length with hpr
  have hile : pr.2 ≤ pr.1.spans.length := by
    rw [h1]
    omega
  rw [if_pos hile]
  set cnt := ((pr.1.spans.drop pr.2).takeWhile
      (fun sp => sp.leb { span with start := intersect })).length with hcnt
  have hcnt_le : cnt ≤ pr.1.spans.length - pr.2 := by
    have := takeWhile_length_le
      (fun sp => sp.leb { span with start := intersect }) (pr.1.spans.drop pr.2)
    simpa [hcnt] using this
  by_cases hzero : cnt ≠ 0
  · rw [if_pos hzero]
    have hguard : pr.1.index ≤ pr.2 + cnt ∧ pr.2 + cnt ≤ pr.1.spans.length ∧
        pr.2 - pr.1.index ≤ pr.2 + cnt - pr.1.index := by
      rw [h1, h2]
      omega
    rw [if_pos hguard]
    refine ⟨_, rfl, ?_, by simpa using h2, by simpa using h3⟩
    simp only [List.length_append, rotateLeftList_length, List.length_take,
      List.length_drop]
    rw [h1, h2]
    omega
  · rw [if_neg hzero]
    exact ⟨pr.1, rfl, h1, h2, h3⟩


/-- A mask vector with no trailing zero entry. -/
def noTrailingZero (l : List Nat) : Prop := l.getLast? ≠ some 0

theorem popTrailingZeros_noTrailingZero (l : List Nat) :
    noTrailingZero (popTrailingZeros l) := by
  induction l with
  | nil => simp [noTrailingZero, popTrailingZeros]
  | cons m rest ih =>
    unfold popTrailingZeros
    match hr : popTrailingZeros rest with
    | [] =>
      by_cases hm : m = 0
      · simp [noTrailingZero, hm]
      · simp [noTrailingZero, hm]
    | r :: rs =>
      rw [hr] at ih
      simpa [noTrailingZero, List.getLast?_cons_cons] using ih

theorem noTrailingZero_tail (m : Nat) (l : List Nat)
    (h : noTrailingZero (m :: l)) : noTrailingZero l := by
  cases l with
  | nil => simp [noTrailingZero]
  | cons x xs =>
    simpa [noTrailingZero, List.getLast?_cons_cons] using h

theorem noTrailingZero_exists_nonzero (l : List Nat) (hne : l ≠ [])
    (h : noTrailingZero l) : ∃ j, l.getD j 0 ≠ 0 := by
  induction l with
  | nil => exact absurd rfl hne
  | cons x xs ih =>
    cases xs with
    | nil =>
      refine ⟨0, ?_⟩
      simpa [noTrailingZero] using h
    | cons y ys =>
      obtain ⟨j, hj⟩ := ih (by simp)
        (by simpa [noTrailingZero, List.getLast?_cons_cons] using h)
      exact ⟨j + 1, by simpa using hj⟩

theorem noTrailingZero_ext (l₁ : List Nat) :
    ∀ l₂, noTrailingZero l₁ → noTrailingZero l₂ →
      (∀ i, l₁.getD i 0 = l₂.getD i 0) → l₁ = l₂ := by
  induction l₁ with
  | nil =>
    intro l₂ _ h₂ hagree
    cases l₂ with
    | nil => rfl
    | cons y ys =>
      obtain ⟨j, hj⟩ := noTrailingZero_exists_nonzero (y :: ys) (by simp) h₂
      exact absurd ((hagree j).symm.trans (by simp)) hj
  | cons x xs ih =>
    intro l₂ h₁ h₂ hagree
    cases l₂ with
    | nil =>
      obtain ⟨j, hj⟩ := noTrailingZero_exists_nonzero (x :: xs) (by simp) h₁
      exact absurd ((hagree j).trans (by simp)) hj
    | cons y ys =>
      have hhead : x = y := by simpa using hagree 0
      have htail : xs = ys :=
        ih ys (noTrailingZero_tail x xs h₁) (noTrailingZero_tail y ys h₂)
          (fun i => by simpa using hagree (i + 1))
      rw [hhead, htail]

/-- The image of the two provided constructors: a set built either from a
span list or from an event stream.  Both constructors end with `trim`. -/
def HighlightSet.builtByConstructors (s : HighlightSet) : Prop :=
  (∃ spans, s = HighlightSet.fromSpans spans) ∨
  (∃ events, s = HighlightSet.fromEvents events)

theorem builtByConstructors_noTrailingZero (s : HighlightSet)
    (h : s.builtByConstructors) : noTrailingZero s.masks := by
  rcases h with ⟨spans, rfl⟩ | ⟨events, rfl⟩
  · exact popTrailingZeros_noTrailingZero _
  · exact popTrailingZeros_noTrailingZero _

/-! ## Helper lemmas on spans, sorting and lists -/

theorem leb_start_le {a b : Span} (h : a.leb b = true) : a.start ≤ b.start := by
  unfold Span.leb Span.cmp at h
  by_cases hs : a.start = b.start
  · omega
  · rw [if_neg hs] at h
    rcases Nat.lt_trichotomy a.start b.start with hlt | heq | hgt
    · omega
    · omega
    · rw [Nat.compare_eq_gt.mpr hgt] at h
      exact absurd h (by decide)

theorem not_leb_start_le {a b : Span} (h : a.leb b = false) : b.start ≤ a.start := by
  unfold Span.leb Span.cmp at h
  by_cases hs : a.start = b.start
  · omega
  · rw [if_neg hs] at h
    rcases Nat.lt_trichotomy a.start b.start with hlt | heq | hgt
    · rw [Nat.compare_eq_lt.mpr hlt] at h
      exact absurd h (by decide)
    · omega
    · omega

theorem insertDesc_perm (x : Nat) (l : List Nat) :
    (insertDesc x l).Perm (x :: l) := by
  induction l with
  | nil => exact List.Perm.refl _
  | cons y ys ih =>
    unfold insertDesc
    by_cases h : y ≤ x
    · rw [if_pos h]
    · rw [if_neg h]
      exact (ih.cons y).trans (List.Perm.swap x y ys)

theorem insertDesc_sorted (x : Nat) (l : List Nat)
    (h : l.Pairwise (fun a b => b ≤ a)) :
    (insertDesc x l).Pairwise (fun a b => b ≤ a) := by
  induction l with
  | nil => simp [insertDesc]
  | cons y ys ih =>
    unfold insertDesc
    by_cases hxy : y ≤ x
    · rw [if_pos hxy]
      refine List.Pairwise.cons ?_ h
      intro z hz
      rcases List.mem_cons.mp hz with rfl | hz'
      · exact hxy
      · exact Nat.le_trans (List.rel_of_pairwise_cons h hz') hxy
    · rw [if_neg hxy]
      have hys : ys.Pairwise (fun a b => b ≤ a) := h.tail
      refine List.Pairwise.cons ?_ (ih hys)
      intro z hz
      have hz' := (insertDesc_perm x ys).mem_iff.mp hz
      rcases List.mem_cons.mp hz' with rfl | hz''
      · omega
      · exact List.rel_of_pairwise_cons h hz''

theorem sortDesc_perm (l : List Nat) : (sortDesc l).Perm l := by
  induction l with
  | nil => exact List.Perm.refl _
  | cons x xs ih =>
    exact (insertDesc_perm x (sortDesc xs)).trans (ih.cons x)

theorem sortDesc_sorted (l : List Nat) :
    (sortDesc l).Pairwise (fun a b => b ≤ a) := by
  induction l with
  | nil => simp [sortDesc]
  | cons x xs ih => exact insertDesc_sorted x (sortDesc xs) ih

theorem take_append_add {α : Type} (l₁ l₂ : List α) (n : Nat) :
    (l₁ ++ l₂).take (l₁.length + n) = l₁ ++ l₂.take n := by
  induction l₁ with
  | nil => simp
  | cons x xs ih => simp [Nat.succ_add, ih]

theorem drop_append_add {α : Type} (l₁ l₂ : List α) (n : Nat) :
    (l₁ ++ l₂).drop (l₁.length + n) = l₂.drop n := by
  induction l₁ with
  | nil => simp
  | cons x xs ih => simpa [Nat.succ_add] using ih

theorem dropWhile_eq_drop {α : Type} (p : α → Bool) :
    ∀ l : List α, l.dropWhile p = l.drop (l.takeWhile p).length := by
  intro l
  induction l with
  | nil => rfl
  | cons x xs ih =>
    by_cases h : p x
    · simpa [List.dropWhile_cons, List.takeWhile_cons, h] using ih
    · simp [List.dropWhile_cons, List.takeWhile_cons, h]

theorem getLast?_mem {α : Type} : ∀ {l : List α} {e : α},
    l.getLast? = some e → e ∈ l := by
  intro l
  induction l with
  | nil => intro e h; cases h
  | cons x xs ih =>
    intro e h
    cases xs with
    | nil =>
      simp at h
      simp [h]
    | cons y ys =>
      rw [List.getLast?_cons_cons] at h
      exact List.mem_cons_of_mem x (ih h)

theorem getLast?_desc_min {l : List Nat} {e : Nat}
    (hdesc : l.Pairwise (fun a b => b ≤ a)) (hlast : l.getLast? = some e) :
    ∀ x ∈ l, e ≤ x := by
  induction l with
  | nil => simp at hlast
  | cons y ys ih =>
    intro x hx
    cases ys with
    | nil =>
      simp at hlast
      rcases List.mem_singleton.mp hx with rfl
      omega
    | cons z zs =>
      rw [List.getLast?_cons_cons] at hlast
      rcases List.mem_cons.mp hx with rfl | hx'
      · have he : e ∈ z :: zs := getLast?_mem hlast
        exact List.rel_of_pairwise_cons hdesc he
      · exact ih hdesc.tail hlast x hx'

theorem vecPop_some {l l' : List Nat} {e : Nat}
    (h : vecPop l = some (e, l')) :
    l.getLast? = some e ∧ l' = l.dropLast := by
  unfold vecPop at h
  cases hl : l.getLast? with
  | none => rw [hl] at h; cases h
  | some x =>
    rw [hl] at h
    cases h
    exact ⟨rfl, rfl⟩

theorem drop_eq_cons_of_get? {α : Type} :
    ∀ {l : List α} {i : Nat} {a : α},
      l.get? i = some a → l.drop i = a :: l.drop (i + 1) := by
  intro l
  induction l with
  | nil => intro i a h; cases h
  | cons x xs ih =>
    intro i a h
    cases i with
    | zero =>
      cases h
      rfl
    | succ j =>
      have := ih (i := j) (a := a) h
      simpa using this

theorem drop_set_succ {α : Type} :
    ∀ (l : List α) (i : Nat) (x : α), (l.set i x).drop (i + 1) = l.drop (i + 1) := by
  intro l
  induction l with
  | nil => intro i x; rfl
  | cons y ys ih =>
    intro i x
    cases i with
    | zero => rfl
    | succ j => simpa using ih j x

theorem take_set_succ {α : Type} :
    ∀ (l : List α) (i : Nat) (x : α), i < l.length →
      (l.set i x).take (i + 1) = l.take i ++ [x] := by
  intro l
  induction l with
  | nil => intro i x h; simp at h
  | cons y ys ih =>
    intro i x h
    cases i with
    | zero => rfl
    | succ j =>
      have hj : j < ys.length := by simpa using h
      simpa using ih j x hj

theorem take_len_append {α : Type} (l₁ l₂ : List α) :
    (l₁ ++ l₂).take l₁.length = l₁ := by
  have := take_append_add l₁ l₂ 0
  simpa using this

theorem drop_len_append {α : Type} (l₁ l₂ : List α) :
    (l₁ ++ l₂).drop l₁.length = l₂ := by
  have := drop_append_add l₁ l₂ 0
  simpa using this

theorem take_len_append_left {α : Type} {l₁ : List α} {n : Nat}
    (h : l₁.length = n) (l₂ : List α) : (l₁ ++ l₂).take n = l₁ := by
  subst h
  exact take_len_append _ _

theorem drop_len_append_left {α : Type} {l₁ : List α} {n : Nat}
    (h : l₁.length = n) (l₂ : List α) : (l₁ ++ l₂).drop n = l₂ := by
  subst h
  exact drop_len_append _ _

theorem take_takeWhile {α : Type} (p : α → Bool) :
    ∀ l : List α, l.take (l.takeWhile p).length = l.takeWhile p := by
  intro l
  induction l with
  | nil => rfl
  | cons x xs ih =>
    by_cases h : p x
    · simp [List.takeWhile_cons, h, ih]
    · simp [List.takeWhile_cons, h]

/-- The predicate selecting the spans split by the partition loop: spans at
the cursor whose end reaches the intersect point. -/
def partBlockPred (cursor intersect : Nat) (sp : Span) : Bool :=
  sp.start == cursor && decide (intersect ≤ sp.«end»)

/-- Full characterization of the partition loop: it splits exactly the
maximal prefix `B` of the unprocessed spans satisfying `partBlockPred`,
starting the left halves in order, pushing one `intersect` end per split
span, rewriting the right halves in place, and stopping at `i + B.length`. -/
theorem partitionLoop_char (cursor intersect : Nat) :
    ∀ (fuel : Nat) (st : SpanIter) (i : Nat),
      st.spans.length - i ≤ fuel → i ≤ st.spans.length →
      (st.partitionLoop cursor intersect i fuel).1.spans =
          st.spans.take i ++
          ((st.spans.drop i).takeWhile (partBlockPred cursor intersect)).map
            (fun sp => { sp with start := intersect }) ++
          (st.spans.drop i).dropWhile (partBlockPred cursor intersect) ∧
      (st.partitionLoop cursor intersect i fuel).1.event_queue =
          st.event_queue ++
          ((st.spans.drop i).takeWhile (partBlockPred cursor intersect)).map
            (fun sp => HighlightEvent.highlightStart ⟨sp.scope⟩) ∧
      (st.partitionLoop cursor intersect i fuel).1.span_ends =
          st.span_ends ++
          ((st.spans.drop i).takeWhile (partBlockPred cursor intersect)).map
            (fun _ => intersect) ∧
      (st.partitionLoop cursor intersect i fuel).2 =
          i + ((st.spans.drop i).takeWhile (partBlockPred cursor intersect)).length := by
  intro fuel
  induction fuel with
  | zero =>
    intro st i hfuel hle
    have hi : i = st.spans.length := by omega
    subst hi
    simp [SpanIter.partitionLoop, List.drop_length, List.take_length]
  | succ fuel ih =>
    intro st i hfuel hle
    unfold SpanIter.partitionLoop
    match hget : st.spans.get? i with
    | none =>
      have hlen : st.spans.length ≤ i := List.get?_eq_none.mp hget
      have hi : i = st.spans.length := by omega
      subst hi
      simp [List.drop_length, List.take_length]
    | some span =>
      have hlt : i < st.spans.length := get?_some_lt hget
      have hdrop : st.spans.drop i = span :: st.spans.drop (i + 1) :=
        drop_eq_cons_of_get? hget
      by_cases hcond : span.start ≠ cursor ∨ span.«end» < intersect
      · simp only [if_pos hcond]
        have hpb : partBlockPred cursor intersect span = false := by
          unfold partBlockPred
          rcases hcond with hc | hc
          · simp [hc]
          · have : ¬ intersect ≤ span.«end» := by omega
            simp [this]
        rw [hdrop]
        simp only [List.takeWhile_cons, List.dropWhile_cons, hpb]
        simp only [Bool.false_eq_true, if_false, List.map_nil, List.append_nil,
          List.length_nil, Nat.add_zero, List.nil_append]
        refine ⟨?_, trivial, trivial, trivial⟩
        rw [← hdrop, List.take_append_drop]
      · simp only [if_neg hcond]
        push_neg at hcond
        obtain ⟨hc1, hc2⟩ := hcond
        have hpb : partBlockPred cursor intersect span = true := by
          unfold partBlockPred
          simp [hc1]
          omega
        set st' : SpanIter :=
          SpanIter.start_span
            { st with spans := st.spans.set i { span with start := intersect } }
            { span with «end» := intersect } with hst'
        have hlen' : st'.spans.length = st.spans.length := by
          simp [hst', List.length_set]
        have hdrop' : st'.spans.drop (i + 1) = st.spans.drop (i + 1) := by
          simp only [hst', start_span_spans]
          exact drop_set_succ _ _ _
        have htake' : st'.spans.take (i + 1) =
            st.spans.take i ++ [{ span with start := intersect }] := by
          simp only [hst', start_span_spans]
          exact take_set_succ _ _ _ hlt
        obtain ⟨ih1, ih2, ih3, ih4⟩ := ih st' (i + 1) (by omega) (by omega)
        rw [hdrop'] at ih1 ih2 ih3 ih4
        rw [hdrop]
        simp only [List.takeWhile_cons, List.dropWhile_cons, hpb, if_true,
          List.map_cons, List.length_cons]
        refine ⟨?_, ?_, ?_, ?_⟩
        · rw [ih1, htake']
          simp [hst']
        · rw [ih2]
          simp [hst']
        · rw [ih3]
          simp [hst']
        · omega

/-- Full characterization of the open loop: it starts exactly the maximal
prefix of the unprocessed spans beginning at the cursor, queueing their
`HighlightStart`s and pushing their ends, and advances the index past
them. -/
theorem openLoopF_char :
    ∀ (fuel : Nat) (st : SpanIter),
      st.spans.length - st.index ≤ fuel → st.index ≤ st.spans.length →
      (st.openLoopF fuel).spans = st.spans ∧
      (st.openLoopF fuel).cursor = st.cursor ∧
      (st.openLoopF fuel).index =
          st.index +
          ((st.spans.drop st.index).takeWhile (fun sp => sp.start == st.cursor)).length ∧
      (st.openLoopF fuel).event_queue =
          st.event_queue ++
          ((st.spans.drop st.index).takeWhile (fun sp => sp.start == st.cursor)).map
            (fun sp => HighlightEvent.highlightStart ⟨sp.scope⟩) ∧
      (st.openLoopF fuel).span_ends =
          st.span_ends ++
          ((st.spans.drop st.index).takeWhile (fun sp => sp.start == st.cursor)).map
            (fun sp => sp.«end») := by
  intro fuel
  induction fuel with
  | zero =>
    intro st hfuel hle
    have hi : st.index = st.spans.length := by omega
    simp [SpanIter.openLoopF, hi, List.drop_length]
  | succ fuel ih =>
    intro st hfuel hle
    unfold SpanIter.openLoopF
    match hget : st.spans.get? st.index with
    | none =>
      have hlen : st.spans.length ≤ st.index := List.get?_eq_none.mp hget
      have hi : st.index = st.spans.length := by omega
      simp [hi, List.drop_length]
    | some span =>
      have hlt : st.index < st.spans.length := get?_some_lt hget
      have hdrop : st.spans.drop st.index = span :: st.spans.drop (st.index + 1) :=
        drop_eq_cons_of_get? hget
      by_cases hcond : span.start ≠ st.cursor
      · simp only [if_pos hcond]
        have hpo : (span.start == st.cursor) = false := by
          simp [hcond]
        rw [hdrop]
        simp only [List.takeWhile_cons, hpo]
        simp [Bool.false_eq_true]
      · simp only [if_neg hcond, SpanIter.start_span]
        push_neg at hcond
        have hpo : (span.start == st.cursor) = true := by
          simp [hcond]
        obtain ⟨ih1, ih2, ih3, ih4, ih5⟩ :=
          ih { spans := st.spans, index := st.index + 1,
               event_queue :=
                 st.event_queue ++ [HighlightEvent.highlightStart ⟨span.scope⟩],
               span_ends := st.span_ends ++ [span.«end»],
               cursor := st.cursor }
            (by dsimp only; omega) (by dsimp only; omega)
        dsimp only at ih1 ih2 ih3 ih4 ih5
        rw [hdrop]
        simp only [List.takeWhile_cons, hpo, if_true, List.map_cons,
          List.length_cons]
        refine ⟨ih1, ih2, by rw [ih3]; omega, ?_, ?_⟩
        · rw [ih4]
          simp
        · rw [ih5]
          simp

/-- Full characterization of `partition_spans_at` after a successful read at
`index`.  Writing `B` for the partitioned block (the maximal prefix of the
unprocessed spans at the cursor reaching `t`) and `R` for the spans after
it, the resort scan takes the prefix `T` of `R` comparing at most the
partition-point span, and the rotation places the rewritten right halves of
`B` after `T`: the unprocessed spans become `T ++ B.map (start := t) ++
rest`. -/
theorem partition_spans_at_char (st : SpanIter) (t : Nat) (span : Span)
    (hget : st.spans.get? st.index = some span) :
    ∃ st₂, st.partition_spans_at t = some st₂ ∧
      st₂.index = st.index ∧ st₂.cursor = st.cursor ∧
      st₂.spans.take st.index = st.spans.take st.index ∧
      st₂.spans.drop st.index =
        ((st.spans.drop st.index).dropWhile (partBlockPred st.cursor t)).takeWhile
          (fun sp => sp.leb { span with start := t }) ++
        ((st.spans.drop st.index).takeWhile (partBlockPred st.cursor t)).map
          (fun sp => { sp with start := t }) ++
        ((st.spans.drop st.index).dropWhile (partBlockPred st.cursor t)).dropWhile
          (fun sp => sp.leb { span with start := t }) ∧
      st₂.event_queue = st.event_queue ++
        ((st.spans.drop st.index).takeWhile (partBlockPred st.cursor t)).map
          (fun sp => HighlightEvent.highlightStart ⟨sp.scope⟩) ∧
      st₂.span_ends = st.span_ends ++
        ((st.spans.drop st.index).takeWhile (partBlockPred st.cursor t)).map
          (fun _ => t) := by
  have hidx : st.index < st.spans.length := get?_some_lt hget
  obtain ⟨hf1, hf2, hf3, hf4, hf5⟩ :=
    partitionLoop_fields st.cursor t st.spans.length st st.index
  obtain ⟨hc1, hc2, hc3, hc4⟩ :=
    partitionLoop_char st.cursor t st.spans.length st st.index
      (by omega) (by omega)
  unfold SpanIter.partition_spans_at
  rw [hget]
  simp only []
  set pr := st.partitionLoop st.cursor t st.index st.spans.length with hpr
  set B := (st.spans.drop st.index).takeWhile (partBlockPred st.cursor t) with hB
  set R := (st.spans.drop st.index).dropWhile (partBlockPred st.cursor t) with hR
  set q : Span → Bool := fun sp => sp.leb { span with start := t } with hq
  set T := R.takeWhile q with hT
  have hBR : B ++ R = st.spans.drop st.index := by
    rw [hB, hR]
    exact List.takeWhile_append_dropWhile _ _
  have hlenBR : B.length + R.length = st.spans.length - st.index := by
    have := congrArg List.length hBR
    simpa [List.length_append, List.length_drop] using this
  have htklen : (st.spans.take st.index).length = st.index := by
    simp [List.length_take]
    omega
  have hTR : T ++ R.dropWhile q = R := by
    rw [hT]
    exact List.takeWhile_append_dropWhile _ _
  have hTlen : T.length ≤ R.length := by
    have := congrArg List.length hTR
    simp [List.length_append] at this
    omega
  have hmaplen : (B.map (fun sp => ({ sp with start := t } : Span))).length = B.length := by
    simp
  have hdropidx : pr.1.spans.drop st.index =
      B.map (fun sp => ({ sp with start := t } : Span)) ++ R := by
    rw [hc1, List.append_assoc]
    exact drop_len_append_left htklen _
  have hdropi : pr.1.spans.drop (st.index + B.length) = R := by
    rw [hc1, List.append_assoc]
    have h1 := drop_append_add (st.spans.take st.index)
      (B.map (fun sp => ({ sp with start := t } : Span)) ++ R) B.length
    rw [htklen] at h1
    rw [h1]
    exact drop_len_append_left hmaplen _
  have htakeidx : pr.1.spans.take st.index = st.spans.take st.index := by
    rw [hc1, List.append_assoc]
    exact take_len_append_left htklen _
  have hile : pr.2 ≤ pr.1.spans.length := by
    rw [hc4, hf1]
    omega
  rw [if_pos hile]
  have hscan : (pr.1.spans.drop pr.2).takeWhile q = T := by
    rw [hc4, hdropi, hT]
  have htk : (pr.1.spans.drop st.index).take (B.length + T.length) =
      B.map (fun sp => ({ sp with start := t } : Span)) ++ T := by
    rw [hdropidx]
    have h1 := take_append_add (B.map (fun sp => ({ sp with start := t } : Span))) R T.length
    rw [hmaplen] at h1
    rw [h1, hT, take_takeWhile]
  have hrot : rotateLeftList
      (B.map (fun sp => ({ sp with start := t } : Span)) ++ T) B.length =
      T ++ B.map (fun sp => ({ sp with start := t } : Span)) := by
    unfold rotateLeftList
    rw [drop_len_append_left hmaplen, take_len_append_left hmaplen]
  have hdropfss : pr.1.spans.drop (st.index + B.length + T.length) =
      R.dropWhile q := by
    rw [hc1, List.append_assoc]
    have h1 := drop_append_add (st.spans.take st.index)
      (B.map (fun sp => ({ sp with start := t } : Span)) ++ R) (B.length + T.length)
    rw [htklen] at h1
    rw [Nat.add_assoc, h1]
    have h2 := drop_append_add (B.map (fun sp => ({ sp with start := t } : Span))) R T.length
    rw [hmaplen] at h2
    rw [h2, hT, ← dropWhile_eq_drop]
  by_cases hzero : ((pr.1.spans.drop pr.2).takeWhile q).length ≠ 0
  · rw [if_pos hzero]
    have hguard : pr.1.index ≤ pr.2 + ((pr.1.spans.drop pr.2).takeWhile q).length ∧
        pr.2 + ((pr.1.spans.drop pr.2).takeWhile q).length ≤ pr.1.spans.length ∧
        pr.2 - pr.1.index ≤
          pr.2 + ((pr.1.spans.drop pr.2).takeWhile q).length - pr.1.index := by
      rw [hscan, hf2, hc4, hf1]
      omega
    rw [if_pos hguard]
    refine ⟨_, rfl, by simpa using hf2, by simpa using hf3, ?_, ?_, ?_, ?_⟩
    · dsimp only
      rw [hscan, hf2, hc4, htakeidx, List.append_assoc]
      exact take_len_append_left htklen _
    · dsimp only
      rw [hscan, hf2, hc4, htakeidx]
      have heq1 : st.index + B.length + T.length - st.index = B.length + T.length := by
        omega
      have heq2 : st.index + B.length - st.index = B.length := by omega
      rw [heq1, heq2, htk, hrot, hdropfss, List.append_assoc]
      rw [drop_len_append_left htklen]
    · dsimp only
      exact hc2
    · dsimp only
      exact hc3
  · rw [if_neg hzero]
    push_neg at hzero
    have hT0 : T = [] := by
      rw [hscan] at hzero
      exact List.length_eq_zero.mp hzero
    have hdw : R.dropWhile q = R := by
      have h1 := hTR
      rw [hT0] at h1
      simpa using h1
    refine ⟨pr.1, rfl, by simpa using hf2, by simpa using hf3, htakeidx, ?_, hc2, hc3⟩
    rw [hT0, hdw, hdropidx]
    simp

/-- Events playing the role of `HighlightStart` in the queue. -/
def isStartEv : HighlightEvent → Bool
  | .highlightStart _ => true
  | _ => false

def countStarts (q : List HighlightEvent) : Nat := (q.filter isStartEv).length

def countEnds (q : List HighlightEvent) : Nat :=
  (q.filter (fun ev => ev == HighlightEvent.highlightEnd)).length

@[simp] theorem countStarts_nil : countStarts [] = 0 := rfl

@[simp] theorem countEnds_nil : countEnds [] = 0 := rfl

@[simp] theorem countStarts_append (a b : List HighlightEvent) :
    countStarts (a ++ b) = countStarts a + countStarts b := by
  simp [countStarts, List.filter_append]

@[simp] theorem countEnds_append (a b : List HighlightEvent) :
    countEnds (a ++ b) = countEnds a + countEnds b := by
  simp [countEnds, List.filter_append]

@[simp] theorem countStarts_cons_start (h : Highlight) (l : List HighlightEvent) :
    countStarts (HighlightEvent.highlightStart h :: l) = countStarts l + 1 := by
  simp [countStarts, List.filter_cons, isStartEv]

@[simp] theorem countEnds_cons_start (h : Highlight) (l : List HighlightEvent) :
    countEnds (HighlightEvent.highlightStart h :: l) = countEnds l := by
  simp [countEnds, List.filter_cons]

@[simp] theorem countStarts_end : countStarts [HighlightEvent.highlightEnd] = 0 := rfl

@[simp] theorem countEnds_end : countEnds [HighlightEvent.highlightEnd] = 1 := rfl

@[simp] theorem countStarts_map_start (l : List Span)
    (f : Span → Highlight) :
    countStarts (l.map (fun sp => HighlightEvent.highlightStart (f sp))) = l.length := by
  induction l with
  | nil => rfl
  | cons x xs ih => simp [ih]

@[simp] theorem countEnds_map_start (l : List Span)
    (f : Span → Highlight) :
    countEnds (l.map (fun sp => HighlightEvent.highlightStart (f sp))) = 0 := by
  induction l with
  | nil => rfl
  | cons x xs ih => simp [ih]

/-- The machine invariant maintained by `next` on sorted, valid inputs:
the unprocessed spans have non-decreasing starts at or past the cursor and
are valid half-open ranges, and the open ends are at or past the cursor and
sorted descending. -/
structure MInv (st : SpanIter) : Prop where
  starts_mono : (st.spans.drop st.index).Pairwise (fun a b => a.start ≤ b.start)
  cursor_le : ∀ sp ∈ st.spans.drop st.index, st.cursor ≤ sp.start
  valid : ∀ sp ∈ st.spans.drop st.index, sp.start ≤ sp.«end»
  ends_ge : ∀ e ∈ st.span_ends, st.cursor ≤ e
  ends_desc : st.span_ends.Pairwise (fun a b => b ≤ a)

/-- The relation tying the well-formedness checker state to the machine
state: the open count matches the open ends corrected by the queued events,
the queue holds only `HighlightStart`s or is the single `HighlightEnd`
queued by `emit_span_end`, the last `Source` window ends at or before the
cursor, and after a connective `Source` (the only event that leaves
`prevWasSource` set with an empty queue) the span at `index` sits exactly at
the cursor strictly before the smallest open end. -/
structure CRel (c : CheckSt) (st : SpanIter) : Prop where
  bal : c.opened + countStarts st.event_queue =
        st.span_ends.length + countEnds st.event_queue
  qshape : (∀ ev ∈ st.event_queue, isStartEv ev = true) ∨
           st.event_queue = [HighlightEvent.highlightEnd]
  last_ok : ∀ a b, c.last = some (a, b) → a < b ∧ b ≤ st.cursor
  prev_ok : c.prevWasSource = true → st.event_queue = [] →
    ∃ sp, st.spans.get? st.index = some sp ∧ sp.start = st.cursor ∧
      ∀ e, st.span_ends.getLast? = some e → st.cursor < e

/-- The completion of the smallest open end (the shared body of the drain
branch and the pop branch of `next`): popping `e` from the tail of the
descending `span_ends` and emitting through `emit_span_end` yields an event
the checker accepts and re-establishes both invariants. -/
theorem emit_case (st : SpanIter) (c : CheckSt) (e : Nat)
    (hq : st.event_queue = [])
    (hl : st.span_ends.getLast? = some e)
    (hI : MInv st) (hR : CRel c st)
    (hprev : c.prevWasSource = false)
    (hsuffix : ∀ sp ∈ st.spans.drop st.index, e ≤ sp.start) :
    ∃ c', checkStep c
        ((SpanIter.emit_span_end { st with span_ends := st.span_ends.dropLast } e).1) =
          some c' ∧
      MInv ((SpanIter.emit_span_end { st with span_ends := st.span_ends.dropLast } e).2) ∧
      CRel c' ((SpanIter.emit_span_end { st with span_ends := st.span_ends.dropLast } e).2) := by
  have hemem : e ∈ st.span_ends := getLast?_mem hl
  have hends_ne : st.span_ends ≠ [] := by
    intro h
    rw [h] at hemem
    cases hemem
  have hcur_le : st.cursor ≤ e := hI.ends_ge e hemem
  have hmin : ∀ x ∈ st.span_ends.dropLast, e ≤ x := by
    intro x hx
    exact getLast?_desc_min hI.ends_desc hl x ((List.dropLast_sublist _).mem hx)
  have hpos : 0 < st.span_ends.length := List.length_pos.mpr hends_ne
  have hlen : st.span_ends.dropLast.length + 1 = st.span_ends.length := by
    rw [List.length_dropLast]
    omega
  have hbal : c.opened = st.span_ends.length := by
    have := hR.bal
    rw [hq] at this
    simpa using this
  have hdesc' : st.span_ends.dropLast.Pairwise (fun a b => b ≤ a) :=
    hI.ends_desc.sublist (List.dropLast_sublist _)
  unfold SpanIter.emit_span_end
  by_cases hcur : st.cursor ≠ e
  · have hlt : st.cursor < e := by omega
    rw [if_pos (by simpa using hcur)]
    dsimp only
    refine ⟨⟨c.opened, some (st.cursor, e), true⟩, ?_, ?_, ?_⟩
    · simp only [checkStep]
      have hmono : (match c.last with
          | none => true
          | some (a, b) => decide (a < st.cursor) && decide (b ≤ st.cursor)) = true := by
        cases hcl : c.last with
        | none => rfl
        | some p =>
          obtain ⟨ha, hb⟩ := hR.last_ok p.1 p.2 (by rw [hcl])
          simp
          omega
      rw [hprev]
      simp only [hmono]
      simp [hlt]
    · exact ⟨hI.starts_mono, fun sp hsp => hsuffix sp hsp, hI.valid, hmin, hdesc'⟩
    · refine ⟨?_, ?_, ?_, ?_⟩
      · dsimp only
        rw [hq]
        simp
        omega
      · right
        simp [hq]
      · intro a b hab
        cases hab
        exact ⟨hlt, Nat.le_refl e⟩
      · intro _ hq'
        dsimp only at hq'
        rw [hq] at hq'
        cases hq'
  · push_neg at hcur
    rw [if_neg (show ¬ (st.cursor ≠ e) by omega)]
    dsimp only
    have hn : c.opened = st.span_ends.dropLast.length + 1 := by omega
    refine ⟨⟨st.span_ends.dropLast.length, c.last, false⟩, ?_, ?_, ?_⟩
    · simp only [checkStep, hn]
    · exact ⟨hI.starts_mono, fun sp hsp => hsuffix sp hsp, hI.valid, hmin, hdesc'⟩
    · refine ⟨?_, ?_, ?_, ?_⟩
      · dsimp only
        rw [hq]
        simp
      · left
        dsimp only
        rw [hq]
        intro ev hev
        cases hev
      · intro a b hab
        obtain ⟨h1, h2⟩ := hR.last_ok a b hab
        refine ⟨h1, ?_⟩
        dsimp only
        omega
      · intro hp
        cases hp

theorem countEnds_of_allStarts {l : List HighlightEvent}
    (h : ∀ ev ∈ l, isStartEv ev = true) : countEnds l = 0 := by
  unfold countEnds
  rw [List.filter_eq_nil_iff.mpr]
  · rfl
  · intro ev hev
    have := h ev hev
    cases ev with
    | highlightStart _ => simp
    | highlightEnd => simp [isStartEv] at this
    | source _ _ => simp [isStartEv] at this

theorem countStarts_of_allStarts {l : List HighlightEvent}
    (h : ∀ ev ∈ l, isStartEv ev = true) : countStarts l = l.length := by
  unfold countStarts
  rw [List.filter_eq_self.mpr h]

theorem pairwise_of_forall {α : Type} {R : α → α → Prop} (h : ∀ a b, R a b) :
    ∀ l : List α, l.Pairwise R := by
  intro l
  induction l with
  | nil => exact List.Pairwise.nil
  | cons x xs ih => exact List.Pairwise.cons (fun b _ => h x b) ih

theorem dropWhile_head_false {α : Type} (p : α → Bool) :
    ∀ (l : List α) (h : α) (tl : List α), l.dropWhile p = h :: tl → p h = false := by
  intro l
  induction l with
  | nil => intro h tl heq; cases heq
  | cons x xs ih =>
    intro h tl heq
    rw [List.dropWhile_cons] at heq
    by_cases hx : p x
    · rw [if_pos hx] at heq
      exact ih h tl heq
    · rw [if_neg hx] at heq
      cases heq
      exact Bool.of_not_eq_true hx

/-- Every element of a pairwise-ordered list bounded below by a bound on
its head. -/
theorem pairwise_head_le {R : Span → Span → Prop} {h : Span} {tl : List Span}
    (hp : (h :: tl).Pairwise R) : ∀ x ∈ tl, R h x :=
  fun x hx => List.rel_of_pairwise_cons hp hx

theorem dropWhile_bound {L : List Span} {q : Span → Bool} {t : Nat}
    (hpair : L.Pairwise (fun a b => a.start ≤ b.start))
    (hfail : ∀ x, q x = false → t ≤ x.start) :
    ∀ x ∈ L.dropWhile q, t ≤ x.start := by
  intro x hx
  cases hdw : L.dropWhile q with
  | nil => rw [hdw] at hx; cases hx
  | cons hd tl =>
    rw [hdw] at hx
    have hqhd : q hd = false := dropWhile_head_false q L hd tl hdw
    have hhd : t ≤ hd.start := hfail hd hqhd
    rcases List.mem_cons.mp hx with rfl | hx'
    · exact hhd
    · have hp : (hd :: tl).Pairwise (fun a b => a.start ≤ b.start) := by
        rw [← hdw]
        exact hpair.sublist (List.dropWhile_sublist _)
      exact Nat.le_trans hhd (pairwise_head_le hp x hx')

/-- The common tail of the continuation of `next`: open every span at the
cursor, re-sort the open ends descending and pop the queue front, which is
a `HighlightStart` accepted by the checker. -/
theorem tail_step (st₂ : SpanIter) (c : CheckSt)
    (hq₂ : ∀ ev ∈ st₂.event_queue, isStartEv ev = true)
    (hbal₂ : c.opened + countStarts st₂.event_queue = st₂.span_ends.length)
    (hlast₂ : ∀ a b, c.last = some (a, b) → a < b ∧ b ≤ st₂.cursor)
    (hmono₂ : (st₂.spans.drop st₂.index).Pairwise (fun a b => a.start ≤ b.start))
    (hcle₂ : ∀ sp ∈ st₂.spans.drop st₂.index, st₂.cursor ≤ sp.start)
    (hval₂ : ∀ sp ∈ st₂.spans.drop st₂.index, sp.start ≤ sp.«end»)
    (hends₂ : ∀ e ∈ st₂.span_ends, st₂.cursor ≤ e)
    (hidx₂ : st₂.index ≤ st₂.spans.length)
    (hne : st₂.event_queue ≠ [] ∨
      ∃ sp, st₂.spans.get? st₂.index = some sp ∧ sp.start = st₂.cursor) :
    ∃ ev st' c',
      (match ({ st₂.openLoop with span_ends := sortDesc st₂.openLoop.span_ends }
          : SpanIter).event_queue with
        | ev :: rest =>
          StepResult.yield ev
            { { st₂.openLoop with span_ends := sortDesc st₂.openLoop.span_ends } with
              event_queue := rest }
        | [] => StepResult.done) = StepResult.yield ev st' ∧
      checkStep c ev = some c' ∧ MInv st' ∧ CRel c' st' := by
  obtain ⟨ho1, ho2, ho3, ho4, ho5⟩ :=
    openLoopF_char st₂.spans.length st₂ (by omega) hidx₂
  have hOBsub : ((st₂.spans.drop st₂.index).takeWhile
      (fun sp => sp.start == st₂.cursor)).Sublist (st₂.spans.drop st₂.index) :=
    List.takeWhile_sublist _
  set OB := (st₂.spans.drop st₂.index).takeWhile (fun sp => sp.start == st₂.cursor)
    with hOB
  have hq₃ : st₂.openLoop.event_queue =
      st₂.event_queue ++ OB.map (fun sp => HighlightEvent.highlightStart ⟨sp.scope⟩) := by
    unfold SpanIter.openLoop
    exact ho4
  have hq₃starts : ∀ ev ∈ st₂.openLoop.event_queue, isStartEv ev = true := by
    rw [hq₃]
    intro ev hev
    rcases List.mem_append.mp hev with h | h
    · exact hq₂ ev h
    · obtain ⟨sp, _, rfl⟩ := List.mem_map.mp h
      rfl
  have hq₃ne : st₂.openLoop.event_queue ≠ [] := by
    rw [hq₃]
    rcases hne with h | ⟨sp, hget, hstart⟩
    · intro hcontra
      exact h (List.append_eq_nil.mp hcontra).1
    · have hdrop : st₂.spans.drop st₂.index = sp :: st₂.spans.drop (st₂.index + 1) :=
        drop_eq_cons_of_get? hget
      have hOBcons : OB = sp :: (st₂.spans.drop (st₂.index + 1)).takeWhile
          (fun sp => sp.start == st₂.cursor) := by
        rw [hOB, hdrop, List.takeWhile_cons]
        simp [hstart]
      rw [hOBcons]
      simp
  obtain ⟨ev, rest, hqcons⟩ := List.exists_cons_of_ne_nil hq₃ne
  have hevstart : isStartEv ev = true := by
    refine hq₃starts ev ?_
    rw [hqcons]
    exact List.mem_cons_self ev rest
  obtain ⟨h, hevh⟩ : ∃ h, ev = HighlightEvent.highlightStart h := by
    cases ev with
    | highlightStart h => exact ⟨h, rfl⟩
    | highlightEnd => simp [isStartEv] at hevstart
    | source _ _ => simp [isStartEv] at hevstart
  have hspans : st₂.openLoop.spans = st₂.spans := by
    unfold SpanIter.openLoop
    exact ho1
  have hcursor : st₂.openLoop.cursor = st₂.cursor := by
    unfold SpanIter.openLoop
    exact ho2
  have hindex : st₂.openLoop.index = st₂.index + OB.length := by
    unfold SpanIter.openLoop
    exact ho3
  have hends₃ : st₂.openLoop.span_ends =
      st₂.span_ends ++ OB.map (fun sp => sp.«end») := by
    unfold SpanIter.openLoop
    exact ho5
  refine ⟨ev,
    ⟨st₂.openLoop.spans, st₂.openLoop.index, rest,
      sortDesc st₂.openLoop.span_ends, st₂.openLoop.cursor⟩,
    ⟨c.opened + 1, c.last, false⟩, ?_, ?_, ?_, ?_⟩
  · split
    · next ev' rest' heq =>
      dsimp only at heq
      rw [hqcons] at heq
      cases heq
      rfl
    · next heq =>
      dsimp only at heq
      rw [hqcons] at heq
      cases heq
  · rw [hevh]
    rfl
  · have hsuffix : st₂.openLoop.spans.drop st₂.openLoop.index =
        (st₂.spans.drop st₂.index).drop OB.length := by
      rw [hspans, hindex, List.drop_drop, Nat.add_comm]
    have hsubsuffix : (st₂.openLoop.spans.drop st₂.openLoop.index).Sublist
        (st₂.spans.drop st₂.index) := by
      rw [hsuffix]
      exact List.drop_sublist _ _
    have hendmem : ∀ x ∈ st₂.openLoop.span_ends, st₂.cursor ≤ x := by
      rw [hends₃]
      intro x hx
      rcases List.mem_append.mp hx with hmem | hmem
      · exact hends₂ x hmem
      · obtain ⟨sp, hsp, rfl⟩ := List.mem_map.mp hmem
        have hspmem : sp ∈ st₂.spans.drop st₂.index := hOBsub.mem hsp
        exact Nat.le_trans (hcle₂ sp hspmem) (hval₂ sp hspmem)
    refine ⟨?_, ?_, ?_, ?_, ?_⟩
    · dsimp only
      exact hmono₂.sublist hsubsuffix
    · dsimp only
      rw [hcursor]
      intro sp hsp
      exact hcle₂ sp (hsubsuffix.mem hsp)
    · dsimp only
      intro sp hsp
      exact hval₂ sp (hsubsuffix.mem hsp)
    · dsimp only
      rw [hcursor]
      intro x hx
      exact hendmem x ((sortDesc_perm _).mem_iff.mp hx)
    · dsimp only
      exact sortDesc_sorted _
  · have hreststarts : ∀ ev' ∈ rest, isStartEv ev' = true := by
      intro ev' hev'
      refine hq₃starts ev' ?_
      rw [hqcons]
      exact List.mem_cons_of_mem ev hev'
    have hlenq : countStarts st₂.openLoop.event_queue =
        countStarts st₂.event_queue + OB.length := by
      rw [hq₃]
      simp
    have hlenq2 : countStarts st₂.openLoop.event_queue = countStarts rest + 1 := by
      rw [hqcons, hevh]
      simp
    have hendlen : (sortDesc st₂.openLoop.span_ends).length =
        st₂.span_ends.length + OB.length := by
      rw [(sortDesc_perm _).length_eq]
      rw [hends₃]
      simp
    refine ⟨?_, ?_, ?_, ?_⟩
    · dsimp only
      rw [hendlen, countEnds_of_allStarts hreststarts]
      omega
    · left
      exact hreststarts
    · intro a b hab
      obtain ⟨h1, h2⟩ := hlast₂ a b hab
      dsimp only
      rw [hcursor]
      exact ⟨h1, h2⟩
    · intro hp
      cases hp

/-- The continuation of `next` on a span read at the index: either the
connective `Source` is emitted, or the span vector is partitioned and the
open loop starts the spans at the cursor; in every case the produced event
is accepted by the checker and both invariants are preserved. -/
theorem nextCont_preserves (st : SpanIter) (c : CheckSt) (span : Span)
    (subslice : Option Nat)
    (hI : MInv st) (hR : CRel c st)
    (hq : st.event_queue = [])
    (hget : st.spans.get? st.index = some span)
    (hsub : ∀ t, subslice = some t → span.start < t ∧ t < span.«end» ∧
        st.span_ends.getLast? = some t)
    (hminele : ∀ e, st.span_ends.getLast? = some e → span.start < e) :
    ∃ ev st' c', st.nextCont span subslice = StepResult.yield ev st' ∧
      checkStep c ev = some c' ∧ MInv st' ∧ CRel c' st' := by
  have hidx : st.index < st.spans.length := get?_some_lt hget
  have hdrop : st.spans.drop st.index = span :: st.spans.drop (st.index + 1) :=
    drop_eq_cons_of_get? hget
  have hspanmem : span ∈ st.spans.drop st.index := by
    rw [hdrop]
    exact List.mem_cons_self _ _
  have hcur_start : st.cursor ≤ span.start := hI.cursor_le span hspanmem
  have hS_ge : ∀ x ∈ st.spans.drop st.index, span.start ≤ x.start := by
    intro x hx
    rw [hdrop] at hx
    rcases List.mem_cons.mp hx with rfl | hx'
    · exact Nat.le_refl _
    · have hp := hI.starts_mono
      rw [hdrop] at hp
      exact pairwise_head_le hp x hx'
  have hends_ge_start : ∀ e ∈ st.span_ends, span.start ≤ e →
      True := fun _ _ _ => trivial
  by_cases hconn : span.start ≠ st.cursor ∧ st.span_ends ≠ []
  · -- connective Source
    have hne : st.span_ends ≠ [] := hconn.2
    have hlt : st.cursor < span.start := by
      rcases Nat.lt_or_ge st.cursor span.start with h | h
      · exact h
      · exact absurd (Nat.le_antisymm hcur_start h).symm hconn.1
    have hends_gt : ∀ x ∈ st.span_ends, span.start ≤ x := by
      cases hlast : st.span_ends.getLast? with
      | none => exact absurd (List.getLast?_eq_none_iff.mp hlast) hne
      | some e =>
        intro x hx
        have h1 := getLast?_desc_min hI.ends_desc hlast x hx
        have h2 := hminele e hlast
        omega
    have hprev : c.prevWasSource = false := by
      cases hcp : c.prevWasSource
      · rfl
      · obtain ⟨sp₀, hget₀, hstart₀, _⟩ := hR.prev_ok hcp hq
        rw [hget] at hget₀
        cases hget₀
        exact absurd hstart₀ hconn.1
    refine ⟨HighlightEvent.source st.cursor span.start,
      ⟨st.spans, st.index, st.event_queue, st.span_ends, span.start⟩,
      ⟨c.opened, some (st.cursor, span.start), true⟩, ?_, ?_, ?_, ?_⟩
    · unfold SpanIter.nextCont
      dsimp only
      rw [if_pos hconn]
    · simp only [checkStep]
      have hmono : (match c.last with
          | none => true
          | some (a, b) => decide (a < st.cursor) && decide (b ≤ st.cursor)) = true := by
        cases hcl : c.last with
        | none => rfl
        | some p =>
          obtain ⟨ha, hb⟩ := hR.last_ok p.1 p.2 (by rw [hcl])
          simp
          omega
      rw [hprev]
      simp only [hmono]
      simp [hlt]
    · refine ⟨hI.starts_mono, hS_ge, hI.valid, hends_gt, hI.ends_desc⟩
    · refine ⟨?_, ?_, ?_, ?_⟩
      · exact hR.bal
      · exact hR.qshape
      · intro a b hab
        cases hab
        exact ⟨hlt, Nat.le_refl _⟩
      · intro _ hq'
        refine ⟨span, hget, rfl, ?_⟩
        intro e hlast
        dsimp only
        exact hminele e hlast
  · -- no connective Source: partition if needed, then open
    have hcase : span.start = st.cursor ∨ st.span_ends = [] := by
      by_cases h1 : span.start = st.cursor
      · exact Or.inl h1
      · by_cases h2 : st.span_ends = []
        · exact Or.inr h2
        · exact absurd ⟨h1, h2⟩ hconn
    have hends_ge_sp : ∀ e ∈ st.span_ends, span.start ≤ e := by
      rcases hcase with h | h
      · intro e he
        rw [h]
        exact hI.ends_ge e he
      · intro e he
        rw [h] at he
        cases he
    cases subslice with
    | none =>
      obtain ⟨ev, st', c', heq, hc, hm, hr⟩ :=
        tail_step ⟨st.spans, st.index, st.event_queue, st.span_ends, span.start⟩ c
          (by dsimp only; rw [hq]; intro ev hev; cases hev)
          (by dsimp only
              have hbal := hR.bal
              rw [hq] at hbal
              rw [hq]
              simpa using hbal)
          (by intro a b hab
              obtain ⟨h1, h2⟩ := hR.last_ok a b hab
              exact ⟨h1, by dsimp only; omega⟩)
          (by dsimp only; exact hI.starts_mono)
          (by dsimp only; exact hS_ge)
          (by dsimp only; exact hI.valid)
          (by dsimp only; exact hends_ge_sp)
          (by dsimp only; omega)
          (Or.inr ⟨span, hget, rfl⟩)
      refine ⟨ev, st', c', ?_, hc, hm, hr⟩
      unfold SpanIter.nextCont
      dsimp only
      rw [if_neg hconn]
      exact heq
    | some t =>
      obtain ⟨hlt_t, ht_end, hlastt⟩ := hsub t rfl
      have hne_ends : st.span_ends ≠ [] := by
        intro h
        rw [h] at hlastt
        cases hlastt
      have hstartcur : span.start = st.cursor := by
        rcases hcase with h | h
        · exact h
        · exact absurd h hne_ends
      obtain ⟨st₂, hps, hidx₂, hcur₂, htake₂, hdrop₂, hqueue₂, hends₂⟩ :=
        partition_spans_at_char
          ⟨st.spans, st.index, st.event_queue, st.span_ends, span.start⟩ t span hget
      dsimp only at hps hidx₂ hcur₂ htake₂ hdrop₂ hqueue₂ hends₂
      set pb := partBlockPred span.start t with hpb
      set B := (st.spans.drop st.index).takeWhile pb with hB
      set R := (st.spans.drop st.index).dropWhile pb with hR'
      set q : Span → Bool := fun sp => sp.leb { span with start := t } with hq'
      set T := R.takeWhile q with hT
      set R₂ := R.dropWhile q with hR₂
      have hBsub : B.Sublist (st.spans.drop st.index) := List.takeWhile_sublist _
      have hRsub : R.Sublist (st.spans.drop st.index) := List.dropWhile_sublist _
      have hTsub : T.Sublist (st.spans.drop st.index) :=
        (List.takeWhile_sublist _).trans hRsub
      have hR₂sub : R₂.Sublist (st.spans.drop st.index) :=
        (List.dropWhile_sublist _).trans hRsub
      have hBcons : B = span :: (st.spans.drop (st.index + 1)).takeWhile pb := by
        rw [hB, hdrop, List.takeWhile_cons]
        have : pb span = true := by
          rw [hpb]
          unfold partBlockPred
          simp
          omega
        rw [this]
        simp
      have hBne : B ≠ [] := by
        rw [hBcons]
        simp
      have hT_le : ∀ x ∈ T, x.start ≤ t := by
        intro x hx
        have := List.mem_takeWhile_imp hx
        have h1 := leb_start_le (a := x) (b := { span with start := t }) this
        simpa using h1
      have hR₂_ge : ∀ x ∈ R₂, t ≤ x.start := by
        rw [hR₂]
        refine dropWhile_bound (hI.starts_mono.sublist hRsub) ?_
        intro x hx
        have h1 := not_leb_start_le (a := x) (b := { span with start := t }) hx
        simpa using h1
      have hB't : ∀ x ∈ B.map (fun sp => ({ sp with start := t } : Span)), x.start = t := by
        intro x hx
        obtain ⟨sp, _, rfl⟩ := List.mem_map.mp hx
        rfl
      have hBval : ∀ sp ∈ B, t ≤ sp.«end» := by
        intro sp hsp
        have := List.mem_takeWhile_imp hsp
        rw [hpb] at this
        unfold partBlockPred at this
        simp at this
        exact this.2
      have hsufx₂ : st₂.spans.drop st.index =
          T ++ B.map (fun sp => ({ sp with start := t } : Span)) ++ R₂ := hdrop₂
      have hmono₂ : (st₂.spans.drop st₂.index).Pairwise
          (fun a b => a.start ≤ b.start) := by
        rw [hidx₂, hsufx₂]
        refine List.pairwise_append.mpr ⟨?_, ?_, ?_⟩
        · refine List.pairwise_append.mpr ⟨?_, ?_, ?_⟩
          · exact hI.starts_mono.sublist hTsub
          · exact List.pairwise_map.mpr (pairwise_of_forall (fun a b => Nat.le_refl t) B)
          · intro a ha b hb
            rw [hB't b hb]
            exact hT_le a ha
        · exact hI.starts_mono.sublist hR₂sub
        · intro a ha b hb
          rcases List.mem_append.mp ha with ha' | ha'
          · exact Nat.le_trans (hT_le a ha') (hR₂_ge b hb)
          · rw [hB't a ha']
            exact hR₂_ge b hb
      have hcur₂' : st₂.cursor = span.start := hcur₂
      have hcle₂ : ∀ sp ∈ st₂.spans.drop st₂.index, st₂.cursor ≤ sp.start := by
        rw [hidx₂, hsufx₂, hcur₂']
        intro sp hsp
        rcases List.mem_append.mp hsp with h1 | h1
        · rcases List.mem_append.mp h1 with h2 | h2
          · exact hS_ge sp (hTsub.mem h2)
          · rw [hB't sp h2]
            omega
        · exact hS_ge sp (hR₂sub.mem h1)
      have hval₂ : ∀ sp ∈ st₂.spans.drop st₂.index, sp.start ≤ sp.«end» := by
        rw [hidx₂, hsufx₂]
        intro sp hsp
        rcases List.mem_append.mp hsp with h1 | h1
        · rcases List.mem_append.mp h1 with h2 | h2
          · exact hI.valid sp (hTsub.mem h2)
          · obtain ⟨sp₀, hsp₀, rfl⟩ := List.mem_map.mp h2
            have := hBval sp₀ hsp₀
            simpa using this
        · exact hI.valid sp (hR₂sub.mem h1)
      have hends₂ge : ∀ e ∈ st₂.span_ends, st₂.cursor ≤ e := by
        rw [hends₂, hcur₂']
        intro e he
        rcases List.mem_append.mp he with h1 | h1
        · exact hends_ge_sp e h1
        · obtain ⟨sp₀, _, rfl⟩ := List.mem_map.mp h1
          omega
      have hlen₂ : st.index ≤ st₂.spans.length := by
        have hsplit := (List.take_append_drop st.index st₂.spans).symm
        have hlen := congrArg List.length hsplit
        rw [List.length_append, htake₂] at hlen
        have : (st.spans.take st.index).length = st.index := by
          simp [List.length_take]
          omega
        omega
      have hq₂starts : ∀ ev ∈ st₂.event_queue, isStartEv ev = true := by
        rw [hqueue₂, hq]
        intro ev hev
        rcases List.mem_append.mp hev with h1 | h1
        · cases h1
        · obtain ⟨sp₀, _, rfl⟩ := List.mem_map.mp h1
          rfl
      have hbal₂ : c.opened + countStarts st₂.event_queue = st₂.span_ends.length := by
        rw [hqueue₂, hends₂, hq]
        have hbal := hR.bal
        rw [hq] at hbal
        simp at hbal ⊢
        omega
      have hlast₂ : ∀ a b, c.last = some (a, b) → a < b ∧ b ≤ st₂.cursor := by
        intro a b hab
        obtain ⟨h1, h2⟩ := hR.last_ok a b hab
        rw [hcur₂']
        omega
      have hne₂ : st₂.event_queue ≠ [] := by
        rw [hqueue₂, hq]
        simp
        exact hBne
      obtain ⟨ev, st', c', heq, hc, hm, hr⟩ :=
        tail_step st₂ c hq₂starts hbal₂ hlast₂ hmono₂ hcle₂ hval₂ hends₂ge
          (by rw [hidx₂]; exact hlen₂) (Or.inl hne₂)
      refine ⟨ev, st', c', ?_, hc, hm, hr⟩
      unfold SpanIter.nextCont
      dsimp only
      rw [if_neg hconn]
      rw [hps]
      exact heq

/-! ## Absence of out-of-bounds indexing (for C4) -/

theorem emit_span_end_snd_fields (s : SpanIter) (e : Nat) :
    (s.emit_span_end e).2.spans = s.spans ∧
    (s.emit_span_end e).2.index = s.index ∧
    (s.emit_span_end e).2.span_ends = s.span_ends ∧
    (s.emit_span_end e).2.cursor = e := by
  unfold SpanIter.emit_span_end
  by_cases h : s.cursor ≠ e
  · simp [h]
  · simp [h]

/-- The continuation of `next` never goes out of bounds once the read at
`index` has succeeded, and every successor state keeps `index` within the
vector. -/
theorem nextCont_safe (st : SpanIter) (span : Span) (subslice : Option Nat)
    (hget : st.spans.get? st.index = some span) :
    st.nextCont span subslice ≠ StepResult.oob ∧
    ∀ ev st', st.nextCont span subslice = StepResult.yield ev st' →
      st'.index ≤ st'.spans.length := by
  have hidx : st.index < st.spans.length := get?_some_lt hget
  unfold SpanIter.nextCont
  dsimp only
  by_cases hc : span.start ≠ st.cursor ∧ st.span_ends ≠ []
  · rw [if_pos hc]
    refine ⟨by simp, ?_⟩
    intro ev st' heq
    cases heq
    dsimp only
    omega
  · rw [if_neg hc]
    have tail_safe : ∀ st₂ : SpanIter, st₂.index ≤ st₂.spans.length →
        ((match ({ st₂.openLoop with
              span_ends := sortDesc st₂.openLoop.span_ends } : SpanIter).event_queue with
          | ev :: rest =>
            StepResult.yield ev
              { { st₂.openLoop with span_ends := sortDesc st₂.openLoop.span_ends } with
                event_queue := rest }
          | [] => StepResult.done) ≠ StepResult.oob ∧
        ∀ ev st',
          (match ({ st₂.openLoop with
              span_ends := sortDesc st₂.openLoop.span_ends } : SpanIter).event_queue with
            | ev :: rest =>
              StepResult.yield ev
                { { st₂.openLoop with span_ends := sortDesc st₂.openLoop.span_ends } with
                  event_queue := rest }
            | [] => StepResult.done) = StepResult.yield ev st' →
            st'.index ≤ st'.spans.length) := by
      intro st₂ hinv₂
      obtain ⟨ho1, ho2, ho3, ho4⟩ := openLoopF_fields st₂.spans.length st₂
      have hidx₃ : st₂.openLoop.index ≤ st₂.openLoop.spans.length := by
        unfold SpanIter.openLoop
        rw [ho1]
        omega
      constructor
      · split
        · simp
        · simp
      · intro ev st' heq
        split at heq
        · cases heq
          dsimp only
          exact hidx₃
        · cases heq
    cases subslice with
    | none =>
      dsimp only
      exact tail_safe { st with cursor := span.start } (by dsimp only; omega)
    | some t =>
      obtain ⟨st₂, hps, hlen, hidx2, hcur⟩ :=
        partition_spans_at_some { st with cursor := span.start } t span hget
      dsimp only
      rw [hps]
      dsimp only at hlen hidx2
      exact tail_safe st₂ (by omega)

/-- One call of `next` never attempts an out-of-bounds index when the index
is within the vector, and every successor state keeps it so. -/
theorem next_safe (st : SpanIter) (h : st.index ≤ st.spans.length) :
    st.next ≠ StepResult.oob ∧
    ∀ ev st', st.next = StepResult.yield ev st' →
      st'.index ≤ st'.spans.length := by
  unfold SpanIter.next
  cases hq : st.event_queue with
  | cons ev rest =>
    dsimp only
    refine ⟨by simp, ?_⟩
    intro ev' st' heq
    cases heq
    dsimp only
    exact h
  | nil =>
    dsimp only
    by_cases hi : st.index = st.spans.length
    · rw [if_pos hi]
      cases hv : vecPop st.span_ends with
      | none => exact ⟨by simp, fun ev st' heq => by cases heq⟩
      | some pair =>
        dsimp only
        refine ⟨by simp, ?_⟩
        intro ev st' heq
        cases heq
        obtain ⟨he1, he2, _, _⟩ :=
          emit_span_end_snd_fields ⟨st.spans, st.index, [], pair.2, st.cursor⟩ pair.1
        dsimp only at he1 he2
        rw [he1, he2]
        exact h
    · rw [if_neg hi]
      cases hget : st.spans.get? st.index with
      | none =>
        have : st.spans.length ≤ st.index := List.get?_eq_none.mp hget
        omega
      | some span =>
        dsimp only
        cases hl : st.span_ends.getLast? with
        | some e =>
          simp only [SpanIter.nextSpanStep]
          by_cases hle : e ≤ span.start
          · rw [if_pos hle]
            refine ⟨by simp, ?_⟩
            intro ev st' heq
            cases heq
            obtain ⟨he1, he2, _, _⟩ :=
              emit_span_end_snd_fields
                { st with span_ends := st.span_ends.dropLast } e
            rw [he1, he2]
            exact h
          · rw [if_neg hle]
            exact nextCont_safe st span (if e < span.«end» then some e else none) hget
        | none =>
          simp only [SpanIter.nextSpanStep]
          exact nextCont_safe st span none hget

@[simp] theorem consEv_isOob (ev : HighlightEvent) (r : RunResult) :
    ((r.consEv ev).isOob) = r.isOob := by
  cases r <;> rfl

theorem run_never_oob :
    ∀ (fuel : Nat) (st : SpanIter), st.index ≤ st.spans.length →
      (st.run fuel).isOob = false := by
  intro fuel
  induction fuel with
  | zero => intro st _; rfl
  | succ fuel ih =>
    intro st hinv
    obtain ⟨hno, hyield⟩ := next_safe st hinv
    unfold SpanIter.run
    cases hn : st.next with
    | done => rfl
    | oob => exact absurd hn hno
    | yield ev st' =>
      rw [consEv_isOob]
      exact ih st' (hyield ev st' hn)

theorem vecPop_none {l : List Nat} (h : vecPop l = none) : l = [] := by
  unfold vecPop at h
  cases hl : l.getLast? with
  | none => exact List.getLast?_eq_none_iff.mp hl
  | some x => rw [hl] at h; cases h

/-- The master step lemma for C2: from a state satisfying the machine
invariant and related to the checker state, `next` either reports
exhaustion with the checker fully closed, or yields an event the checker
accepts, preserving both invariants. -/
theorem next_preserves (st : SpanIter) (c : CheckSt)
    (hI : MInv st) (hR : CRel c st) (hidx : st.index ≤ st.spans.length) :
    (st.next = StepResult.done ∧ c.opened = 0) ∨
    ∃ ev st' c', st.next = StepResult.yield ev st' ∧
      checkStep c ev = some c' ∧ MInv st' ∧ CRel c' st' := by
  unfold SpanIter.next
  cases hq : st.event_queue with
  | cons ev rest =>
    dsimp only
    right
    rcases hR.qshape with hall | hend
    · have hevs : isStartEv ev = true := by
        refine hall ev ?_
        rw [hq]
        exact List.mem_cons_self _ _
      obtain ⟨h, rfl⟩ : ∃ h, ev = HighlightEvent.highlightStart h := by
        cases ev with
        | highlightStart h => exact ⟨h, rfl⟩
        | highlightEnd => simp [isStartEv] at hevs
        | source a b => simp [isStartEv] at hevs
      refine ⟨_, _, ⟨c.opened + 1, c.last, false⟩, rfl, rfl, ?_, ?_⟩
      · exact ⟨hI.starts_mono, hI.cursor_le, hI.valid, hI.ends_ge, hI.ends_desc⟩
      · refine ⟨?_, ?_, ?_, ?_⟩
        · have hbal := hR.bal
          rw [hq] at hbal
          dsimp only
          simp at hbal
          omega
        · left
          intro ev' hev'
          refine hall ev' ?_
          rw [hq]
          exact List.mem_cons_of_mem _ hev'
        · exact hR.last_ok
        · intro hp
          cases hp
    · rw [hq] at hend
      injection hend with h1 h2
      subst h1
      subst h2
      have hbal := hR.bal
      rw [hq] at hbal
      simp at hbal
      refine ⟨_, _, ⟨st.span_ends.length, c.last, false⟩, rfl, ?_, ?_, ?_⟩
      · cases hop : c.opened with
        | zero => exfalso; omega
        | succ n =>
          simp only [checkStep, hop]
          have hn : n = st.span_ends.length := by omega
          rw [hn]
      · exact ⟨hI.starts_mono, hI.cursor_le, hI.valid, hI.ends_ge, hI.ends_desc⟩
      · refine ⟨?_, ?_, ?_, ?_⟩
        · dsimp only
          simp
        · left
          intro ev' hev'
          cases hev'
        · exact hR.last_ok
        · intro hp
          cases hp
  | nil =>
    dsimp only
    by_cases hi : st.index = st.spans.length
    · rw [if_pos hi]
      cases hv : vecPop st.span_ends with
      | none =>
        left
        have hnil : st.span_ends = [] := vecPop_none hv
        refine ⟨rfl, ?_⟩
        have hbal := hR.bal
        rw [hq, hnil] at hbal
        simpa using hbal
      | some pair =>
        right
        obtain ⟨e, l2⟩ := pair
        obtain ⟨hgl, hl2⟩ := vecPop_some hv
        subst hl2
        dsimp only
        have hprev : c.prevWasSource = false := by
          cases hcp : c.prevWasSource
          · rfl
          · exfalso
            obtain ⟨sp₀, hget₀, _, _⟩ := hR.prev_ok hcp hq
            rw [List.get?_eq_none.mpr (by omega)] at hget₀
            cases hget₀
        have hsuffix : ∀ sp ∈ st.spans.drop st.index, e ≤ sp.start := by
          rw [hi, List.drop_length]
          intro sp hsp
          cases hsp
        obtain ⟨c', hc, hm, hr⟩ := emit_case st c e hq hgl hI hR hprev hsuffix
        rw [hq] at hc hm hr
        exact ⟨_, _, c', rfl, hc, hm, hr⟩
    · rw [if_neg hi]
      have hlt : st.index < st.spans.length := Nat.lt_of_le_of_ne hidx hi
      cases hget : st.spans.get? st.index with
      | none =>
        exfalso
        have := List.get?_eq_none.mp hget
        omega
      | some span =>
        dsimp only
        right
        cases hl : st.span_ends.getLast? with
        | none =>
          simp only [SpanIter.nextSpanStep]
          exact nextCont_preserves st c span none hI hR hq hget
            (fun t ht => by cases ht)
            (fun e he => by rw [hl] at he; cases he)
        | some e =>
          simp only [SpanIter.nextSpanStep]
          by_cases hle : e ≤ span.start
          · rw [if_pos hle]
            have hprev : c.prevWasSource = false := by
              cases hcp : c.prevWasSource
              · rfl
              · exfalso
                obtain ⟨sp₀, hget₀, hst₀, hlt₀⟩ := hR.prev_ok hcp hq
                rw [hget] at hget₀
                cases hget₀
                have hce := hlt₀ e hl
                omega
            have hdropc : st.spans.drop st.index = span :: st.spans.drop (st.index + 1) :=
              drop_eq_cons_of_get? hget
            have hsuffix : ∀ sp ∈ st.spans.drop st.index, e ≤ sp.start := by
              intro sp hsp
              rw [hdropc] at hsp
              rcases List.mem_cons.mp hsp with rfl | hsp'
              · exact hle
              · have hp := hI.starts_mono
                rw [hdropc] at hp
                exact Nat.le_trans hle (pairwise_head_le hp sp hsp')
            obtain ⟨c', hc, hm, hr⟩ := emit_case st c e hq hl hI hR hprev hsuffix
            exact ⟨_, _, c', rfl, hc, hm, hr⟩
          · rw [if_neg hle]
            have hgt : span.start < e := Nat.lt_of_not_le hle
            exact nextCont_preserves st c span
              (if e < span.«end» then some e else none) hI hR hq hget
              (by intro t ht
                  by_cases h2 : e < span.«end»
                  · rw [if_pos h2] at ht
                    cases ht
                    exact ⟨hgt, h2, hl⟩
                  · rw [if_neg h2] at ht
                    cases ht)
              (by intro e' he'
                  rw [hl] at he'
                  cases he'
                  exact hgt)

/-- Fuel induction lifting `next_preserves` to complete runs: a completed
run from a state satisfying both invariants is accepted by the checker and
closes every opened highlight. -/
theorem run_wellFormed :
    ∀ (fuel : Nat) (st : SpanIter) (c : CheckSt), MInv st → CRel c st →
      st.index ≤ st.spans.length →
      ∀ evs, st.run fuel = RunResult.ok evs →
        ∃ fin, checkEvents c evs = some fin ∧ fin.opened = 0 := by
  intro fuel
  induction fuel with
  | zero =>
    intro st c _ _ _ evs h
    unfold SpanIter.run at h
    cases h
  | succ fuel ih =>
    intro st c hI hR hidx evs hrun
    unfold SpanIter.run at hrun
    rcases next_preserves st c hI hR hidx with ⟨hdone, hop⟩ | ⟨ev, st', c', hy, hc, hm, hr⟩
    · rw [hdone] at hrun
      cases hrun
      exact ⟨c, rfl, hop⟩
    · rw [hy] at hrun
      dsimp only at hrun
      cases hrr : st'.run fuel with
      | ok l =>
        rw [hrr] at hrun
        simp only [RunResult.consEv] at hrun
        cases hrun
        have hidx' : st'.index ≤ st'.spans.length := (next_safe st hidx).2 ev st' hy
        obtain ⟨fin, hce, hf⟩ := ih st' c' hm hr hidx' l hrr
        refine ⟨fin, ?_, hf⟩
        simp only [checkEvents, hc]
        exact hce
      | oobAt l =>
        rw [hrr] at hrun
        simp only [RunResult.consEv] at hrun
        cases hrun
      | outOfFuel l =>
        rw [hrr] at hrun
        simp only [RunResult.consEv] at hrun
        cases hrun

/-- The sort precondition of `span_iter` makes the starts of the span
vector pairwise non-decreasing. -/
theorem chainB_pairwise_start : ∀ {l : List Span}, chainB Span.leb l = true →
    l.Pairwise (fun a b => a.start ≤ b.start) := by
  intro l
  induction l with
  | nil => intro _; exact List.Pairwise.nil
  | cons a tl ih =>
    cases tl with
    | nil =>
      intro _
      exact List.Pairwise.cons (fun b hb => by cases hb) List.Pairwise.nil
    | cons b tl2 =>
      intro h
      have hsplit : chainB Span.leb (a :: b :: tl2) =
          (Span.leb a b && chainB Span.leb (b :: tl2)) := rfl
      rw [hsplit] at h
      obtain ⟨h1, h2⟩ := (Bool.and_eq_true _ _).mp h
      have hp := ih h2
      refine List.Pairwise.cons ?_ hp
      intro x hx
      rcases List.mem_cons.mp hx with rfl | hx'
      · exact leb_start_le h1
      · exact Nat.le_trans (leb_start_le h1) (pairwise_head_le hp x hx')

/-! ## The flat path (for C3): order facts and the expected stream -/

/-- The propositional form of the `(start asc, end desc)` order. -/
def lebProp (a b : Span) : Prop :=
  a.start < b.start ∨ (a.start = b.start ∧ b.«end» ≤ a.«end»)

theorem leb_iff (a b : Span) : a.leb b = true ↔ lebProp a b := by
  unfold Span.leb Span.cmp lebProp
  by_cases h : a.start = b.start
  · rw [if_pos h]
    rcases Nat.lt_trichotomy a.«end» b.«end» with h2 | h2 | h2
    · rw [Nat.compare_eq_lt.mpr h2]
      rw [show ((Ordering.lt).swap != Ordering.gt) = false from rfl]
      simp only [Bool.false_eq_true, false_iff]
      omega
    · rw [Nat.compare_eq_eq.mpr h2]
      rw [show ((Ordering.eq).swap != Ordering.gt) = true from rfl]
      simp only [eq_self_iff_true, true_iff]
      omega
    · rw [Nat.compare_eq_gt.mpr h2]
      rw [show ((Ordering.gt).swap != Ordering.gt) = true from rfl]
      simp only [eq_self_iff_true, true_iff]
      omega
  · rw [if_neg h]
    rcases Nat.lt_trichotomy a.start b.start with h2 | h2 | h2
    · rw [Nat.compare_eq_lt.mpr h2]
      rw [show (Ordering.lt != Ordering.gt) = true from rfl]
      simp only [eq_self_iff_true, true_iff]
      omega
    · exact absurd h2 h
    · rw [Nat.compare_eq_gt.mpr h2]
      rw [show (Ordering.gt != Ordering.gt) = false from rfl]
      simp only [Bool.false_eq_true, false_iff]
      omega

/-- The sort precondition in pairwise form. -/
theorem chainB_pairwise_leb : ∀ {l : List Span}, chainB Span.leb l = true →
    l.Pairwise lebProp := by
  intro l
  induction l with
  | nil => intro _; exact List.Pairwise.nil
  | cons a tl ih =>
    cases tl with
    | nil =>
      intro _
      exact List.Pairwise.cons (fun b hb => by cases hb) List.Pairwise.nil
    | cons b tl2 =>
      intro h
      have hsplit : chainB Span.leb (a :: b :: tl2) =
          (Span.leb a b && chainB Span.leb (b :: tl2)) := rfl
      rw [hsplit] at h
      obtain ⟨h1, h2⟩ := (Bool.and_eq_true _ _).mp h
      have hab : lebProp a b := (leb_iff a b).mp h1
      have hp := ih h2
      refine List.Pairwise.cons ?_ hp
      intro x hx
      rcases List.mem_cons.mp hx with rfl | hx'
      · exact hab
      · have hbx : lebProp b x := pairwise_head_le hp x hx'
        unfold lebProp at hab hbx ⊢
        omega

/-- The non-overlap precondition in pairwise form (using validity to chain
through intermediate spans). -/
theorem chainB_pairwise_nonoverlap :
    ∀ {l : List Span}, (∀ sp ∈ l, sp.start ≤ sp.«end») →
    chainB (fun a b => decide (a.«end» ≤ b.start)) l = true →
    l.Pairwise (fun a b => a.«end» ≤ b.start) := by
  intro l
  induction l with
  | nil => intro _ _; exact List.Pairwise.nil
  | cons a tl ih =>
    cases tl with
    | nil =>
      intro _ _
      exact List.Pairwise.cons (fun b hb => by cases hb) List.Pairwise.nil
    | cons b tl2 =>
      intro hval h
      have hsplit : chainB (fun a b => decide (a.«end» ≤ b.start)) (a :: b :: tl2) =
          (decide (a.«end» ≤ b.start) &&
            chainB (fun a b => decide (a.«end» ≤ b.start)) (b :: tl2)) := rfl
      rw [hsplit] at h
      obtain ⟨h1, h2⟩ := (Bool.and_eq_true _ _).mp h
      have hab : a.«end» ≤ b.start := of_decide_eq_true h1
      have hvb : b.start ≤ b.«end» :=
        hval b (List.mem_cons_of_mem _ (List.mem_cons_self _ _))
      have hp := ih (fun sp hsp => hval sp (List.mem_cons_of_mem _ hsp)) h2
      refine List.Pairwise.cons ?_ hp
      intro x hx
      rcases List.mem_cons.mp hx with rfl | hx'
      · exact hab
      · have hbx : b.«end» ≤ x.start := pairwise_head_le hp x hx'
        omega

theorem getLast?_replicate (c : Nat) : ∀ k,
    (List.replicate (k + 1) c).getLast? = some c := by
  intro k
  induction k with
  | zero => rfl
  | succ n ih =>
    have h1 : List.replicate (n + 1 + 1) c = c :: c :: List.replicate n c := rfl
    rw [h1, List.getLast?_cons_cons]
    exact ih

theorem dropLast_replicate (c : Nat) : ∀ k,
    (List.replicate (k + 1) c).dropLast = List.replicate k c := by
  intro k
  induction k with
  | zero => rfl
  | succ n ih =>
    have h1 : List.replicate (n + 1 + 1) c = c :: c :: List.replicate n c := rfl
    rw [h1, List.dropLast_cons₂]
    have h2 : (c :: List.replicate n c : List Nat) = List.replicate (n + 1) c := rfl
    rw [h2, ih]
    rfl

theorem sortDesc_replicate (k c : Nat) :
    sortDesc (List.replicate k c) = List.replicate k c := by
  have hperm := sortDesc_perm (List.replicate k c)
  refine List.eq_replicate.mpr ⟨?_, ?_⟩
  · rw [hperm.length_eq, List.length_replicate]
  · intro b hb
    exact List.eq_of_mem_replicate (hperm.mem_iff.mp hb)

/-- In a sorted valid vector whose head is a zero-width span, the whole tie
group at the head start is zero-width at that position. -/
theorem group_all_zw {sp : Span} {rest : List Span}
    (hmono : (sp :: rest).Pairwise lebProp)
    (hval : ∀ x ∈ sp :: rest, x.start ≤ x.«end»)
    (hzw : sp.start = sp.«end») :
    ∀ x ∈ (sp :: rest).takeWhile (fun x => x.start == sp.start),
      x.start = sp.start ∧ x.«end» = sp.start := by
  intro x hx
  have hxs : x.start = sp.start := by
    have := List.mem_takeWhile_imp hx
    simpa using this
  have hxmem : x ∈ sp :: rest := (List.takeWhile_sublist _).mem hx
  refine ⟨hxs, ?_⟩
  rcases List.mem_cons.mp hxmem with rfl | hx'
  · omega
  · have hr : lebProp sp x := pairwise_head_le hmono x hx'
    have hvx : x.start ≤ x.«end» := hval x hxmem
    unfold lebProp at hr
    omega

/-- The stream expected of the translator on a sorted, strictly
non-overlapping, valid span vector: each
non-empty span contributes the triple `Start, Source, End` and each tie
group of zero-width spans contributes its `Start`s followed by the matching
bare `End`s. -/
def expEvents : List Span → List HighlightEvent
  | [] => []
  | sp :: rest =>
    if sp.start = sp.«end» then
      ((sp :: rest).takeWhile (fun x => x.start == sp.start)).map
          (fun x => HighlightEvent.highlightStart ⟨x.scope⟩) ++
        (List.replicate ((sp :: rest).takeWhile (fun x => x.start == sp.start)).length
          HighlightEvent.highlightEnd ++
        expEvents ((sp :: rest).dropWhile (fun x => x.start == sp.start)))
    else
      HighlightEvent.highlightStart ⟨sp.scope⟩ ::
        HighlightEvent.source sp.start sp.«end» ::
        HighlightEvent.highlightEnd :: expEvents rest
termination_by l => l.length
decreasing_by
· rw [List.dropWhile_cons]
  simp only [beq_self_eq_true, if_true, List.length_cons]
  have h2 : (rest.dropWhile (fun x => x.start == sp.start)).length ≤ rest.length :=
    (List.dropWhile_sublist _).length_le
  omega
· simp only [List.length_cons]
  omega

/-- One queued event is popped by `next` before anything else happens. -/
theorem run_queue_cons (st : SpanIter) (ev : HighlightEvent)
    (rest : List HighlightEvent) (hq : st.event_queue = ev :: rest)
    (fuel : Nat) (evs : List HighlightEvent)
    (h : st.run fuel = RunResult.ok evs) :
    ∃ f evs', fuel = f + 1 ∧ evs = ev :: evs' ∧
      ({ st with event_queue := rest } : SpanIter).run f = RunResult.ok evs' := by
  cases fuel with
  | zero =>
    unfold SpanIter.run at h
    cases h
  | succ f =>
    unfold SpanIter.run at h
    have hn : st.next = StepResult.yield ev { st with event_queue := rest } := by
      unfold SpanIter.next
      rw [hq]
    rw [hn] at h
    dsimp only at h
    cases hrr : ({ st with event_queue := rest } : SpanIter).run f with
    | ok l =>
      rw [hrr] at h
      simp only [RunResult.consEv] at h
      cases h
      exact ⟨f, l, rfl, rfl, hrr⟩
    | oobAt l =>
      rw [hrr] at h
      simp only [RunResult.consEv] at h
      cases h
    | outOfFuel l =>
      rw [hrr] at h
      simp only [RunResult.consEv] at h
      cases h

/-- The whole event queue is drained first by successive calls of `next`. -/
theorem run_queue_drain : ∀ (q : List HighlightEvent) (st : SpanIter)
    (fuel : Nat) (evs : List HighlightEvent), st.event_queue = q →
    st.run fuel = RunResult.ok evs →
    ∃ f evs', f + q.length = fuel ∧ evs = q ++ evs' ∧
      ({ st with event_queue := [] } : SpanIter).run f = RunResult.ok evs' := by
  intro q
  induction q with
  | nil =>
    intro st fuel evs hq h
    refine ⟨fuel, evs, rfl, rfl, ?_⟩
    have hst : ({ st with event_queue := [] } : SpanIter) = st := by
      rw [← hq]
    rw [hst]
    exact h
  | cons ev rest ih =>
    intro st fuel evs hq h
    obtain ⟨f, evs', hf, hevs, hrun⟩ := run_queue_cons st ev rest hq fuel evs h
    obtain ⟨f₂, evs₂, hf₂, hevs₂, hrun₂⟩ :=
      ih { st with event_queue := rest } f evs' rfl hrun
    refine ⟨f₂, evs₂, by simp [List.length_cons]; omega, ?_, hrun₂⟩
    rw [hevs, hevs₂]
    rfl

/-- Peeling one successful step off a completed run. -/
theorem run_succ_yield {st st' : SpanIter} {ev : HighlightEvent} {f : Nat}
    {evs : List HighlightEvent}
    (hn : st.next = StepResult.yield ev st')
    (h : st.run (f + 1) = RunResult.ok evs) :
    ∃ evs', evs = ev :: evs' ∧ st'.run f = RunResult.ok evs' := by
  unfold SpanIter.run at h
  rw [hn] at h
  dsimp only at h
  cases hrr : st'.run f with
  | ok l =>
    rw [hrr] at h
    simp only [RunResult.consEv] at h
    cases h
    exact ⟨l, rfl, rfl⟩
  | oobAt l =>
    rw [hrr] at h
    simp only [RunResult.consEv] at h
    cases h
  | outOfFuel l =>
    rw [hrr] at h
    simp only [RunResult.consEv] at h
    cases h

theorem run_succ_done {st : SpanIter} {f : Nat} {evs : List HighlightEvent}
    (hn : st.next = StepResult.done) (h : st.run (f + 1) = RunResult.ok evs) :
    evs = [] := by
  unfold SpanIter.run at h
  rw [hn] at h
  dsimp only at h
  cases h
  rfl

theorem next_done {st : SpanIter} (hq : st.event_queue = [])
    (hi : st.index = st.spans.length) (hends : st.span_ends = []) :
    st.next = StepResult.done := by
  have hvp : vecPop st.span_ends = none := by
    rw [hends]
    rfl
  unfold SpanIter.next
  rw [hq]
  dsimp only
  rw [if_pos hi, hvp]

/-- The step that completes the smallest open end, taken both at exhaustion
and when the span at `index` starts at or past that end. -/
theorem next_pop_end {st : SpanIter} {e : Nat}
    (hq : st.event_queue = []) (hgl : st.span_ends.getLast? = some e)
    (hcase : st.index = st.spans.length ∨
      ∃ sp, st.spans.get? st.index = some sp ∧ e ≤ sp.start) :
    st.next = StepResult.yield
      (SpanIter.emit_span_end { st with span_ends := st.span_ends.dropLast } e).1
      (SpanIter.emit_span_end { st with span_ends := st.span_ends.dropLast } e).2 := by
  have hvp : vecPop st.span_ends = some (e, st.span_ends.dropLast) := by
    unfold vecPop
    rw [hgl]
  unfold SpanIter.next
  rw [hq]
  dsimp only
  rcases hcase with hi | ⟨sp, hget, hle⟩
  · rw [if_pos hi, hvp]
  · have hi : st.index ≠ st.spans.length := by
      have := get?_some_lt hget
      omega
    rw [if_neg hi, hget]
    dsimp only
    rw [hgl]
    simp only [SpanIter.nextSpanStep]
    rw [if_pos hle]
    rw [hq]

theorem emit_eq_end {st : SpanIter} {e : Nat} (h : st.cursor = e) :
    SpanIter.emit_span_end st e =
      (HighlightEvent.highlightEnd, { st with cursor := e }) := by
  simp only [SpanIter.emit_span_end]
  rw [if_neg (by omega : ¬ st.cursor ≠ e)]

theorem emit_eq_source {st : SpanIter} {e : Nat} (h : st.cursor ≠ e) :
    SpanIter.emit_span_end st e =
      (HighlightEvent.source st.cursor e,
       { st with
         cursor := e
         event_queue := st.event_queue ++ [HighlightEvent.highlightEnd] }) := by
  simp only [SpanIter.emit_span_end]
  rw [if_pos h]

theorem expEvents_nil : expEvents [] = [] := by
  rw [expEvents]

theorem expEvents_cons (sp : Span) (rest : List Span) :
    expEvents (sp :: rest) =
      if sp.start = sp.«end» then
        ((sp :: rest).takeWhile (fun x => x.start == sp.start)).map
            (fun x => HighlightEvent.highlightStart ⟨x.scope⟩) ++
          (List.replicate ((sp :: rest).takeWhile
              (fun x => x.start == sp.start)).length
            HighlightEvent.highlightEnd ++
          expEvents ((sp :: rest).dropWhile (fun x => x.start == sp.start)))
      else
        HighlightEvent.highlightStart ⟨sp.scope⟩ ::
          HighlightEvent.source sp.start sp.«end» ::
          HighlightEvent.highlightEnd :: expEvents rest := by
  rw [expEvents]

/-- The pending open-ends configurations reachable on the flat path,
together with the events they will contribute: either every open end sits
at the cursor (each will be a bare `End`), or a single non-empty span is
open (one `Source` then one `End`). -/
inductive PendOK : SpanIter → List HighlightEvent → Prop
  | rep (st : SpanIter) (k : Nat)
      (h : st.span_ends = List.replicate k st.cursor) :
      PendOK st (List.replicate k HighlightEvent.highlightEnd)
  | single (st : SpanIter) (e : Nat) (h : st.span_ends = [e])
      (hlt : st.cursor < e) :
      PendOK st [HighlightEvent.source st.cursor e, HighlightEvent.highlightEnd]

/-- The characterization of complete runs on the flat path: from any state
whose unprocessed spans are sorted, strictly non-overlapping and valid,
whose cursor and open ends are at or before every unprocessed start, and
whose open ends form one of the two pending configurations, a completed
run emits exactly the pending events followed by the expected stream of
the unprocessed spans. -/
theorem run_flat_char : ∀ (fuel : Nat) (st : SpanIter)
    (pend : List HighlightEvent),
    st.event_queue = [] → st.index ≤ st.spans.length →
    (st.spans.drop st.index).Pairwise lebProp →
    (st.spans.drop st.index).Pairwise (fun a b => a.«end» ≤ b.start) →
    (∀ sp ∈ st.spans.drop st.index, sp.start ≤ sp.«end») →
    (∀ sp ∈ st.spans.drop st.index, st.cursor ≤ sp.start) →
    (∀ e ∈ st.span_ends, ∀ sp ∈ st.spans.drop st.index, e ≤ sp.start) →
    PendOK st pend →
    ∀ evs, st.run fuel = RunResult.ok evs →
      evs = pend ++ expEvents (st.spans.drop st.index) := by
  intro fuel
  induction fuel using Nat.strong_induction_on with
  | _ fuel ih =>
  intro st pend hq hidx hmono hnov hval hcur hends hpend evs hrun
  cases fuel with
  | zero =>
    unfold SpanIter.run at hrun
    cases hrun
  | succ f =>
  by_cases hi : st.index = st.spans.length
  · -- exhaustion: drain the pending configuration
    have hdropnil : st.spans.drop st.index = [] := by
      rw [hi]
      exact List.drop_length _
    cases hpend with
    | rep k hrep =>
      cases k with
      | zero =>
        have hends0 : st.span_ends = [] := by simpa using hrep
        have hnext := next_done hq hi hends0
        have hevs := run_succ_done hnext hrun
        rw [hevs, hdropnil, expEvents_nil]
        rfl
      | succ n =>
        have hgl : st.span_ends.getLast? = some st.cursor := by
          rw [hrep]
          exact getLast?_replicate st.cursor n
        have hcureq : ({ st with span_ends := st.span_ends.dropLast } :
            SpanIter).cursor = st.cursor := rfl
        have hnext := next_pop_end hq hgl (Or.inl hi)
        rw [emit_eq_end hcureq] at hnext
        dsimp only at hnext
        obtain ⟨evs₁, hevs₁, hrun₁⟩ := run_succ_yield hnext hrun
        have hIH := ih f (by omega)
          ⟨st.spans, st.index, st.event_queue, st.span_ends.dropLast, st.cursor⟩
          (List.replicate n HighlightEvent.highlightEnd)
          hq hidx hmono hnov hval hcur
          (by
            intro e' he' x hx
            have he2 : e' ∈ st.span_ends.dropLast := he'
            exact hends e' ((List.dropLast_sublist st.span_ends).mem he2) x hx)
          (PendOK.rep _ n (by
            dsimp only
            rw [hrep]
            exact dropLast_replicate st.cursor n))
          evs₁ hrun₁
        dsimp only at hIH
        rw [hdropnil, expEvents_nil] at hIH
        rw [hevs₁, hIH, hdropnil, expEvents_nil]
        simp [List.replicate_succ]
    | single e hrep hlt =>
      have hgl : st.span_ends.getLast? = some e := by
        rw [hrep]
        rfl
      have hcurne : ({ st with span_ends := st.span_ends.dropLast } :
          SpanIter).cursor ≠ e := by
        dsimp only
        omega
      have hnext := next_pop_end hq hgl (Or.inl hi)
      rw [emit_eq_source hcurne] at hnext
      dsimp only at hnext
      obtain ⟨evs₁, hevs₁, hrun₁⟩ := run_succ_yield hnext hrun
      obtain ⟨f₃, evs₂, hf₃, hevs₂, hrun₂⟩ :=
        run_queue_cons _ HighlightEvent.highlightEnd []
          (by dsimp only; rw [hq]; rfl) f evs₁ hrun₁
      have hIH := ih f₃ (by omega)
        ⟨st.spans, st.index, [], st.span_ends.dropLast, e⟩
        (List.replicate 0 HighlightEvent.highlightEnd)
        rfl hidx hmono hnov hval
        (by
          intro x hx
          have hx' : x ∈ st.spans.drop st.index := hx
          rw [hdropnil] at hx'
          cases hx')
        (by
          intro e' he' x hx
          have he2 : e' ∈ st.span_ends.dropLast := he'
          rw [hrep] at he2
          cases he2)
        (PendOK.rep _ 0 (by
          dsimp only
          rw [hrep]
          rfl))
        evs₂ hrun₂
      dsimp only at hIH
      rw [hdropnil, expEvents_nil] at hIH
      rw [hevs₁, hevs₂, hIH, hdropnil, expEvents_nil]
      simp
  · -- a span is read at the index
    have hltidx : st.index < st.spans.length := Nat.lt_of_le_of_ne hidx hi
    obtain ⟨sp, hget⟩ : ∃ sp, st.spans.get? st.index = some sp := by
      cases hg : st.spans.get? st.index with
      | none => exact absurd (List.get?_eq_none.mp hg) (by omega)
      | some s => exact ⟨s, rfl⟩
    have hdrop : st.spans.drop st.index = sp :: st.spans.drop (st.index + 1) :=
      drop_eq_cons_of_get? hget
    have hspmem : sp ∈ st.spans.drop st.index := by
      rw [hdrop]
      exact List.mem_cons_self _ _
    have hall : ∀ x ∈ st.spans.drop st.index, sp.start ≤ x.start := by
      intro x hx
      rw [hdrop] at hx
      rcases List.mem_cons.mp hx with rfl | hx'
      · exact Nat.le_refl _
      · have hp := hmono
        rw [hdrop] at hp
        have := pairwise_head_le hp x hx'
        unfold lebProp at this
        omega
    cases hpend with
    | rep k hrep =>
      cases k with
      | succ n =>
        -- the smallest open end sits at the cursor: one bare End is emitted
        have hgl : st.span_ends.getLast? = some st.cursor := by
          rw [hrep]
          exact getLast?_replicate st.cursor n
        have hcureq : ({ st with span_ends := st.span_ends.dropLast } :
            SpanIter).cursor = st.cursor := rfl
        have hnext := next_pop_end hq hgl (Or.inr ⟨sp, hget, hcur sp hspmem⟩)
        rw [emit_eq_end hcureq] at hnext
        dsimp only at hnext
        obtain ⟨evs₁, hevs₁, hrun₁⟩ := run_succ_yield hnext hrun
        have hIH := ih f (by omega)
          ⟨st.spans, st.index, st.event_queue, st.span_ends.dropLast, st.cursor⟩
          (List.replicate n HighlightEvent.highlightEnd)
          hq hidx hmono hnov hval hcur
          (by
            intro e' he' x hx
            have he2 : e' ∈ st.span_ends.dropLast := he'
            exact hends e' ((List.dropLast_sublist st.span_ends).mem he2) x hx)
          (PendOK.rep _ n (by
            dsimp only
            rw [hrep]
            exact dropLast_replicate st.cursor n))
          evs₁ hrun₁
        dsimp only at hIH
        rw [hevs₁, hIH]
        simp [List.replicate_succ]
      | zero =>
        -- open every span of the tie group at the head
        have hends0 : st.span_ends = [] := by simpa using hrep
        have hglnone : st.span_ends.getLast? = none := by
          rw [hends0]
          rfl
        obtain ⟨ho1, ho2, ho3, ho4, ho5⟩ :=
          openLoopF_char ({ st with cursor := sp.start } : SpanIter).spans.length
            { st with cursor := sp.start }
            (by dsimp only; omega) (by dsimp only; omega)
        dsimp only at ho1 ho2 ho3 ho4 ho5
        have hOBcons : (st.spans.drop st.index).takeWhile
            (fun x => x.start == sp.start) =
            sp :: (st.spans.drop (st.index + 1)).takeWhile
              (fun x => x.start == sp.start) := by
          rw [hdrop, List.takeWhile_cons]
          simp
        have hnoconn : ¬ (sp.start ≠ st.cursor ∧ ¬ st.span_ends = []) := by
          intro hcontra
          exact hcontra.2 hends0
        have hnext : st.next = StepResult.yield
            (HighlightEvent.highlightStart ⟨sp.scope⟩)
            { spans := (({ st with cursor := sp.start } : SpanIter).openLoopF
                st.spans.length).spans,
              index := (({ st with cursor := sp.start } : SpanIter).openLoopF
                st.spans.length).index,
              event_queue := ((st.spans.drop (st.index + 1)).takeWhile
                (fun x => x.start == sp.start)).map
                  (fun x => HighlightEvent.highlightStart ⟨x.scope⟩),
              span_ends := sortDesc ((({ st with cursor := sp.start } :
                SpanIter).openLoopF st.spans.length).span_ends),
              cursor := (({ st with cursor := sp.start } : SpanIter).openLoopF
                st.spans.length).cursor } := by
          unfold SpanIter.next
          rw [hq]
          dsimp only
          rw [if_neg hi, hget]
          dsimp only
          rw [hglnone]
          simp only [SpanIter.nextSpanStep]
          unfold SpanIter.nextCont
          dsimp only
          rw [if_neg hnoconn]
          unfold SpanIter.openLoop
          dsimp only
          rw [ho4, hq, hOBcons]
          simp only [List.nil_append, List.map_cons]
        obtain ⟨evs₁, hevs₁, hrun₁⟩ := run_succ_yield hnext hrun
        obtain ⟨f₂, evs₂, hf₂, hevs₂, hrun₂⟩ :=
          run_queue_drain _ _ f evs₁ rfl hrun₁
        dsimp only at hrun₂
        rw [ho1, ho2, ho3, ho5] at hrun₂
        rw [hends0] at hrun₂
        simp only [List.nil_append] at hrun₂
        have hTWle : ((st.spans.drop st.index).takeWhile
            (fun x => x.start == sp.start)).length ≤
            (st.spans.drop st.index).length :=
          takeWhile_length_le _ _
        have hsuff : st.spans.drop (st.index +
            ((st.spans.drop st.index).takeWhile
              (fun x => x.start == sp.start)).length) =
            (st.spans.drop st.index).dropWhile (fun x => x.start == sp.start) := by
          rw [dropWhile_eq_drop, List.drop_drop]
        have hsub : ((st.spans.drop st.index).dropWhile
            (fun x => x.start == sp.start)).Sublist (st.spans.drop st.index) :=
          List.dropWhile_sublist _
        have hdlen : (st.spans.drop st.index).length =
            st.spans.length - st.index := List.length_drop _ _
        by_cases hzw : sp.start = sp.«end»
        · -- zero-width tie group: every member opens and closes at the cursor
          have hgz : ∀ x ∈ (st.spans.drop st.index).takeWhile
              (fun x => x.start == sp.start),
              x.start = sp.start ∧ x.«end» = sp.start := by
            have hp := hmono
            rw [hdrop] at hp
            have hv : ∀ x ∈ sp :: st.spans.drop (st.index + 1),
                x.start ≤ x.«end» := by
              rw [← hdrop]
              exact hval
            rw [hdrop]
            exact group_all_zw hp hv hzw
          have hmapz : ((st.spans.drop st.index).takeWhile
              (fun x => x.start == sp.start)).map (fun x => x.«end») =
              List.replicate ((st.spans.drop st.index).takeWhile
                (fun x => x.start == sp.start)).length sp.start := by
            refine List.eq_replicate.mpr ⟨by rw [List.length_map], ?_⟩
            intro b hb
            obtain ⟨x, hx, rfl⟩ := List.mem_map.mp hb
            exact (hgz x hx).2
          have hIH := ih f₂ (by omega)
            ⟨st.spans,
             st.index + ((st.spans.drop st.index).takeWhile
               (fun x => x.start == sp.start)).length,
             [],
             sortDesc (((st.spans.drop st.index).takeWhile
               (fun x => x.start == sp.start)).map (fun x => x.«end»)),
             sp.start⟩
            (List.replicate ((st.spans.drop st.index).takeWhile
              (fun x => x.start == sp.start)).length HighlightEvent.highlightEnd)
            rfl
            (by
              dsimp only
              omega)
            (by
              dsimp only
              rw [hsuff]
              exact hmono.sublist hsub)
            (by
              dsimp only
              rw [hsuff]
              exact hnov.sublist hsub)
            (by
              dsimp only
              rw [hsuff]
              intro x hx
              exact hval x (hsub.mem hx))
            (by
              dsimp only
              rw [hsuff]
              intro x hx
              exact hall x (hsub.mem hx))
            (by
              dsimp only
              rw [hsuff, hmapz, sortDesc_replicate]
              intro e' he' x hx
              rw [List.eq_of_mem_replicate he']
              exact hall x (hsub.mem hx))
            (PendOK.rep _ (((st.spans.drop st.index).takeWhile
                (fun x => x.start == sp.start)).length)
              (by
                dsimp only
                rw [hmapz, sortDesc_replicate]))
            evs₂ hrun₂
          dsimp only at hIH
          rw [hsuff] at hIH
          rw [hevs₁, hevs₂, hIH, hdrop, expEvents_cons, if_pos hzw, ← hdrop,
            hOBcons]
          simp only [List.map_cons, List.length_cons, List.cons_append,
            List.nil_append, List.append_assoc]
          rfl
        · -- a non-empty span: the group is the span alone
          have hltz : sp.start < sp.«end» := by
            have := hval sp hspmem
            omega
          have hOBone : (st.spans.drop st.index).takeWhile
              (fun x => x.start == sp.start) = [sp] := by
            rw [hOBcons]
            cases hrest : st.spans.drop (st.index + 1) with
            | nil => rfl
            | cons r rr =>
              rw [List.takeWhile_cons]
              have hnr : sp.«end» ≤ r.start := by
                have hp := hnov
                rw [hdrop, hrest] at hp
                exact pairwise_head_le hp r (List.mem_cons_self _ _)
              rw [if_neg (by
                simp only [beq_iff_eq]
                omega)]
          have hdw1 : (st.spans.drop st.index).dropWhile
              (fun x => x.start == sp.start) =
              (st.spans.drop (st.index + 1)).dropWhile
                (fun x => x.start == sp.start) := by
            rw [hdrop, List.dropWhile_cons]
            simp
          have hIH := ih f₂ (by omega)
            ⟨st.spans,
             st.index + ((st.spans.drop st.index).takeWhile
               (fun x => x.start == sp.start)).length,
             [],
             sortDesc (((st.spans.drop st.index).takeWhile
               (fun x => x.start == sp.start)).map (fun x => x.«end»)),
             sp.start⟩
            [HighlightEvent.source sp.start sp.«end»,
             HighlightEvent.highlightEnd]
            rfl
            (by
              dsimp only
              omega)
            (by
              dsimp only
              rw [hsuff]
              exact hmono.sublist hsub)
            (by
              dsimp only
              rw [hsuff]
              exact hnov.sublist hsub)
            (by
              dsimp only
              rw [hsuff]
              intro x hx
              exact hval x (hsub.mem hx))
            (by
              dsimp only
              rw [hsuff]
              intro x hx
              exact hall x (hsub.mem hx))
            (by
              dsimp only
              rw [hsuff, hOBone]
              intro e' he' x hx
              have he'' : e' = sp.«end» := by
                have h4 : sortDesc ([sp].map (fun x => x.«end»)) =
                    [sp.«end»] := rfl
                rw [h4] at he'
                have h3 : e' ∈ (List.replicate 1 sp.«end» : List Nat) := he'
                exact List.eq_of_mem_replicate h3
              rw [he'']
              rw [hdw1] at hx
              have hx' : x ∈ st.spans.drop (st.index + 1) :=
                (List.dropWhile_sublist _).mem hx
              have hp := hnov
              rw [hdrop] at hp
              exact pairwise_head_le hp x hx')
            (by
              have hpd := PendOK.single
                (⟨st.spans,
                 st.index + ((st.spans.drop st.index).takeWhile
                   (fun x => x.start == sp.start)).length,
                 [],
                 sortDesc (((st.spans.drop st.index).takeWhile
                   (fun x => x.start == sp.start)).map (fun x => x.«end»)),
                 sp.start⟩ : SpanIter)
                sp.«end»
                (by
                  dsimp only
                  rw [hOBone]
                  rfl)
                (by
                  dsimp only
                  exact hltz)
              exact hpd)
            evs₂ hrun₂
          dsimp only at hIH
          rw [hsuff, hdw1] at hIH
          have hOB2 : (st.spans.drop (st.index + 1)).takeWhile
              (fun x => x.start == sp.start) = [] := by
            have h5 := hOBone
            rw [hOBcons] at h5
            injection h5
          have hdw2 : (st.spans.drop (st.index + 1)).dropWhile
              (fun x => x.start == sp.start) = st.spans.drop (st.index + 1) := by
            rw [dropWhile_eq_drop, hOB2]
            rfl
          rw [hevs₁, hevs₂, hIH, hdrop, expEvents_cons, if_neg hzw, hOB2, hdw2]
          simp
    | single e hrep hlt =>
      -- the open non-empty span is completed before the new span opens
      have hgl : st.span_ends.getLast? = some e := by
        rw [hrep]
        rfl
      have hle : e ≤ sp.start := by
        refine hends e ?_ sp hspmem
        rw [hrep]
        exact List.mem_cons_self _ _
      have hcurne : ({ st with span_ends := st.span_ends.dropLast } :
          SpanIter).cursor ≠ e := by
        dsimp only
        omega
      have hnext := next_pop_end hq hgl (Or.inr ⟨sp, hget, hle⟩)
      rw [emit_eq_source hcurne] at hnext
      dsimp only at hnext
      obtain ⟨evs₁, hevs₁, hrun₁⟩ := run_succ_yield hnext hrun
      obtain ⟨f₃, evs₂, hf₃, hevs₂, hrun₂⟩ :=
        run_queue_cons _ HighlightEvent.highlightEnd []
          (by dsimp only; rw [hq]; rfl) f evs₁ hrun₁
      have hIH := ih f₃ (by omega)
        ⟨st.spans, st.index, [], st.span_ends.dropLast, e⟩
        (List.replicate 0 HighlightEvent.highlightEnd)
        rfl hidx hmono hnov hval
        (by
          intro x hx
          have hx' : x ∈ st.spans.drop st.index := hx
          exact hends e (by rw [hrep]; exact List.mem_cons_self _ _) x hx')
        (by
          intro e' he' x hx
          have he2 : e' ∈ st.span_ends.dropLast := he'
          rw [hrep] at he2
          cases he2)
        (PendOK.rep _ 0 (by
          dsimp only
          rw [hrep]
          rfl))
        evs₂ hrun₂
      dsimp only at hIH
      rw [hevs₁, hevs₂, hIH]
      simp

/-- Queued `HighlightStart`s only push onto the open-highlights stack. -/
theorem core_starts (self : HighlightSet) :
    ∀ (G : List Span) (s : List Highlight) (t : List HighlightEvent),
    HighlightSet.extendEventsCore self s
      (G.map (fun sp => HighlightEvent.highlightStart ⟨sp.scope⟩) ++ t) =
    HighlightSet.extendEventsCore self
      (s ++ G.map (fun sp => (⟨sp.scope⟩ : Highlight))) t := by
  intro G
  induction G with
  | nil =>
    intro s t
    simp
  | cons g G ih =>
    intro s t
    simp only [List.map_cons, List.cons_append]
    have hstep : HighlightSet.extendEventsCore self s
        (HighlightEvent.highlightStart ⟨g.scope⟩ ::
          (G.map (fun sp => HighlightEvent.highlightStart ⟨sp.scope⟩) ++ t)) =
        HighlightSet.extendEventsCore self (s ++ [⟨g.scope⟩])
          (G.map (fun sp => HighlightEvent.highlightStart ⟨sp.scope⟩) ++ t) := rfl
    rw [hstep, ih]
    rw [List.append_assoc]
    rfl

/-- Bare `HighlightEnd`s only pop the open-highlights stack; as many of
them as the stack holds empty it without touching the bitset. -/
theorem core_ends (self : HighlightSet) :
    ∀ (k : Nat) (s : List Highlight) (t : List HighlightEvent),
    s.length = k →
    HighlightSet.extendEventsCore self s
      (List.replicate k HighlightEvent.highlightEnd ++ t) =
    HighlightSet.extendEventsCore self [] t := by
  intro k
  induction k with
  | zero =>
    intro s t hs
    have hnil : s = [] := List.length_eq_zero.mp hs
    rw [hnil]
    rfl
  | succ n ih =>
    intro s t hs
    have hstep : HighlightSet.extendEventsCore self s
        (List.replicate (n + 1) HighlightEvent.highlightEnd ++ t) =
        HighlightSet.extendEventsCore self s.dropLast
          (List.replicate n HighlightEvent.highlightEnd ++ t) := rfl
    rw [hstep]
    refine ih s.dropLast t ?_
    rw [List.length_dropLast, hs]
    omega

theorem flat_append (a b : List Span) :
    flat_span_iter (a ++ b) = flat_span_iter a ++ flat_span_iter b := by
  unfold flat_span_iter
  rw [List.filter_append, List.flatMap_append]

theorem flat_nil_of_zw (G : List Span) (h : ∀ x ∈ G, x.start = x.«end») :
    flat_span_iter G = [] := by
  unfold flat_span_iter
  rw [List.filter_eq_nil_iff.mpr]
  · rfl
  · intro x hx
    simp [h x hx]

theorem flat_cons (sp : Span) (rest : List Span) (h : ¬ sp.start = sp.«end») :
    flat_span_iter (sp :: rest) =
      HighlightEvent.highlightStart ⟨sp.scope⟩ ::
      HighlightEvent.source sp.start sp.«end» ::
      HighlightEvent.highlightEnd :: flat_span_iter rest := by
  unfold flat_span_iter
  simp only [List.filter_cons, List.flatMap_cons]
  simp [h]

/-- The expected stream of the flat path and the output of
`flat_span_iter` update the `HighlightSet` identically: zero-width tie
groups open and close highlights without a `Source` in between, adding no
bits, exactly as their elimination by the flat path does. -/
theorem extendCore_expEvents_flat : ∀ (n : Nat) (L : List Span)
    (self : HighlightSet), L.length ≤ n →
    L.Pairwise lebProp → (∀ sp ∈ L, sp.start ≤ sp.«end») →
    HighlightSet.extendEventsCore self [] (expEvents L) =
    HighlightSet.extendEventsCore self [] (flat_span_iter L) := by
  intro n
  induction n with
  | zero =>
    intro L self hlen _ _
    have hnil : L = [] := List.length_eq_zero.mp (Nat.le_zero.mp hlen)
    rw [hnil, expEvents_nil]
    rfl
  | succ n ih =>
    intro L self hlen hmono hval
    cases L with
    | nil =>
      rw [expEvents_nil]
      rfl
    | cons sp rest =>
      by_cases hzw : sp.start = sp.«end»
      · have hGz : ∀ x ∈ (sp :: rest).takeWhile (fun x => x.start == sp.start),
            x.start = x.«end» := by
          intro x hx
          have h2 := group_all_zw hmono hval hzw x hx
          omega
        have h1 : HighlightSet.extendEventsCore self []
            (expEvents (sp :: rest)) =
            HighlightSet.extendEventsCore self []
              (expEvents ((sp :: rest).dropWhile
                (fun x => x.start == sp.start))) := by
          rw [expEvents_cons, if_pos hzw]
          rw [core_starts]
          exact core_ends self _ _ _ (by simp)
        have h2 : flat_span_iter (sp :: rest) =
            flat_span_iter ((sp :: rest).dropWhile
              (fun x => x.start == sp.start)) := by
          conv_lhs => rw [← List.takeWhile_append_dropWhile
            (p := fun x => x.start == sp.start) (l := sp :: rest)]
          rw [flat_append, flat_nil_of_zw _ hGz, List.nil_append]
        rw [h1, h2]
        have hdw : (sp :: rest).dropWhile (fun x => x.start == sp.start) =
            rest.dropWhile (fun x => x.start == sp.start) := by
          rw [List.dropWhile_cons]
          simp
        refine ih ((sp :: rest).dropWhile (fun x => x.start == sp.start)) self
          ?_ ?_ ?_
        · rw [hdw]
          have hlen2 := (List.dropWhile_sublist
            (p := fun x => x.start == sp.start) (l := rest)).length_le
          simp only [List.length_cons] at hlen
          omega
        · exact hmono.sublist (List.dropWhile_sublist _)
        · intro x hx
          exact hval x ((List.dropWhile_sublist _).mem hx)
      · rw [expEvents_cons, if_neg hzw, flat_cons sp rest hzw]
        have hstep : ∀ (l : List HighlightEvent),
            HighlightSet.extendEventsCore self []
              (HighlightEvent.highlightStart ⟨sp.scope⟩ ::
               HighlightEvent.source sp.start sp.«end» ::
               HighlightEvent.highlightEnd :: l) =
            HighlightSet.extendEventsCore
              (self.insert_highlights sp.start sp.«end» [⟨sp.scope⟩]) [] l := by
          intro l
          rfl
        rw [hstep, hstep]
        refine ih rest _ ?_ ?_ ?_
        · simp only [List.length_cons] at hlen
          omega
        · exact hmono.of_cons
        · intro x hx
          exact hval x (List.mem_cons_of_mem _ hx)

theorem fromEvents_expEvents_flat (L : List Span)
    (hmono : L.Pairwise lebProp) (hval : ∀ sp ∈ L, sp.start ≤ sp.«end») :
    HighlightSet.fromEvents (expEvents L) =
    HighlightSet.fromEvents (flat_span_iter L) := by
  unfold HighlightSet.fromEvents HighlightSet.extendEvents
  rw [extendCore_expEvents_flat L.length L ⟨[]⟩ (Nat.le_refl _) hmono hval]

/-! ## Zero-width spans and `Source` events (for C6)

The claim requires tracking which open end belongs to a zero-width span,
which the code itself erases (`span_ends` holds bare positions).  The
instrumented iterator below is the same machine with one ghost bit per open
end — `true` exactly when the end was pushed by a span with
`start == end` — and an erasure theorem shows it produces the same event
stream as the real iterator.  On that instrumented run the claim is: a
`Source` event is only ever emitted when no flagged end is open. -/

/-- `SpanIter` with one ghost flag per open end. -/
structure SpanIterG where
  spans : List Span
  index : Nat
  event_queue : List HighlightEvent
  span_ends : List (Nat × Bool)
  cursor : Nat
  deriving Repr

/-- Forgetting the ghost flags. -/
def eraseG (st : SpanIterG) : SpanIter :=
  ⟨st.spans, st.index, st.event_queue, st.span_ends.map Prod.fst, st.cursor⟩

def SpanIterG.start_span (self : SpanIterG) (span : Span) : SpanIterG :=
  { self with
    event_queue := self.event_queue ++ [HighlightEvent.highlightStart ⟨span.scope⟩],
    span_ends := self.span_ends ++ [(span.«end», span.start == span.«end»)] }

def SpanIterG.emit_span_end (self : SpanIterG) («end» : Nat) :
    HighlightEvent × SpanIterG :=
  let start := self.cursor
  let self := { self with cursor := «end» }
  if start ≠ «end» then
    (HighlightEvent.source start «end»,
     { self with event_queue := self.event_queue ++ [HighlightEvent.highlightEnd] })
  else
    (HighlightEvent.highlightEnd, self)

def SpanIterG.partitionLoop (self : SpanIterG) (cursor intersect : Nat) (i : Nat) :
    Nat → SpanIterG × Nat
  | 0 => (self, i)
  | fuel + 1 =>
    match self.spans.get? i with
    | none => (self, i)
    | some span =>
      if span.start ≠ cursor ∨ span.«end» < intersect then
        (self, i)
      else
        SpanIterG.partitionLoop
          (SpanIterG.start_span
            { self with spans := self.spans.set i { span with start := intersect } }
            { span with «end» := intersect })
          cursor intersect (i + 1) fuel

def SpanIterG.partition_spans_at (self : SpanIterG) (intersect : Nat) :
    Option SpanIterG :=
  match self.spans.get? self.index with
  | none => none
  | some first_partitioned_span =>
    let pr := self.partitionLoop self.cursor intersect self.index self.spans.length
    let self' := pr.1
    let i := pr.2
    if i ≤ self'.spans.length then
      let num_partitioned_spans := i - self'.index
      let intersect_span : Span := { first_partitioned_span with start := intersect }
      let num_spans_to_resort :=
        ((self'.spans.drop i).takeWhile (fun span => span.leb intersect_span)).length
      if num_spans_to_resort ≠ 0 then
        let first_sorted_span := i + num_spans_to_resort
        if self'.index ≤ first_sorted_span ∧
            first_sorted_span ≤ self'.spans.length ∧
            num_partitioned_spans ≤ first_sorted_span - self'.index then
          some { self' with
            spans :=
              self'.spans.take self'.index ++
              rotateLeftList
                ((self'.spans.drop self'.index).take (first_sorted_span - self'.index))
                num_partitioned_spans ++
              self'.spans.drop first_sorted_span }
        else
          none
      else
        some self'
    else
      none

def SpanIterG.openLoopF (self : SpanIterG) : Nat → SpanIterG
  | 0 => self
  | fuel + 1 =>
    match self.spans.get? self.index with
    | none => self
    | some span =>
      if span.start ≠ self.cursor then self
      else
        SpanIterG.openLoopF
          { self.start_span span with index := self.index + 1 } fuel

def SpanIterG.openLoop (self : SpanIterG) : SpanIterG :=
  self.openLoopF self.spans.length

/-- Insertion respecting only the end position, so that the ghost sort
erases to the real one. -/
def insertDescG (x : Nat × Bool) : List (Nat × Bool) → List (Nat × Bool)
  | [] => [x]
  | y :: ys => if y.1 ≤ x.1 then x :: y :: ys else y :: insertDescG x ys

def sortDescG : List (Nat × Bool) → List (Nat × Bool)
  | [] => []
  | x :: xs => insertDescG x (sortDescG xs)

inductive StepResultG where
  | done
  | oob
  | yield (ev : HighlightEvent) (st : SpanIterG)
  deriving Repr

def SpanIterG.nextCont (st : SpanIterG) (span : Span) (subslice : Option Nat) :
    StepResultG :=
  let start := st.cursor
  let st₁ : SpanIterG := { st with cursor := span.start }
  if span.start ≠ start ∧ st₁.span_ends ≠ [] then
    .yield (.source start span.start) st₁
  else
    let ost : Option SpanIterG :=
      match subslice with
      | some intersect => st₁.partition_spans_at intersect
      | none => some st₁
    match ost with
    | none => .oob
    | some st₂ =>
      let st₃ := st₂.openLoop
      let st₄ : SpanIterG := { st₃ with span_ends := sortDescG st₃.span_ends }
      match st₄.event_queue with
      | ev :: rest => .yield ev { st₄ with event_queue := rest }
      | [] => .done

def SpanIterG.nextSpanStep (st : SpanIterG) (span : Span) :
    Option (Nat × Bool) → StepResultG
  | some p =>
    if p.1 ≤ span.start then
      let q :=
        SpanIterG.emit_span_end { st with span_ends := st.span_ends.dropLast } p.1
      .yield q.1 q.2
    else
      st.nextCont span (if p.1 < span.«end» then some p.1 else none)
  | none => st.nextCont span none

def SpanIterG.next (st : SpanIterG) : StepResultG :=
  match st.event_queue with
  | ev :: rest => .yield ev { st with event_queue := rest }
  | [] =>
    if st.index = st.spans.length then
      match vecPop st.span_ends with
      | none => .done
      | some pair =>
        let p := SpanIterG.emit_span_end { st with span_ends := pair.2 } pair.1.1
        .yield p.1 p.2
    else
      match st.spans.get? st.index with
      | none => .oob
      | some span => st.nextSpanStep span st.span_ends.getLast?

def SpanIterG.run : Nat → SpanIterG → RunResult
  | 0, _ => .outOfFuel []
  | fuel + 1, st =>
    match st.next with
    | .done => .ok []
    | .oob => .oobAt []
    | .yield ev st' => (st'.run fuel).consEv ev

def span_iterG (spans : List Span) : SpanIterG :=
  { spans := spans, index := 0, event_queue := [], span_ends := [], cursor := 0 }

/-! ### Erasure: the instrumented machine produces the real stream -/

theorem map_fst_getLast? : ∀ (l : List (Nat × Bool)),
    (l.map Prod.fst).getLast? = Option.map Prod.fst l.getLast? := by
  intro l
  induction l with
  | nil => rfl
  | cons x xs ih =>
    cases xs with
    | nil => rfl
    | cons y ys =>
      simp only [List.map_cons, List.getLast?_cons_cons]
      simpa using ih

theorem map_fst_dropLast : ∀ (l : List (Nat × Bool)),
    l.dropLast.map Prod.fst = (l.map Prod.fst).dropLast := by
  intro l
  induction l with
  | nil => rfl
  | cons x xs ih =>
    cases xs with
    | nil => rfl
    | cons y ys =>
      simp only [List.dropLast_cons₂, List.map_cons]
      rw [ih]
      simp only [List.map_cons]

theorem insertDescG_map_fst (x : Nat × Bool) : ∀ (l : List (Nat × Bool)),
    (insertDescG x l).map Prod.fst = insertDesc x.1 (l.map Prod.fst) := by
  intro l
  induction l with
  | nil => rfl
  | cons y ys ih =>
    simp only [List.map_cons]
    unfold insertDescG insertDesc
    by_cases h : y.1 ≤ x.1
    · rw [if_pos h, if_pos h]
      simp
    · rw [if_neg h, if_neg h]
      simp only [List.map_cons]
      rw [ih]

theorem sortDescG_map_fst : ∀ (l : List (Nat × Bool)),
    (sortDescG l).map Prod.fst = sortDesc (l.map Prod.fst) := by
  intro l
  induction l with
  | nil => rfl
  | cons x xs ih =>
    simp only [List.map_cons]
    unfold sortDescG sortDesc
    rw [insertDescG_map_fst, ih]

theorem insertDescG_mem (x : Nat × Bool) : ∀ (l : List (Nat × Bool)) (q : Nat × Bool),
    q ∈ insertDescG x l → q = x ∨ q ∈ l := by
  intro l
  induction l with
  | nil =>
    intro q hq
    rcases List.mem_cons.mp hq with h | h
    · exact Or.inl h
    · cases h
  | cons y ys ih =>
    intro q hq
    unfold insertDescG at hq
    by_cases h : y.1 ≤ x.1
    · rw [if_pos h] at hq
      rcases List.mem_cons.mp hq with h1 | h1
      · exact Or.inl h1
      · exact Or.inr h1
    · rw [if_neg h] at hq
      rcases List.mem_cons.mp hq with h1 | h1
      · exact Or.inr (h1 ▸ List.mem_cons_self _ _)
      · rcases ih q h1 with h2 | h2
        · exact Or.inl h2
        · exact Or.inr (List.mem_cons_of_mem _ h2)

theorem sortDescG_mem : ∀ (l : List (Nat × Bool)) (q : Nat × Bool),
    q ∈ sortDescG l → q ∈ l := by
  intro l
  induction l with
  | nil => intro q hq; cases hq
  | cons x xs ih =>
    intro q hq
    unfold sortDescG at hq
    rcases insertDescG_mem x (sortDescG xs) q hq with h | h
    · exact h ▸ List.mem_cons_self _ _
    · exact List.mem_cons_of_mem _ (ih q h)

theorem eraseG_spans (st : SpanIterG) : (eraseG st).spans = st.spans := rfl

theorem eraseG_index (st : SpanIterG) : (eraseG st).index = st.index := rfl

theorem eraseG_queue (st : SpanIterG) :
    (eraseG st).event_queue = st.event_queue := rfl

theorem eraseG_ends (st : SpanIterG) :
    (eraseG st).span_ends = st.span_ends.map Prod.fst := rfl

theorem eraseG_cursor (st : SpanIterG) : (eraseG st).cursor = st.cursor := rfl

theorem start_span_eraseG (st : SpanIterG) (sp : Span) :
    eraseG (st.start_span sp) = (eraseG st).start_span sp := by
  unfold eraseG SpanIterG.start_span SpanIter.start_span
  simp

theorem emit_eraseG (st : SpanIterG) (e : Nat) :
    (st.emit_span_end e).1 = ((eraseG st).emit_span_end e).1 ∧
    eraseG (st.emit_span_end e).2 = ((eraseG st).emit_span_end e).2 := by
  simp only [SpanIterG.emit_span_end, SpanIter.emit_span_end]
  simp only [eraseG_queue, eraseG_cursor]
  by_cases h : st.cursor ≠ e
  · simp only [if_pos h]
    exact ⟨trivial, rfl⟩
  · simp only [if_neg h]
    exact ⟨trivial, rfl⟩

theorem partitionLoopG_erase (cursor intersect : Nat) : ∀ (fuel : Nat)
    (st : SpanIterG) (i : Nat),
    eraseG (st.partitionLoop cursor intersect i fuel).1 =
      ((eraseG st).partitionLoop cursor intersect i fuel).1 ∧
    (st.partitionLoop cursor intersect i fuel).2 =
      ((eraseG st).partitionLoop cursor intersect i fuel).2 := by
  intro fuel
  induction fuel with
  | zero =>
    intro st i
    exact ⟨rfl, rfl⟩
  | succ fuel ih =>
    intro st i
    unfold SpanIterG.partitionLoop SpanIter.partitionLoop
    simp only [eraseG_spans, eraseG_index, eraseG_queue, eraseG_ends,
      eraseG_cursor]
    cases hget : st.spans.get? i with
    | none =>
      exact ⟨rfl, rfl⟩
    | some span =>
      dsimp only
      by_cases hc : span.start ≠ cursor ∨ span.«end» < intersect
      · rw [if_pos hc, if_pos hc]
        exact ⟨rfl, rfl⟩
      · rw [if_neg hc, if_neg hc]
        obtain ⟨ih1, ih2⟩ := ih (SpanIterG.start_span
          { st with spans := st.spans.set i { span with start := intersect } }
          { span with «end» := intersect }) (i + 1)
        have hA : eraseG (SpanIterG.start_span
            { st with spans := st.spans.set i { span with start := intersect } }
            { span with «end» := intersect }) =
            SpanIter.start_span
              ⟨st.spans.set i { span with start := intersect }, st.index,
               st.event_queue, st.span_ends.map Prod.fst, st.cursor⟩
              { span with «end» := intersect } := by
          rw [start_span_eraseG]
          rfl
        rw [hA] at ih1 ih2
        exact ⟨ih1, ih2⟩

theorem partition_spans_atG_erase (st : SpanIterG) (t : Nat) :
    Option.map eraseG (st.partition_spans_at t) =
      (eraseG st).partition_spans_at t := by
  unfold SpanIterG.partition_spans_at SpanIter.partition_spans_at
  simp only [eraseG_spans, eraseG_index, eraseG_queue, eraseG_ends,
    eraseG_cursor]
  cases hget : st.spans.get? st.index with
  | none => rfl
  | some fps =>
    dsimp only
    rcases hprG : st.partitionLoop st.cursor t st.index st.spans.length
      with ⟨stG, iG⟩
    obtain ⟨h1, h2⟩ := partitionLoopG_erase st.cursor t st.spans.length st st.index
    rw [hprG] at h1 h2
    dsimp only at h1 h2
    have hpr : (eraseG st).partitionLoop st.cursor t st.index st.spans.length =
        (eraseG stG, iG) := by
      rw [h1, h2]
    rw [hpr]
    dsimp only
    simp only [eraseG_spans, eraseG_index]
    by_cases hle : iG ≤ stG.spans.length
    · rw [if_pos hle, if_pos hle]
      by_cases hnum : ((stG.spans.drop iG).takeWhile
          (fun span => span.leb { fps with start := t })).length ≠ 0
      · rw [if_pos hnum, if_pos hnum]
        by_cases hg : stG.index ≤ iG + ((stG.spans.drop iG).takeWhile
            (fun span => span.leb { fps with start := t })).length ∧
            iG + ((stG.spans.drop iG).takeWhile
              (fun span => span.leb { fps with start := t })).length ≤
              stG.spans.length ∧
            iG - stG.index ≤ iG + ((stG.spans.drop iG).takeWhile
              (fun span => span.leb { fps with start := t })).length - stG.index
        · rw [if_pos hg, if_pos hg]
          rfl
        · rw [if_neg hg, if_neg hg]
          rfl
      · rw [if_neg hnum, if_neg hnum]
        rfl
    · rw [if_neg hle, if_neg hle]
      rfl

theorem openLoopFG_erase : ∀ (fuel : Nat) (st : SpanIterG),
    eraseG (st.openLoopF fuel) = (eraseG st).openLoopF fuel := by
  intro fuel
  induction fuel with
  | zero => intro st; rfl
  | succ fuel ih =>
    intro st
    unfold SpanIterG.openLoopF SpanIter.openLoopF
    simp only [eraseG_spans, eraseG_index, eraseG_cursor]
    cases hget : st.spans.get? st.index with
    | none => rfl
    | some span =>
      dsimp only
      by_cases hc : span.start ≠ st.cursor
      · rw [if_pos hc, if_pos hc]
      · rw [if_neg hc, if_neg hc]
        have hA : eraseG ({ st.start_span span with index := st.index + 1 }) =
            ({ (eraseG st).start_span span with index := st.index + 1 }) := by
          rw [← start_span_eraseG]
          rfl
        rw [← hA, ih]

theorem openLoopG_erase (st : SpanIterG) :
    eraseG st.openLoop = (eraseG st).openLoop := by
  unfold SpanIterG.openLoop SpanIter.openLoop
  rw [openLoopFG_erase]
  rfl

/-- Erasing a step result. -/
def eraseStep : StepResultG → StepResult
  | .done => .done
  | .oob => .oob
  | .yield ev st => .yield ev (eraseG st)

/-- Erasure of the common tail of `nextCont` (open loop, ghost re-sort,
queue pop). -/
theorem tailG_erase (st₂ : SpanIterG) :
    eraseStep (match ({ st₂.openLoop with
          span_ends := sortDescG st₂.openLoop.span_ends } :
            SpanIterG).event_queue with
      | ev :: rest => StepResultG.yield ev
          { { st₂.openLoop with
              span_ends := sortDescG st₂.openLoop.span_ends } with
            event_queue := rest }
      | [] => StepResultG.done) =
    (match ({ (eraseG st₂).openLoop with
          span_ends := sortDesc (eraseG st₂).openLoop.span_ends } :
            SpanIter).event_queue with
      | ev :: rest => StepResult.yield ev
          { { (eraseG st₂).openLoop with
              span_ends := sortDesc (eraseG st₂).openLoop.span_ends } with
            event_queue := rest }
      | [] => StepResult.done) := by
  have hOL := openLoopG_erase st₂
  have hq : ((eraseG st₂).openLoop).event_queue =
      st₂.openLoop.event_queue := by
    rw [← hOL]
    rfl
  dsimp only
  rw [hq]
  cases hq4 : st₂.openLoop.event_queue with
  | nil => rfl
  | cons ev rest =>
    dsimp only [eraseStep]
    congr 1
    rw [← hOL]
    unfold eraseG
    dsimp only
    rw [sortDescG_map_fst]

theorem nextContG_erase (st : SpanIterG) (span : Span) (subslice : Option Nat) :
    eraseStep (st.nextCont span subslice) =
      (eraseG st).nextCont span subslice := by
  unfold SpanIterG.nextCont SpanIter.nextCont
  dsimp only [eraseG]
  by_cases hc : span.start ≠ st.cursor ∧ st.span_ends ≠ []
  · have hc2 : span.start ≠ st.cursor ∧ st.span_ends.map Prod.fst ≠ [] :=
      ⟨hc.1, fun hmap => hc.2 (List.map_eq_nil.mp hmap)⟩
    rw [if_pos hc, if_pos hc2]
    rfl
  · have hc2 : ¬ (span.start ≠ st.cursor ∧
        st.span_ends.map Prod.fst ≠ []) := by
      intro hcontra
      exact hc ⟨hcontra.1, fun hnil => hcontra.2 (by rw [hnil]; rfl)⟩
    rw [if_neg hc, if_neg hc2]
    cases subslice with
    | none =>
      dsimp only
      exact tailG_erase ⟨st.spans, st.index, st.event_queue, st.span_ends,
        span.start⟩
    | some t =>
      dsimp only
      have hps : Option.map eraseG
          (SpanIterG.partition_spans_at
            ⟨st.spans, st.index, st.event_queue, st.span_ends, span.start⟩ t) =
          SpanIter.partition_spans_at
            ⟨st.spans, st.index, st.event_queue,
             st.span_ends.map Prod.fst, span.start⟩ t :=
        partition_spans_atG_erase _ t
      cases hpsg : SpanIterG.partition_spans_at
          ⟨st.spans, st.index, st.event_queue, st.span_ends, span.start⟩ t with
      | none =>
        rw [hpsg] at hps
        rw [← hps]
        rfl
      | some st₂ =>
        rw [hpsg] at hps
        rw [← hps]
        dsimp only [Option.map]
        exact tailG_erase st₂

theorem nextSpanStepG_erase (st : SpanIterG) (span : Span) :
    ∀ (o : Option (Nat × Bool)),
    eraseStep (st.nextSpanStep span o) =
      (eraseG st).nextSpanStep span (o.map Prod.fst) := by
  intro o
  cases o with
  | none =>
    simp only [SpanIterG.nextSpanStep, SpanIter.nextSpanStep, Option.map]
    exact nextContG_erase st span none
  | some p =>
    simp only [SpanIterG.nextSpanStep, SpanIter.nextSpanStep, Option.map]
    by_cases h : p.1 ≤ span.start
    · rw [if_pos h, if_pos h]
      have hrec : eraseG ({ st with span_ends := st.span_ends.dropLast }) =
          { eraseG st with span_ends := (eraseG st).span_ends.dropLast } := by
        unfold eraseG
        dsimp only
        rw [map_fst_dropLast]
      obtain ⟨e1, e2⟩ :=
        emit_eraseG ({ st with span_ends := st.span_ends.dropLast }) p.1
      rw [hrec] at e1 e2
      dsimp only [eraseStep]
      rw [e1, e2]
    · rw [if_neg h, if_neg h]
      exact nextContG_erase st span (if p.1 < span.«end» then some p.1 else none)

theorem nextG_erase (st : SpanIterG) :
    eraseStep st.next = (eraseG st).next := by
  unfold SpanIterG.next SpanIter.next
  simp only [eraseG_queue, eraseG_spans, eraseG_index, eraseG_ends,
    eraseG_cursor]
  cases hq : st.event_queue with
  | cons ev rest =>
    dsimp only [eraseStep]
    rfl
  | nil =>
    dsimp only
    by_cases hi : st.index = st.spans.length
    · rw [if_pos hi, if_pos hi]
      cases hv : vecPop st.span_ends with
      | none =>
        have hvr : vecPop (st.span_ends.map Prod.fst) = none := by
          unfold vecPop at hv ⊢
          rw [map_fst_getLast?]
          cases hgl : st.span_ends.getLast? with
          | none => rfl
          | some x => rw [hgl] at hv; cases hv
        rw [hvr]
        rfl
      | some pair =>
        obtain ⟨q, l2⟩ := pair
        have hgl : st.span_ends.getLast? = some q ∧
            l2 = st.span_ends.dropLast := by
          unfold vecPop at hv
          cases hgl0 : st.span_ends.getLast? with
          | none => rw [hgl0] at hv; cases hv
          | some x => rw [hgl0] at hv; cases hv; exact ⟨rfl, rfl⟩
        have hvr : vecPop (st.span_ends.map Prod.fst) =
            some (q.1, (st.span_ends.map Prod.fst).dropLast) := by
          unfold vecPop
          rw [map_fst_getLast?, hgl.1]
          rfl
        rw [hvr]
        dsimp only
        have hl2 : l2 = st.span_ends.dropLast := hgl.2
        subst hl2
        have hrec : eraseG ({ st with span_ends := st.span_ends.dropLast }) =
            ⟨st.spans, st.index, st.event_queue,
             (st.span_ends.map Prod.fst).dropLast, st.cursor⟩ := by
          unfold eraseG
          dsimp only
          rw [map_fst_dropLast]
        obtain ⟨e1, e2⟩ :=
          emit_eraseG ({ st with span_ends := st.span_ends.dropLast }) q.1
        rw [hrec] at e1 e2
        rw [hq] at e1 e2
        dsimp only [eraseStep]
        rw [e1, e2]
    · rw [if_neg hi, if_neg hi]
      cases hget : st.spans.get? st.index with
      | none => rfl
      | some span =>
        dsimp only
        rw [map_fst_getLast?]
        exact nextSpanStepG_erase st span st.span_ends.getLast?

theorem runG_erase : ∀ (fuel : Nat) (st : SpanIterG),
    st.run fuel = (eraseG st).run fuel := by
  intro fuel
  induction fuel with
  | zero => intro st; rfl
  | succ fuel ih =>
    intro st
    unfold SpanIterG.run SpanIter.run
    have hn := nextG_erase st
    cases hng : st.next with
    | done =>
      rw [hng] at hn
      rw [← hn]
      rfl
    | oob =>
      rw [hng] at hn
      rw [← hn]
      rfl
    | yield ev st' =>
      rw [hng] at hn
      rw [← hn]
      dsimp only [eraseStep]
      rw [ih st']

/-! ### The ghost flag invariant: flags are only set at the cursor -/

theorem emitG_eq_end {st : SpanIterG} {e : Nat} (h : st.cursor = e) :
    SpanIterG.emit_span_end st e =
      (HighlightEvent.highlightEnd, { st with cursor := e }) := by
  simp only [SpanIterG.emit_span_end]
  rw [if_neg (by omega : ¬ st.cursor ≠ e)]

theorem emitG_eq_source {st : SpanIterG} {e : Nat} (h : st.cursor ≠ e) :
    SpanIterG.emit_span_end st e =
      (HighlightEvent.source st.cursor e,
       { st with
         cursor := e
         event_queue := st.event_queue ++ [HighlightEvent.highlightEnd] }) := by
  simp only [SpanIterG.emit_span_end]
  rw [if_pos h]

theorem partitionLoopG_content (cursor intersect : Nat) : ∀ (fuel : Nat)
    (st : SpanIterG) (i : Nat),
    (st.partitionLoop cursor intersect i fuel).1.cursor = st.cursor ∧
    (∀ q ∈ (st.partitionLoop cursor intersect i fuel).1.span_ends,
      q ∈ st.span_ends ∨ (q.2 = true → q.1 = cursor)) ∧
    (∀ ev ∈ (st.partitionLoop cursor intersect i fuel).1.event_queue,
      ev ∈ st.event_queue ∨ isStartEv ev = true) := by
  intro fuel
  induction fuel with
  | zero =>
    intro st i
    exact ⟨rfl, fun q hq => Or.inl hq, fun ev hev => Or.inl hev⟩
  | succ fuel ih =>
    intro st i
    unfold SpanIterG.partitionLoop
    cases hget : st.spans.get? i with
    | none =>
      exact ⟨rfl, fun q hq => Or.inl hq, fun ev hev => Or.inl hev⟩
    | some span =>
      dsimp only
      by_cases hc : span.start ≠ cursor ∨ span.«end» < intersect
      · rw [if_pos hc]
        exact ⟨rfl, fun q hq => Or.inl hq, fun ev hev => Or.inl hev⟩
      · rw [if_neg hc]
        have hstart : span.start = cursor := by
          push_neg at hc
          exact hc.1
        obtain ⟨ih1, ih2, ih3⟩ := ih (SpanIterG.start_span
          { st with spans := st.spans.set i { span with start := intersect } }
          { span with «end» := intersect }) (i + 1)
        refine ⟨by rw [ih1]; rfl, ?_, ?_⟩
        · intro q hq
          rcases ih2 q hq with hmem | hprop
          · have hmem2 : q ∈ st.span_ends ++
                [(intersect, span.start == intersect)] := hmem
            rcases List.mem_append.mp hmem2 with h1 | h1
            · exact Or.inl h1
            · right
              intro hflag
              have hq1 : q = (intersect, span.start == intersect) := by
                simpa using h1
              rw [hq1] at hflag ⊢
              dsimp only at hflag ⊢
              have : span.start = intersect := by
                simpa using hflag
              omega
          · exact Or.inr hprop
        · intro ev hev
          rcases ih3 ev hev with hmem | hprop
          · have hmem2 : ev ∈ st.event_queue ++
                [HighlightEvent.highlightStart ⟨span.scope⟩] := hmem
            rcases List.mem_append.mp hmem2 with h1 | h1
            · exact Or.inl h1
            · right
              have : ev = HighlightEvent.highlightStart ⟨span.scope⟩ := by
                simpa using h1
              rw [this]
              rfl
          · exact Or.inr hprop

theorem partition_spans_atG_content (st : SpanIterG) (t : Nat)
    (st₂ : SpanIterG) (h : st.partition_spans_at t = some st₂) :
    st₂.cursor = st.cursor ∧
    (∀ q ∈ st₂.span_ends, q ∈ st.span_ends ∨ (q.2 = true → q.1 = st.cursor)) ∧
    (∀ ev ∈ st₂.event_queue, ev ∈ st.event_queue ∨ isStartEv ev = true) := by
  unfold SpanIterG.partition_spans_at at h
  cases hget : st.spans.get? st.index with
  | none =>
    rw [hget] at h
    cases h
  | some fps =>
    rw [hget] at h
    dsimp only at h
    obtain ⟨hc1, hc2, hc3⟩ :=
      partitionLoopG_content st.cursor t st.spans.length st st.index
    split at h
    · split at h
      · split at h
        · cases h
          exact ⟨hc1, hc2, hc3⟩
        · cases h
      · cases h
        exact ⟨hc1, hc2, hc3⟩
    · cases h

theorem openLoopFG_content : ∀ (fuel : Nat) (st : SpanIterG),
    (st.openLoopF fuel).cursor = st.cursor ∧
    (∀ q ∈ (st.openLoopF fuel).span_ends,
      q ∈ st.span_ends ∨ (q.2 = true → q.1 = st.cursor)) ∧
    (∀ ev ∈ (st.openLoopF fuel).event_queue,
      ev ∈ st.event_queue ∨ isStartEv ev = true) := by
  intro fuel
  induction fuel with
  | zero =>
    intro st
    exact ⟨rfl, fun q hq => Or.inl hq, fun ev hev => Or.inl hev⟩
  | succ fuel ih =>
    intro st
    unfold SpanIterG.openLoopF
    cases hget : st.spans.get? st.index with
    | none =>
      exact ⟨rfl, fun q hq => Or.inl hq, fun ev hev => Or.inl hev⟩
    | some span =>
      dsimp only
      by_cases hc : span.start ≠ st.cursor
      · rw [if_pos hc]
        exact ⟨rfl, fun q hq => Or.inl hq, fun ev hev => Or.inl hev⟩
      · rw [if_neg hc]
        push_neg at hc
        obtain ⟨ih1, ih2, ih3⟩ :=
          ih { st.start_span span with index := st.index + 1 }
        refine ⟨by rw [ih1]; rfl, ?_, ?_⟩
        · intro q hq
          rcases ih2 q hq with hmem | hprop
          · have hmem2 : q ∈ st.span_ends ++
                [(span.«end», span.start == span.«end»)] := hmem
            rcases List.mem_append.mp hmem2 with h1 | h1
            · exact Or.inl h1
            · right
              intro hflag
              have hq1 : q = (span.«end», span.start == span.«end») := by
                simpa using h1
              rw [hq1] at hflag ⊢
              dsimp only at hflag ⊢
              have : span.start = span.«end» := by
                simpa using hflag
              omega
          · right
            intro hflag
            have := hprop hflag
            rw [this]
            rfl
        · intro ev hev
          rcases ih3 ev hev with hmem | hprop
          · have hmem2 : ev ∈ st.event_queue ++
                [HighlightEvent.highlightStart ⟨span.scope⟩] := hmem
            rcases List.mem_append.mp hmem2 with h1 | h1
            · exact Or.inl h1
            · right
              have : ev = HighlightEvent.highlightStart ⟨span.scope⟩ := by
                simpa using h1
              rw [this]
              rfl
          · exact Or.inr hprop

/-- A generic `vecPop` inversion (the earlier one is specialised to
`Nat`). -/
theorem vecPop_someG {l l2 : List (Nat × Bool)} {q : Nat × Bool}
    (h : vecPop l = some (q, l2)) :
    l.getLast? = some q ∧ l2 = l.dropLast := by
  unfold vecPop at h
  cases hgl : l.getLast? with
  | none => rw [hgl] at h; cases h
  | some x => rw [hgl] at h; cases h; exact ⟨rfl, rfl⟩

/-- The flag bound survives the shared `nextCont` tail: the open loop only
pushes flags for ends equal to its cursor and the ghost re-sort only
permutes. -/
theorem openTailG_flag (stm : SpanIterG)
    (hends : ∀ q ∈ stm.span_ends, q.2 = true → q.1 ≤ stm.cursor) :
    ∀ q ∈ sortDescG stm.openLoop.span_ends, q.2 = true →
      q.1 ≤ stm.openLoop.cursor := by
  unfold SpanIterG.openLoop
  obtain ⟨hc1, hc2, _⟩ := openLoopFG_content stm.spans.length stm
  intro q hq hfl
  have hq2 : q ∈ (stm.openLoopF stm.spans.length).span_ends :=
    sortDescG_mem _ q hq
  rw [hc1]
  rcases hc2 q hq2 with hmem | hprop
  · exact hends q hmem hfl
  · exact Nat.le_of_eq (hprop hfl)

/-- Lifting `openTailG_flag` through the queue pop that ends `nextCont`. -/
theorem tailYieldG_flag (stm : SpanIterG)
    (hends : ∀ q ∈ stm.span_ends, q.2 = true → q.1 ≤ stm.cursor) :
    ∀ ev st₂,
      (match ({ stm.openLoop with
            span_ends := sortDescG stm.openLoop.span_ends } :
              SpanIterG).event_queue with
        | ev :: rest => StepResultG.yield ev
            { { stm.openLoop with
                span_ends := sortDescG stm.openLoop.span_ends } with
              event_queue := rest }
        | [] => StepResultG.done) = StepResultG.yield ev st₂ →
      ∀ q ∈ st₂.span_ends, q.2 = true → q.1 ≤ st₂.cursor := by
  intro ev st₂ hnext
  dsimp only at hnext
  cases hq4 : stm.openLoop.event_queue with
  | nil =>
    rw [hq4] at hnext
    cases hnext
  | cons ev0 rest =>
    rw [hq4] at hnext
    dsimp only at hnext
    injection hnext with hev0 hst2
    rw [← hst2]
    exact openTailG_flag stm hends

/-- The flag bound through the `nextCont` branches, assuming no flags are
set on entry (which is how `next` always reaches `nextCont` when a
zero-width span is open: the guards force a contradiction first). -/
theorem nextContG_flag (st : SpanIterG) (span : Span) (subslice : Option Nat)
    (hflags : ∀ q ∈ st.span_ends, q.2 = false) :
    ∀ ev st₂, st.nextCont span subslice = StepResultG.yield ev st₂ →
      ∀ q ∈ st₂.span_ends, q.2 = true → q.1 ≤ st₂.cursor := by
  intro ev st₂ hnext
  unfold SpanIterG.nextCont at hnext
  dsimp only at hnext
  by_cases hc : span.start ≠ st.cursor ∧ st.span_ends ≠ []
  · rw [if_pos hc] at hnext
    injection hnext with hev0 hst2
    rw [← hst2]
    intro q hq hfl
    rw [hflags q hq] at hfl
    cases hfl
  · rw [if_neg hc] at hnext
    cases subslice with
    | none =>
      dsimp only at hnext
      refine tailYieldG_flag
        ⟨st.spans, st.index, st.event_queue, st.span_ends, span.start⟩
        ?_ ev st₂ hnext
      intro q hq hfl
      rw [hflags q hq] at hfl
      cases hfl
    | some t =>
      dsimp only at hnext
      cases hpart : SpanIterG.partition_spans_at
          ⟨st.spans, st.index, st.event_queue, st.span_ends, span.start⟩ t with
      | none =>
        rw [hpart] at hnext
        cases hnext
      | some stp =>
        rw [hpart] at hnext
        dsimp only at hnext
        obtain ⟨hpc, hpe, _⟩ := partition_spans_atG_content
          ⟨st.spans, st.index, st.event_queue, st.span_ends, span.start⟩
          t stp hpart
        refine tailYieldG_flag stp ?_ ev st₂ hnext
        intro q hq hfl
        rcases hpe q hq with hmem | hprop
        · rw [hflags q hmem] at hfl
          cases hfl
        · exact Nat.le_of_eq ((hprop hfl).trans hpc.symm)

/-- The pop of the smallest open end, on the ghost machine: the flag bound
is preserved, and when a `Source` is produced no flag can be set at all
(a flagged end would sit at or before the cursor yet strictly past it). -/
theorem emitPopG_flag (st : SpanIterG) (p : Nat × Bool)
    (hI : MInv (eraseG st))
    (hF : ∀ q ∈ st.span_ends, q.2 = true → q.1 ≤ st.cursor)
    (hgl : st.span_ends.getLast? = some p) :
    ∀ ev st₂,
      StepResultG.yield
        (SpanIterG.emit_span_end
          { st with span_ends := st.span_ends.dropLast } p.1).1
        (SpanIterG.emit_span_end
          { st with span_ends := st.span_ends.dropLast } p.1).2 =
        StepResultG.yield ev st₂ →
      (∀ q ∈ st₂.span_ends, q.2 = true → q.1 ≤ st₂.cursor) ∧
      (∀ a b, ev = HighlightEvent.source a b →
        ∀ q ∈ st.span_ends, q.2 = false) := by
  intro ev st₂ hnext
  have hpmem : p ∈ st.span_ends := getLast?_mem hgl
  have hcle : st.cursor ≤ p.1 :=
    hI.ends_ge p.1 (List.mem_map_of_mem Prod.fst hpmem)
  have hmin : ∀ x ∈ st.span_ends.map Prod.fst, p.1 ≤ x := by
    have hgl2 : (st.span_ends.map Prod.fst).getLast? = some p.1 := by
      rw [map_fst_getLast?, hgl]
      rfl
    exact getLast?_desc_min hI.ends_desc hgl2
  by_cases hce : st.cursor = p.1
  · rw [emitG_eq_end (show ({ st with span_ends := st.span_ends.dropLast } :
        SpanIterG).cursor = p.1 from hce)] at hnext
    dsimp only at hnext
    injection hnext with hev0 hst2
    refine ⟨?_, ?_⟩
    · rw [← hst2]
      intro q hq2 hfl
      have hq3 : q ∈ st.span_ends :=
        (List.dropLast_sublist st.span_ends).mem hq2
      exact Nat.le_trans (hF q hq3 hfl) (Nat.le_of_eq hce)
    · intro a b hev
      rw [← hev0] at hev
      cases hev
  · rw [emitG_eq_source (show ({ st with span_ends := st.span_ends.dropLast } :
        SpanIterG).cursor ≠ p.1 from hce)] at hnext
    dsimp only at hnext
    injection hnext with hev0 hst2
    have hflags : ∀ q ∈ st.span_ends, q.2 = false := by
      intro q hqm
      cases hfl : q.2 with
      | false => rfl
      | true =>
        exfalso
        have h1 : q.1 ≤ st.cursor := hF q hqm hfl
        have h2 : p.1 ≤ q.1 := hmin q.1 (List.mem_map_of_mem Prod.fst hqm)
        omega
    refine ⟨?_, fun a b hev => hflags⟩
    rw [← hst2]
    intro q hq2 hfl
    have hq3 : q ∈ st.span_ends :=
      (List.dropLast_sublist st.span_ends).mem hq2
    rw [hflags q hq3] at hfl
    cases hfl

/-- The flag half of the master step lemma: under the machine invariant,
any step of the ghost machine keeps every flagged open end at or before the
cursor, and a step yielding a `Source` event starts from a state with no
flag set. -/
theorem nextG_flag (st : SpanIterG) (c : CheckSt)
    (hI : MInv (eraseG st)) (hR : CRel c (eraseG st))
    (hF : ∀ q ∈ st.span_ends, q.2 = true → q.1 ≤ st.cursor) :
    ∀ ev st₂, st.next = StepResultG.yield ev st₂ →
      (∀ q ∈ st₂.span_ends, q.2 = true → q.1 ≤ st₂.cursor) ∧
      (∀ a b, ev = HighlightEvent.source a b →
        ∀ q ∈ st.span_ends, q.2 = false) := by
  intro ev st₂ hnext
  unfold SpanIterG.next at hnext
  cases hq : st.event_queue with
  | cons ev0 rest =>
    rw [hq] at hnext
    dsimp only at hnext
    injection hnext with hev0 hst2
    refine ⟨?_, ?_⟩
    · rw [← hst2]
      intro q hq2 hfl
      exact hF q hq2 hfl
    · intro a b hev
      exfalso
      rcases hR.qshape with hall | hone
      · have h1 : isStartEv ev0 = true := by
          refine hall ev0 ?_
          show ev0 ∈ st.event_queue
          rw [hq]
          exact List.mem_cons_self _ _
        rw [hev0, hev] at h1
        simp [isStartEv] at h1
      · have h2 : st.event_queue = [HighlightEvent.highlightEnd] := hone
        rw [hq] at h2
        injection h2 with h3 h4
        rw [hev0, hev] at h3
        cases h3
  | nil =>
    rw [hq] at hnext
    dsimp only at hnext
    by_cases hi : st.index = st.spans.length
    · rw [if_pos hi] at hnext
      cases hv : vecPop st.span_ends with
      | none =>
        rw [hv] at hnext
        cases hnext
      | some pair =>
        rw [hv] at hnext
        dsimp only at hnext
        obtain ⟨q0, l2⟩ := pair
        dsimp only at hnext
        obtain ⟨hgl, hl2⟩ := vecPop_someG hv
        subst hl2
        rw [← hq] at hnext
        exact emitPopG_flag st q0 hI hF hgl ev st₂ hnext
    · rw [if_neg hi] at hnext
      cases hget : st.spans.get? st.index with
      | none =>
        rw [hget] at hnext
        cases hnext
      | some span =>
        rw [hget] at hnext
        dsimp only at hnext
        have hdropc : st.spans.drop st.index =
            span :: st.spans.drop (st.index + 1) :=
          drop_eq_cons_of_get? hget
        have hcsp : st.cursor ≤ span.start :=
          hI.cursor_le span (by
            show span ∈ st.spans.drop st.index
            rw [hdropc]
            exact List.mem_cons_self _ _)
        cases hl : st.span_ends.getLast? with
        | none =>
          rw [hl] at hnext
          simp only [SpanIterG.nextSpanStep] at hnext
          have hnil : st.span_ends = [] := List.getLast?_eq_none_iff.mp hl
          have hflags : ∀ q ∈ st.span_ends, q.2 = false := by
            intro q hqm
            rw [hnil] at hqm
            cases hqm
          exact ⟨nextContG_flag st span none hflags ev st₂ hnext,
                 fun a b hev => hflags⟩
        | some p =>
          rw [hl] at hnext
          simp only [SpanIterG.nextSpanStep] at hnext
          by_cases hle : p.1 ≤ span.start
          · rw [if_pos hle] at hnext
            exact emitPopG_flag st p hI hF hl ev st₂ hnext
          · rw [if_neg hle] at hnext
            have hmin : ∀ x ∈ st.span_ends.map Prod.fst, p.1 ≤ x := by
              have hgl2 : (st.span_ends.map Prod.fst).getLast? = some p.1 := by
                rw [map_fst_getLast?, hl]
                rfl
              exact getLast?_desc_min hI.ends_desc hgl2
            have hflags : ∀ q ∈ st.span_ends, q.2 = false := by
              intro q hqm
              cases hfl : q.2 with
              | false => rfl
              | true =>
                exfalso
                have h1 : q.1 ≤ st.cursor := hF q hqm hfl
                have h2 : p.1 ≤ q.1 := hmin q.1 (List.mem_map_of_mem Prod.fst hqm)
                omega
            exact ⟨nextContG_flag st span
                     (if p.1 < span.«end» then some p.1 else none)
                     hflags ev st₂ hnext,
                   fun a b hev => hflags⟩

/-- Any `Source` of a checker-accepted stream covers a non-degenerate
range. -/
theorem checkEvents_source_lt : ∀ (evs : List HighlightEvent) (c fin : CheckSt),
    checkEvents c evs = some fin →
    ∀ a b, HighlightEvent.source a b ∈ evs → a < b := by
  intro evs
  induction evs with
  | nil =>
    intro c fin _ a b hmem
    cases hmem
  | cons ev rest ih =>
    intro c fin h a b hmem
    unfold checkEvents at h
    cases hcs : checkStep c ev with
    | none =>
      rw [hcs] at h
      cases h
    | some c2 =>
      rw [hcs] at h
      dsimp only at h
      rcases List.mem_cons.mp hmem with heq | hmem2
      · rw [← heq] at hcs
        simp only [checkStep] at hcs
        split at hcs
        · rename_i hcond
          exact hcond.1
        · cases hcs
      · exact ih c2 fin h a b hmem2

/-- Is any open end flagged as pushed by a zero-width span? -/
def hasFlag (st : SpanIterG) : Bool :=
  st.span_ends.any (fun q => q.2)

/-- Every step of a fuelled ghost run that yields a `Source` event starts
from a state with no zero-width flag set. Executable, so a witness can
evaluate it. -/
def ghostSourceFreeB : Nat → SpanIterG → Bool
  | 0, _ => true
  | fuel + 1, st =>
    match st.next with
    | StepResultG.yield ev st₂ =>
      (match ev with
       | HighlightEvent.source _ _ => !(hasFlag st)
       | _ => true) && ghostSourceFreeB fuel st₂
    | _ => true

/-- The compound invariant carried along the ghost run: the erased state
satisfies the machine invariant, some checker state relates to it, the
index is in bounds, and every flagged open end sits at or before the
cursor. -/
def GoodG (st : SpanIterG) : Prop :=
  MInv (eraseG st) ∧ (∃ c, CRel c (eraseG st)) ∧
  st.index ≤ st.spans.length ∧
  (∀ q ∈ st.span_ends, q.2 = true → q.1 ≤ st.cursor)

/-- One ghost step preserves `GoodG` and never yields a `Source` while a
flag is set. -/
theorem nextG_good (st : SpanIterG) (hG : GoodG st) :
    ∀ ev st₂, st.next = StepResultG.yield ev st₂ →
      GoodG st₂ ∧
      (∀ a b, ev = HighlightEvent.source a b → hasFlag st = false) := by
  obtain ⟨hI, ⟨c, hR⟩, hidx, hF⟩ := hG
  intro ev st₂ hnext
  have herase : (eraseG st).next = StepResult.yield ev (eraseG st₂) := by
    have h := nextG_erase st
    rw [hnext] at h
    dsimp only [eraseStep] at h
    exact h.symm
  obtain ⟨hfl2, hsrc⟩ := nextG_flag st c hI hR hF ev st₂ hnext
  have hidx2 : st₂.index ≤ st₂.spans.length :=
    (next_safe (eraseG st) hidx).2 ev (eraseG st₂) herase
  rcases next_preserves (eraseG st) c hI hR hidx with
    ⟨hdone, _⟩ | ⟨ev2, st3, c2, hy, hc, hm, hr⟩
  · rw [hdone] at herase
    cases herase
  · rw [hy] at herase
    injection herase with he1 he2
    rw [he2] at hm hr
    refine ⟨⟨hm, ⟨c2, hr⟩, hidx2, hfl2⟩, ?_⟩
    intro a b hev
    have h1 := hsrc a b hev
    cases hflg : hasFlag st with
    | false => rfl
    | true =>
      exfalso
      unfold hasFlag at hflg
      obtain ⟨q, hqm, hq2⟩ := List.any_eq_true.mp hflg
      rw [h1 q hqm] at hq2
      cases hq2

/-- Fuel induction: from a good state the whole fuelled run is free of
`Source` events emitted while a zero-width flag is set. -/
theorem ghostSourceFreeB_of_good : ∀ (fuel : Nat) (st : SpanIterG),
    GoodG st → ghostSourceFreeB fuel st = true := by
  intro fuel
  induction fuel with
  | zero =>
    intro st _
    rfl
  | succ fuel ih =>
    intro st hG
    unfold ghostSourceFreeB
    cases hn : st.next with
    | done => rfl
    | oob => rfl
    | yield ev st₂ =>
      obtain ⟨hG2, hsrc⟩ := nextG_good st hG ev st₂ hn
      have h2 := ih st₂ hG2
      cases ev with
      | highlightStart h => simp [h2]
      | highlightEnd => simp [h2]
      | source a b =>
        show ((!hasFlag st) && ghostSourceFreeB fuel st₂) = true
        simp [hsrc a b rfl, h2]

/-- The initial ghost state is good on sorted, valid inputs. -/
theorem goodG_init (spans : List Span) (hsort : sortedSpans spans)
    (hvalid : validSpans spans) : GoodG (span_iterG spans) := by
  have hvalid2 : ∀ sp ∈ spans, sp.start ≤ sp.«end» := by
    unfold validSpans at hvalid
    intro sp hsp
    have h1 := List.all_eq_true.mp hvalid sp hsp
    simpa using h1
  refine ⟨⟨?_, ?_, ?_, ?_, ?_⟩,
          ⟨⟨0, none, false⟩, ?_, ?_, ?_, ?_⟩, ?_, ?_⟩
  · exact chainB_pairwise_start hsort
  · intro sp _
    exact Nat.zero_le _
  · intro sp hsp
    exact hvalid2 sp hsp
  · intro e he
    cases he
  · exact List.Pairwise.nil
  · rfl
  · left
    intro ev hev
    cases hev
  · intro a b hab
    cases hab
  · intro hp
    cases hp
  · exact Nat.zero_le _
  · intro q hq
    cases hq

/-! ## Claims -/

/-- C9: an empty input span vector is not an error: the first call to
`SpanIter::next` reports exhaustion, iterating `span_iter []` yields the
empty event stream, and `flat_span_iter []` also yields no events. -/
theorem C9_empty_input_yields_empty_stream :
    (span_iter []).next = StepResult.done ∧
    (span_iter []).run 1 = RunResult.ok [] ∧
    flat_span_iter [] = [] :=
  ⟨rfl, rfl, rfl⟩

/-- C10: the ordering on `Span` never inspects the `scope` field — replacing
the scopes of both operands by anything leaves `Span.cmp` unchanged, so the
comparison is decided solely by `(start ascending, end descending)`; in
particular two spans with equal `start` and `end` but different scopes
compare `Equal` although they are not structurally equal. -/
theorem C10_cmp_ignores_scope (a b : Span) :
    (∀ c d : Nat,
      (Span.mk c a.start a.«end»).cmp (Span.mk d b.start b.«end») = a.cmp b) ∧
    (a.start = b.start → a.«end» = b.«end» → a.scope ≠ b.scope →
      a.cmp b = Ordering.eq ∧ a ≠ b) := by
  constructor
  · intro c d
    simp [Span.cmp]
  · intro hs he hscope
    refine ⟨?_, ?_⟩
    · have hc : compare b.«end» b.«end» = Ordering.eq := Nat.compare_eq_eq.mpr rfl
      simp [Span.cmp, hs, he, hc, Ordering.swap]
    · intro hab
      exact hscope (congrArg Span.scope hab)

/-- Witness for C10 at the concrete pair `(1,2,3)` and `(2,2,3)`. -/
theorem C10_cmp_ignores_scope_witness :
    (Span.mk 1 2 3).cmp (Span.mk 2 2 3) = Ordering.eq ∧
    Span.mk 1 2 3 ≠ Span.mk 2 2 3 :=
  (C10_cmp_ignores_scope ⟨1, 2, 3⟩ ⟨2, 2, 3⟩).2 rfl rfl (by decide)

/-- C2: for every span vector sorted by `(start ascending, end descending)`
(the precondition of `span_iter`) whose spans are valid half-open ranges
(`start ≤ end`, the data model of the spec), every complete run of
`span_iter` produces a well-formed event stream: `HighlightStart` and
`HighlightEnd` events balance with every prefix count non-negative, every
`Source` has `start < end`, no two `Source` events are consecutive and
successive `Source{a,b}`, `Source{c,d}` windows satisfy `a < c` and
`b ≤ c` — which also places a `Start` or `End` between any two neighbouring
`Source` events. -/
theorem C2_stream_well_formed (spans : List Span) (fuel : Nat)
    (hsort : sortedSpans spans) (hvalid : validSpans spans) :
    ∀ evs, (span_iter spans).run fuel = RunResult.ok evs →
      wellFormedB evs = true := by
  intro evs hrun
  have hvalid' : ∀ sp ∈ spans, sp.start ≤ sp.«end» := by
    unfold validSpans at hvalid
    intro sp hsp
    have h1 := List.all_eq_true.mp hvalid sp hsp
    simpa using h1
  have hI : MInv (span_iter spans) := by
    refine ⟨?_, ?_, ?_, ?_, ?_⟩
    · exact chainB_pairwise_start hsort
    · intro sp _
      exact Nat.zero_le _
    · intro sp hsp
      exact hvalid' sp hsp
    · intro e he
      cases he
    · exact List.Pairwise.nil
  have hR : CRel ⟨0, none, false⟩ (span_iter spans) := by
    refine ⟨?_, ?_, ?_, ?_⟩
    · rfl
    · left
      intro ev hev
      cases hev
    · intro a b hab
      cases hab
    · intro hp
      cases hp
  obtain ⟨fin, hce, hf⟩ :=
    run_wellFormed fuel (span_iter spans) ⟨0, none, false⟩ hI hR (Nat.zero_le _) evs hrun
  unfold wellFormedB
  rw [hce]
  simp [hf]

/-- Witness for C2 at the five-way-overlap input: the hypotheses hold by
computation and the produced stream is accepted by the checker. -/
theorem C2_stream_well_formed_witness :
    sortedSpans manyOverlapInput ∧ validSpans manyOverlapInput ∧
    (span_iter manyOverlapInput).run 100 = RunResult.ok manyOverlapEvents ∧
    wellFormedB manyOverlapEvents = true :=
  ⟨by decide, by decide, by decide,
   C2_stream_well_formed manyOverlapInput 100 (by decide) (by decide)
     manyOverlapEvents (by decide)⟩

/-- C4: for every input span vector, regardless of the sort precondition,
iterating `span_iter` to completion never indexes out of bounds: every
indexing operation of the iterator (the reads `spans[index]`, the slices
`spans[i..]` and `spans[index..first_sorted_span]`, the `rotate_left`
midpoint, and the checked accesses to the open-ends vector and the event
queue, all of which surface as the `oobAt` marker in this embedding) stays
within bounds for any number of steps. -/
theorem C4_no_out_of_bounds_indexing (spans : List Span) (fuel : Nat) :
    ((span_iter spans).run fuel).isOob = false :=
  run_never_oob fuel (span_iter spans) (Nat.zero_le _)

/-- C5 counterexample: on the five-way-overlap input the translator
produces exactly 21 events, not 22 as claimed; the expected stream of the
unit test `test_many_overlapping_span_iter_events` also has 21 entries. -/
theorem C5_event_count_counterexample :
    (span_iter manyOverlapInput).run 100 = RunResult.ok manyOverlapEvents ∧
    manyOverlapEvents.length ≠ 22 := by
  decide

/-- C5 (amended: 21 events instead of 22): the five-way-overlap input
produces exactly 21 events ending with
`Start(5), Start(4), Source{13,15}, End, End`; the stream is well-formed and
its `HighlightSet` matches the `HighlightSet` of the input spans. -/
theorem C5_five_way_overlap :
    (span_iter manyOverlapInput).run 100 = RunResult.ok manyOverlapEvents ∧
    manyOverlapEvents.length = 21 ∧
    manyOverlapEvents.drop 16 =
      [.highlightStart ⟨5⟩, .highlightStart ⟨4⟩, .source 13 15,
       .highlightEnd, .highlightEnd] ∧
    wellFormedB manyOverlapEvents = true ∧
    HighlightSet.fromEvents manyOverlapEvents = HighlightSet.fromSpans manyOverlapInput := by
  decide

/-- C1 evaluated at the failing input: `semBugInput` satisfies every
precondition (sorted by `(start asc, end desc)`, scopes below 128, valid
half-open ranges), the translator completes normally, and yet the
`HighlightSet` of the produced events differs from the `HighlightSet` of the
spans: byte 7 receives scope set `{1, 2}` instead of `{1, 3}`. -/
theorem C1_semantic_preservation_fails_on_code :
    sortedSpans semBugInput ∧ validSpans semBugInput ∧
    (∀ sp ∈ semBugInput, sp.scope < 128) ∧
    (span_iter semBugInput).run 100 = RunResult.ok semBugEvents ∧
    HighlightSet.fromSpans semBugInput ≠ HighlightSet.fromEvents semBugEvents := by
  decide

/-- C7: under the flat-path precondition, `flat_span_iter` emits for each
non-empty span, in input order, exactly the triple
`Start(scope), Source{start,end}, End`, and drops empty spans. -/
theorem C7_flat_iter_emits_triples (spans : List Span)
    (hfp : nonOverlappingSpans spans) :
    flat_span_iter spans =
      spans.foldr (fun span acc =>
        if span.start = span.«end» then acc
        else
          HighlightEvent.highlightStart ⟨span.scope⟩ ::
          HighlightEvent.source span.start span.«end» ::
          HighlightEvent.highlightEnd :: acc) [] := by
  induction spans with
  | nil => rfl
  | cons s rest ih =>
    have htail : nonOverlappingSpans rest := by
      cases rest with
      | nil => rfl
      | cons t ts =>
        have hstep : chainB (fun a b => decide (a.«end» ≤ b.start)) (s :: t :: ts) =
            (decide (s.«end» ≤ t.start) &&
              chainB (fun a b => decide (a.«end» ≤ b.start)) (t :: ts)) := rfl
        unfold nonOverlappingSpans at hfp ⊢
        rw [hstep] at hfp
        exact ((Bool.and_eq_true _ _).mp hfp).2
    have ih' := ih htail
    by_cases h : s.start = s.«end»
    · simpa [flat_span_iter, List.filter_cons, h] using ih'
    · simpa [flat_span_iter, List.filter_cons, h] using ih'

/-- Witness for C7 at a concrete non-overlapping input containing an empty
span. -/
theorem C7_flat_iter_emits_triples_witness :
    nonOverlappingSpans [⟨1, 0, 2⟩, ⟨2, 2, 2⟩, ⟨3, 3, 5⟩] ∧
    flat_span_iter [⟨1, 0, 2⟩, ⟨2, 2, 2⟩, ⟨3, 3, 5⟩] =
      [Span.mk 1 0 2, ⟨2, 2, 2⟩, ⟨3, 3, 5⟩].foldr (fun span acc =>
        if span.start = span.«end» then acc
        else
          HighlightEvent.highlightStart ⟨span.scope⟩ ::
          HighlightEvent.source span.start span.«end» ::
          HighlightEvent.highlightEnd :: acc) [] :=
  ⟨by decide, C7_flat_iter_emits_triples _ (by decide)⟩

/-- C8: for sets built by the provided constructors (from spans or from
events), equality holds exactly when the two sets agree on the scope-set
bitmask of every byte position.  Since both constructors trim trailing
all-zero positions and `getD` reads the empty scope set past the end of the
vector, agreement at every position is the same as agreement up to the last
position with a nonzero scope set, and trailing zeros cannot affect
equality. -/
theorem C8_equality_ignores_trailing_zeros (s₁ s₂ : HighlightSet)
    (h₁ : s₁.builtByConstructors) (h₂ : s₂.builtByConstructors) :
    s₁ = s₂ ↔ ∀ i, s₁.masks.getD i 0 = s₂.masks.getD i 0 := by
  constructor
  · intro h i
    rw [h]
  · intro hagree
    obtain ⟨m₁⟩ := s₁
    obtain ⟨m₂⟩ := s₂
    have := noTrailingZero_ext m₁ m₂
      (builtByConstructors_noTrailingZero _ h₁)
      (builtByConstructors_noTrailingZero _ h₂) hagree
    rw [this]

/-- Witness for C8: a set built from one span and a set built from the
equivalent event triple, compared through the theorem. -/
theorem C8_equality_ignores_trailing_zeros_witness :
    HighlightSet.fromSpans [⟨1, 0, 2⟩] =
        HighlightSet.fromEvents
          [.highlightStart ⟨1⟩, .source 0 2, .highlightEnd] ↔
      ∀ i, (HighlightSet.fromSpans [⟨1, 0, 2⟩]).masks.getD i 0 =
        (HighlightSet.fromEvents
          [.highlightStart ⟨1⟩, .source 0 2, .highlightEnd]).masks.getD i 0 :=
  C8_equality_ignores_trailing_zeros _ _ (Or.inl ⟨_, rfl⟩) (Or.inr ⟨_, rfl⟩)

/-- C3 (amended: the full `(start ascending, end descending)` sort order is
required, not sorted-by-start alone): for every span vector sorted by
`(start asc, end desc)`, strictly non-overlapping (each start at least the
previous end) and valid (`start ≤ end` per span), every complete run of
`span_iter` and the stream of `flat_span_iter` yield equal
`HighlightSet`s. -/
theorem C3_flat_path_equivalence (spans : List Span) (fuel : Nat)
    (hsort : sortedSpans spans) (hnov : nonOverlappingSpans spans)
    (hvalid : validSpans spans) :
    ∀ evs, (span_iter spans).run fuel = RunResult.ok evs →
      HighlightSet.fromEvents evs =
      HighlightSet.fromEvents (flat_span_iter spans) := by
  intro evs hrun
  have hval' : ∀ sp ∈ spans, sp.start ≤ sp.«end» := by
    unfold validSpans at hvalid
    intro sp hsp
    have h1 := List.all_eq_true.mp hvalid sp hsp
    simpa using h1
  have hmono : spans.Pairwise lebProp := chainB_pairwise_leb hsort
  have hnov' : spans.Pairwise (fun a b => a.«end» ≤ b.start) :=
    chainB_pairwise_nonoverlap hval' hnov
  have hchar := run_flat_char fuel (span_iter spans)
    (List.replicate 0 HighlightEvent.highlightEnd)
    rfl (Nat.zero_le _) hmono hnov' hval'
    (fun sp _ => Nat.zero_le _)
    (by intro e he; cases he)
    (PendOK.rep _ 0 rfl)
    evs hrun
  rw [hchar]
  exact fromEvents_expEvents_flat spans hmono hval'

/-- The sorted, non-overlapping input of the C3 witness, containing a tie
group of two zero-width spans. -/
def flatOkInput : List Span := [⟨1, 0, 2⟩, ⟨2, 2, 2⟩, ⟨3, 2, 2⟩, ⟨4, 3, 5⟩]

/-- The stream `span_iter` produces on `flatOkInput`. -/
def flatOkEvents : List HighlightEvent :=
  [.highlightStart ⟨1⟩, .source 0 2, .highlightEnd,
   .highlightStart ⟨2⟩, .highlightStart ⟨3⟩, .highlightEnd, .highlightEnd,
   .highlightStart ⟨4⟩, .source 3 5, .highlightEnd]

/-- Witness for C3 at `flatOkInput`. -/
theorem C3_flat_path_equivalence_witness :
    sortedSpans flatOkInput ∧ nonOverlappingSpans flatOkInput ∧
    validSpans flatOkInput ∧
    (span_iter flatOkInput).run 100 = RunResult.ok flatOkEvents ∧
    HighlightSet.fromEvents flatOkEvents =
      HighlightSet.fromEvents (flat_span_iter flatOkInput) :=
  ⟨by decide, by decide, by decide, by decide,
   C3_flat_path_equivalence flatOkInput 100 (by decide) (by decide) (by decide)
     flatOkEvents (by decide)⟩

/-- The input of the C3 counterexample: sorted by start and strictly
non-overlapping, but with the empty span before the wider span at the tied
start 2, so it violates the `(start asc, end desc)` order. -/
def flatEqInput : List Span := [⟨1, 2, 2⟩, ⟨2, 2, 5⟩]

/-- The stream `span_iter` produces on `flatEqInput`: the `End` at byte 2
closes span 2 (LIFO), so bytes 2..5 are attributed to scope 1. -/
def flatEqSpanIterEvents : List HighlightEvent :=
  [.highlightStart ⟨1⟩, .highlightStart ⟨2⟩, .highlightEnd,
   .source 2 5, .highlightEnd]

/-- C3 counterexample: `flatEqInput` is sorted by start ascending and
strictly non-overlapping (each start is at least the previous end), yet the
`HighlightSet`s of `span_iter` and `flat_span_iter` differ: `span_iter`
attributes bytes 2..5 to scope 1, `flat_span_iter` to scope 2. -/
theorem C3_flat_equivalence_counterexample :
    chainB (fun a b => decide (a ≤ b)) (flatEqInput.map Span.start) = true ∧
    nonOverlappingSpans flatEqInput ∧
    validSpans flatEqInput ∧
    (span_iter flatEqInput).run 100 = RunResult.ok flatEqSpanIterEvents ∧
    HighlightSet.fromEvents flatEqSpanIterEvents ≠
      HighlightSet.fromEvents (flat_span_iter flatEqInput) := by
  decide

/-- **C6**: a zero-width span never gives rise to a `Source` event. The
ghost machine `span_iterG` is `span_iter` with each open end tagged by
whether the span that pushed it in `start_span` was zero-width
(`span.start == span.end`); erasing the tags gives back `span_iter`
exactly, so the two runs coincide for every fuel (first conjunct). The
second conjunct checks, step by step along the whole ghost run, that every
step yielding a `Source` event starts from a state with no tag set: while
a zero-width span is open — from the step that queues its
`HighlightStart` to the step that pops its end and yields its
`HighlightEnd` — no `Source` event is emitted, so its `Start` and `End`
enclose no `Source`, and in particular the pop of a tagged end yields a
bare `HighlightEnd`, never a `Source` on the zero-width span's behalf. The
third conjunct adds that every `Source` of a completed run satisfies
`start < end`, so no `Source` in the stream covers a zero-width range.
Hypotheses: the claim's sort order plus the data model's `start ≤ end` per
span. -/
theorem C6_zero_width_no_source (spans : List Span) (fuel : Nat)
    (hsort : sortedSpans spans) (hvalid : validSpans spans) :
    SpanIterG.run fuel (span_iterG spans) = (span_iter spans).run fuel ∧
    ghostSourceFreeB fuel (span_iterG spans) = true ∧
    (∀ evs, (span_iter spans).run fuel = RunResult.ok evs →
      ∀ a b, HighlightEvent.source a b ∈ evs → a < b) := by
  have herase : eraseG (span_iterG spans) = span_iter spans := rfl
  refine ⟨?_, ?_, ?_⟩
  · rw [← herase]
    exact runG_erase fuel (span_iterG spans)
  · exact ghostSourceFreeB_of_good fuel (span_iterG spans)
      (goodG_init spans hsort hvalid)
  · intro evs hrun a b hmem
    obtain ⟨hI, ⟨c, hR⟩, _, _⟩ := goodG_init spans hsort hvalid
    rw [herase] at hI hR
    obtain ⟨fin, hce, _⟩ :=
      run_wellFormed fuel (span_iter spans) c hI hR (Nat.zero_le _) evs hrun
    exact checkEvents_source_lt evs c fin hce a b hmem

/-- The input of the repo's `empty_span_at_sublice_start` unit test, whose
last span `(5, 2..2)` is zero-width. -/
def zwInput : List Span :=
  [⟨1, 0, 3⟩, ⟨2, 0, 2⟩, ⟨3, 1, 4⟩, ⟨4, 2, 3⟩, ⟨5, 2, 2⟩]

/-- Witness for C6 at the `empty_span_at_sublice_start` input: the
hypotheses hold by computation and the theorem applies at fuel 64, enough
to complete the run. -/
theorem C6_zero_width_no_source_witness :
    sortedSpans zwInput ∧ validSpans zwInput ∧
    (SpanIterG.run 64 (span_iterG zwInput) = (span_iter zwInput).run 64 ∧
     ghostSourceFreeB 64 (span_iterG zwInput) = true ∧
     (∀ evs, (span_iter zwInput).run 64 = RunResult.ok evs →
       ∀ a b, HighlightEvent.source a b ∈ evs → a < b)) :=
  ⟨by decide, by decide,
   C6_zero_width_no_source zwInput 64 (by decide) (by decide)⟩

end HelixSpan
